import Mathlib

/-!
# The `preprocess` line scanner

A shallow embedding of `lib/preprocess/preprocess.go` (package `preprocess`).

* A Go `[]byte` and a Go `string` are both a list of byte values (`Bytes`).
* A Go `map[string][]byte` is an association list without repeated keys; the order in which
  a `range` loop visits it is not fixed by Go, so it is supplied by a `MapOrder`.
* The input reader is the finite list of bytes it yields; such a reader raises no read error
  other than `io.EOF`.
* A `panic` carrying an `error` is recovered by `start` and returned: it is the `error`
  branch of `Except`.
* The driving loop of `start` need not terminate, so it carries a step budget and returns
  `none` when the budget is used up.
-/

namespace Preprocess

/-- A byte slice, one `Nat` per byte. -/
abbrev Bytes := List Nat

/-- UTF-8 encoding of one code point. -/
def utf8Encode (c : Nat) : Bytes :=
  if c < 0x80 then [c]
  else if c < 0x800 then [0xC0 + c / 64, 0x80 + c % 64]
  else if c < 0x10000 then [0xE0 + c / 4096, 0x80 + c / 64 % 64, 0x80 + c % 64]
  else [0xF0 + c / 262144, 0x80 + c / 4096 % 64, 0x80 + c / 64 % 64, 0x80 + c % 64]

/-- The bytes of a string literal, as Go stores it. -/
def bytesOf (s : String) : Bytes :=
  (s.toList.map (fun c => utf8Encode c.toNat)).flatten

/-! ## Go standard library -/

/-- Go `bytes.HasPrefix(s, p)` and `strings.HasPrefix(s, p)`. -/
def hasPrefix (s p : Bytes) : Bool := p.isPrefixOf s

/-- Go `bytes.Index(s, sep)`: the first position at which `sep` occurs, `none` for `-1`. -/
def Index : Bytes → Bytes → Option Nat
  | [], sep => if hasPrefix [] sep then some 0 else none
  | a :: s, sep => if hasPrefix (a :: s) sep then some 0 else (Index s sep).map (· + 1)

/-- Go `bytes.Contains(b, sub)`, which is `Index(b, sub) != -1`. -/
def Contains (b sub : Bytes) : Bool := (Index b sub).isSome

/-- Go `utf8.RuneError`. -/
def RuneError : Nat := 0xFFFD

/-- Go `utf8.RuneSelf`. -/
def RuneSelf : Nat := 0x80

/-- A UTF-8 continuation byte (`locb ≤ b ≤ hicb`). -/
def isCont (b : Nat) : Bool := 0x80 ≤ b && b ≤ 0xBF

/-- Go `utf8.DecodeRune(p)`: the first rune of `p` and its width in bytes; an invalid
encoding gives `(RuneError, 1)`, an empty slice `(RuneError, 0)`. -/
def DecodeRune : Bytes → Nat × Nat
  | [] => (RuneError, 0)
  | p0 :: t =>
    if p0 < 0x80 then (p0, 1)
    else if p0 < 0xC2 then (RuneError, 1)
    else if p0 < 0xE0 then
      match t with
      | b1 :: _ => if isCont b1 then ((p0 % 32) * 64 + b1 % 64, 2) else (RuneError, 1)
      | _ => (RuneError, 1)
    else if p0 < 0xF0 then
      let lo := if p0 = 0xE0 then 0xA0 else 0x80
      let hi := if p0 = 0xED then 0x9F else 0xBF
      match t with
      | b1 :: b2 :: _ =>
        if lo ≤ b1 && b1 ≤ hi then
          if isCont b2 then ((p0 % 16) * 4096 + (b1 % 64) * 64 + b2 % 64, 3)
          else (RuneError, 1)
        else (RuneError, 1)
      | _ => (RuneError, 1)
    else if p0 < 0xF5 then
      let lo := if p0 = 0xF0 then 0x90 else 0x80
      let hi := if p0 = 0xF4 then 0x8F else 0xBF
      match t with
      | b1 :: b2 :: b3 :: _ =>
        if lo ≤ b1 && b1 ≤ hi then
          if isCont b2 then
            if isCont b3 then
              ((p0 % 8) * 262144 + (b1 % 64) * 4096 + (b2 % 64) * 64 + b3 % 64, 4)
            else (RuneError, 1)
          else (RuneError, 1)
        else (RuneError, 1)
      | _ => (RuneError, 1)
    else (RuneError, 1)

/-- Go `unicode.IsSpace(r)`. -/
def IsSpace (r : Nat) : Bool :=
  if r ≤ 0xFF then
    r == 0x09 || r == 0x0A || r == 0x0B || r == 0x0C || r == 0x0D || r == 0x20
      || r == 0x85 || r == 0xA0
  else
    r == 0x1680 || (0x2000 ≤ r && r ≤ 0x200A) || r == 0x2028 || r == 0x2029 || r == 0x202F
      || r == 0x205F || r == 0x3000

/-- The loop of Go `strings.FieldsFunc(s, unicode.IsSpace)`, which `strings.Fields(s)` equals:
it walks `s` rune by rune, closes the open span at a space rune and opens one at a rune that
is not a space. `skip` is the number of bytes of the current rune still to be passed over and
`cur` the open span. -/
def fieldsLoop : Bytes → Nat → Option Bytes → List Bytes
  | [], _, none => []
  | [], _, some t => [t]
  | b :: s, skip + 1, cur => fieldsLoop s skip (cur.map (· ++ [b]))
  | b :: s, 0, cur =>
    if IsSpace (DecodeRune (b :: s)).1 then
      match cur with
      | some t => t :: fieldsLoop s ((DecodeRune (b :: s)).2 - 1) none
      | none => fieldsLoop s ((DecodeRune (b :: s)).2 - 1) none
    else
      fieldsLoop s ((DecodeRune (b :: s)).2 - 1) (some (cur.getD [] ++ [b]))

/-- Go `strings.Fields(s)`. -/
def Fields (s : Bytes) : List Bytes := fieldsLoop s 0 none

/-- Go `utf8.RuneStart(b)`. -/
def RuneStart (b : Nat) : Bool := !isCont b

/-- The backward scan of Go `utf8.DecodeLastRune`:
`for start--; start >= lim; start-- { if RuneStart(p[start]) { break } }`. -/
def lastRuneScan (p : Bytes) (lim : Int) : Nat → Int → Int
  | 0, start => start
  | n + 1, start =>
    if lim ≤ start then
      if RuneStart (p.getD start.toNat 0) then start else lastRuneScan p lim n (start - 1)
    else start

/-- Go `utf8.DecodeLastRune(p)`: the last rune of `p` and its width. -/
def DecodeLastRune (p : Bytes) : Nat × Nat :=
  if p.length = 0 then (RuneError, 0)
  else
    let last := p.getD (p.length - 1) 0
    if last < RuneSelf then (last, 1)
    else
      let lim : Int := if (p.length : Int) - 4 < 0 then 0 else (p.length : Int) - 4
      let start0 := lastRuneScan p lim 4 ((p.length : Int) - 2)
      let start := if start0 < 0 then 0 else start0.toNat
      let d := DecodeRune (p.drop start)
      if start + d.2 ≠ p.length then (RuneError, 1) else d

/-- Go `bytes.lastIndexFunc(s, unicode.IsSpace, false)`, started at `i`: the position of the
last rune of `s[0:i]` that is not a space, `none` for `-1`. The first argument bounds the
number of iterations; `i` of them suffice since each one lowers `i`. -/
def lastIndexFunc (s : Bytes) : Nat → Nat → Option Nat
  | 0, _ => none
  | n + 1, i =>
    if i = 0 then none
    else
      let d := if s.getD (i - 1) 0 < RuneSelf then (s.getD (i - 1) 0, 1)
               else DecodeLastRune (s.take i)
      if IsSpace d.1 = false then some (i - d.2) else lastIndexFunc s n (i - d.2)

/-- Go `bytes.TrimRightFunc(s, unicode.IsSpace)`. -/
def TrimRightSpace (s : Bytes) : Bytes :=
  match lastIndexFunc s s.length s.length with
  | some i =>
    if RuneSelf ≤ s.getD i 0 then s.take (i + (DecodeRune (s.drop i)).2) else s.take (i + 1)
  | none => s.take 0

/-- Go `bytes.Replace(s, old, new, -1)` for an empty `old`: `new` is put before every rune of
`s` and after the last one. -/
def replaceEmpty (new : Bytes) : Bytes → Nat → Bytes
  | [], _ => new
  | b :: s, skip + 1 => b :: replaceEmpty new s skip
  | b :: s, 0 => new ++ b :: replaceEmpty new s ((DecodeRune (b :: s)).2 - 1)

/-- Go `bytes.Replace(s, old, new, -1)` for a non-empty `old`: from left to right every
occurrence of `old` that does not overlap an earlier one becomes `new`. `skip` is the number
of bytes of the occurrence just replaced that are still to be passed over. -/
def replaceLoop (old new : Bytes) : Bytes → Nat → Bytes
  | [], _ => []
  | _ :: s, skip + 1 => replaceLoop old new s skip
  | b :: s, 0 =>
    if hasPrefix (b :: s) old then new ++ replaceLoop old new s (old.length - 1)
    else b :: replaceLoop old new s 0

/-- Go `bytes.Replace(s, old, new, -1)`. -/
def Replace (s old new : Bytes) : Bytes :=
  if old = [] then replaceEmpty new s 0 else replaceLoop old new s 0

/-- Go `bytes.SplitN(s, sep, 2)`. With an empty `sep` the slice is exploded
(`bytes.explode(s, 2)`): no part for an empty slice, the slice itself when it has one byte,
else its first rune and, when bytes are left after that rune, the rest. -/
def SplitN2 (s sep : Bytes) : List Bytes :=
  if sep = [] then
    if s.length = 0 then []
    else if s.length = 1 then [s]
    else if s.drop (DecodeRune s).2 = [] then [s.take (DecodeRune s).2]
    else [s.take (DecodeRune s).2, s.drop (DecodeRune s).2]
  else
    match Index s sep with
    | none => [s]
    | some m => [s.take m, s.drop (m + sep.length)]

/-- Go `(*bufio.Reader).ReadBytes(10)` on a reader that yields the given bytes: the bytes up to
and including the first newline, the unread rest, and whether the error is `io.EOF` (no
newline was found). -/
def ReadBytes : Bytes → Bytes × Bytes × Bool
  | [] => ([], [], true)
  | b :: rest =>
    if b = 10 then ([b], rest, false)
    else ((b :: (ReadBytes rest).1), (ReadBytes rest).2.1, (ReadBytes rest).2.2)

/-! ## Go maps -/

/-- A Go `map[string][]byte`. -/
abbrev Table := List (Bytes × Bytes)

/-- Go `v, ok := m[k]`. -/
def Table.get (m : Table) (k : Bytes) : Option Bytes := m.lookup k

/-- Go `m[k] = v`. -/
def Table.set (m : Table) (k v : Bytes) : Table := m.filter (fun e => e.1 != k) ++ [(k, v)]

/-- The order in which `range` visits a map: Go leaves it open, and it may differ from one
loop to the next. `pick n m` is the order used by the loop run while line `n` is handled. -/
structure MapOrder where
  pick : Nat → Table → Table
  perm : ∀ n m, (pick n m).Perm m

/-- The order in which the entries were stored. -/
def MapOrder.stored : MapOrder := ⟨fun _ m => m, fun _ _ => List.Perm.refl _⟩

/-- The reverse of the order in which the entries were stored. -/
def MapOrder.reversed : MapOrder := ⟨fun _ m => m.reverse, fun _ m => List.reverse_perm m⟩

/-! ## Errors -/

/-- The texts given to `scanner.error`, one per call site. -/
inductive Msg where
  /-- The text "unexpected end directive". -/
  | unexpectedEnd
  /-- The text "unknown template - must be defined beforehand". -/
  | unknownTemplate
  /-- The text "replace needs both sentinel and replacement". -/
  | malformedReplace
  /-- The text "expected 'if' for include directive". -/
  | missingIfClause
  /-- The text made by `fmt.Sprintf("unknown directive %q", pragma[0])`. -/
  | unknownDirective (token : Bytes)
  /-- The text "PARANOID: bad use of splitPrefix". -/
  | paranoid
  deriving DecidableEq, Repr

/-- The errors `start` recovers and returns. -/
inductive Err where
  /-- The value `fmt.Errorf("%d: %s", s.lineNumber, e)` made by `scanner.error`. -/
  | scan (lineNumber : Nat) (e : Msg)
  /-- The Go runtime error "index out of range [index] with length length". -/
  | indexOutOfRange (index : Int) (length : Nat)
  /-- The Go runtime error "slice bounds out of range". -/
  | sliceOutOfRange
  deriving DecidableEq, Repr

/-- The text of a `scanner.error` argument; `quote` stands for the `%q` verb of Go `fmt`. -/
def Msg.text (quote : Bytes → String) : Msg → String
  | .unexpectedEnd => "unexpected end directive"
  | .unknownTemplate => "unknown template - must be defined beforehand"
  | .malformedReplace => "replace needs both sentinel and replacement"
  | .missingIfClause => "expected 'if' for include directive"
  | .unknownDirective token => "unknown directive " ++ quote token
  | .paranoid => "PARANOID: bad use of splitPrefix"

/-- The message of a returned error (Go `err.Error()`). -/
def Err.Error (quote : Bytes → String) : Err → String
  | .scan lineNumber e => toString lineNumber ++ ": " ++ e.text quote
  | .indexOutOfRange index length =>
    "runtime error: index out of range [" ++ toString index ++ "] with length " ++ toString length
  | .sliceOutOfRange => "runtime error: slice bounds out of range"

/-! ## The scanner -/

/-- Go `type state func(io.Writer, []byte)`: the three handlers the scanner puts on its stack.
The closure returned by `scanner.def(name)` owns the variable `content`; it is kept in the
stack entry. -/
inductive state where
  | neutral
  | consumeUntilEnd
  | defn (name : Bytes) (content : Bytes)
  deriving DecidableEq, Repr

/-- Go `type scanner struct`. `flags` lists the keys of the Go map, whose values are all
`true`; `state` has the top of the stack (the last element of the Go slice) at its head; `w`
is the content of the output buffer; `r` is what the reader has not yet yielded. -/
structure scanner where
  templates : Table
  replacements : Table
  flags : List Bytes
  pfx : Bytes
  state : List state
  w : Bytes
  lineNumber : Nat
  r : Bytes
  eof : Bool
  deriving DecidableEq, Repr

/-- Go `s.flags[k]`. -/
def scanner.flag (s : scanner) (k : Bytes) : Bool := s.flags.contains k

/-- Go `xs[i]` for a slice of tokens: a failed lookup panics with a runtime error. -/
def index (xs : List Bytes) (i : Nat) : Except Err Bytes :=
  match xs.get? i with
  | some x => .ok x
  | none => .error (.indexOutOfRange i xs.length)

/-- Go `scanner.pushState`. -/
def scanner.pushState (s : scanner) (t : Preprocess.state) : scanner :=
  { s with state := t :: s.state }

/-- The error value `scanner.error(e)` panics with. -/
def scanner.error (s : scanner) (e : Msg) : Err := .scan s.lineNumber e

/-- Go `scanner.popState`. -/
def scanner.popState (s : scanner) : Except Err scanner :=
  if s.state.length = 1 then .error (s.error .unexpectedEnd)
  else
    match s.state with
    | [] => .error .sliceOutOfRange
    | _ :: below => .ok { s with state := below }

/-- Go `scanner.line`: the next line and the scanner after the read. -/
def scanner.line (s : scanner) : Bytes × scanner :=
  ((ReadBytes s.r).1,
   { s with
     r := (ReadBytes s.r).2.1
     eof := if (ReadBytes s.r).2.2 then true else s.eof
     lineNumber := s.lineNumber + 1 })

/-- Go `scanner.applyReplacements`. -/
def scanner.applyReplacements (o : MapOrder) (s : scanner) (line : Bytes) : Bytes :=
  (o.pick s.lineNumber s.replacements).foldl (fun l e => Replace l e.1 e.2) line

/-- Go `scanner.splitPrefix`. -/
def scanner.splitPrefix (s : scanner) (line : Bytes) : Except Err (Bytes × List Bytes) :=
  if !Contains line s.pfx then .error (s.error .paranoid)
  else
    match SplitN2 line s.pfx with
    | [] => .error (.indexOutOfRange 0 0)
    | [_] => .error (.indexOutOfRange 1 1)
    | before :: after :: _ => .ok (before, Fields after)

/-- The directive names. -/
def kwEnd : Bytes := bytesOf "end"
def kwDef : Bytes := bytesOf "def"
def kwIf : Bytes := bytesOf "if"
def kwOmit : Bytes := bytesOf "omit"
def kwInclude : Bytes := bytesOf "include"
def kwTemplate : Bytes := bytesOf "template"
def kwReplace : Bytes := bytesOf "replace"
def kwEnddef : Bytes := bytesOf "enddef"
def kwTrue : Bytes := bytesOf "true"
def kwBang : Bytes := bytesOf "!"

/-- The test made by `if`, `omit if` and `include if` on a flag token:
`s.flags[x] || (strings.HasPrefix(x, "!") && !s.flags[x[1:]])`. -/
def scanner.flagTest (s : scanner) (x : Bytes) : Bool :=
  s.flag x || (hasPrefix x kwBang && !s.flag (x.drop 1))

/-- The two writes of the `omit` and `include` cases:
`w.Write(s.applyReplacements(bytes.TrimRightFunc(before, unicode.IsSpace)))` and
`w.Write([]byte("\n"))`. -/
def scanner.writeLeft (o : MapOrder) (s : scanner) (before : Bytes) : scanner :=
  { s with w := s.w ++ s.applyReplacements o (TrimRightSpace before) ++ [10] }

/-- Go `scanner.neutral`. -/
def scanner.neutral (o : MapOrder) (s : scanner) (line : Bytes) : Except Err scanner :=
  if !Contains line s.pfx then .ok { s with w := s.w ++ s.applyReplacements o line }
  else
    match s.splitPrefix line with
    | .error e => .error e
    | .ok (before, pragma) =>
      match index pragma 0 with
      | .error e => .error e
      | .ok p0 =>
        if p0 = kwEnd then s.popState
        else if p0 = kwDef then
          match index pragma 1 with
          | .error e => .error e
          | .ok name => .ok (s.pushState (.defn name []))
        else if p0 = kwIf then
          match index pragma 1 with
          | .error e => .error e
          | .ok p1 =>
            if s.flag p1 then .ok (s.pushState .neutral)
            else if hasPrefix p1 kwBang && !s.flag (p1.drop 1) then .ok (s.pushState .neutral)
            else .ok (s.pushState .consumeUntilEnd)
        else if p0 = kwOmit then
          if 2 < pragma.length && pragma.get? 1 = some kwIf then
            match index pragma 2 with
            | .error e => .error e
            | .ok p2 =>
              if s.flag p2 then .ok s
              else if hasPrefix p2 kwBang && !s.flag (p2.drop 1) then .ok s
              else .ok (s.writeLeft o before)
          else .ok s
        else if p0 = kwInclude then
          if 2 < pragma.length then
            if pragma.get? 1 ≠ some kwIf then .error (s.error .missingIfClause)
            else
              match index pragma 2 with
              | .error e => .error e
              | .ok p2 =>
                if s.flag p2 || (hasPrefix p2 kwBang && !s.flag (p2.drop 1)) then
                  .ok (s.writeLeft o before)
                else .ok s
          else .ok s
        else if p0 = kwTemplate then
          match index pragma 1 with
          | .error e => .error e
          | .ok name =>
            match s.templates.get name with
            | none => .error (s.error .unknownTemplate)
            | some contents => .ok { s with r := contents ++ s.r }
        else if p0 = kwReplace then
          if pragma.length < 3 then .error (s.error .malformedReplace)
          else
            match index pragma 1, index pragma 2 with
            | .ok sentinel, .ok replacement =>
              .ok { s with replacements := s.replacements.set sentinel replacement }
            | .error e, _ => .error e
            | _, .error e => .error e
        else .error (s.error (.unknownDirective p0))

/-- Go `scanner.consumeUntilEnd`. -/
def scanner.consumeUntilEnd (s : scanner) (line : Bytes) : Except Err scanner :=
  if !Contains line s.pfx then .ok s
  else
    match s.splitPrefix line with
    | .error e => .error e
    | .ok (_, pragma) =>
      match index pragma 0 with
      | .error e => .error e
      | .ok p0 => if p0 = kwEnd then s.popState else .ok s

/-- Go: `content = append(content, line...)` inside the closure made by `scanner.def`; the
closure is the top entry of the stack when it runs. -/
def scanner.capture (s : scanner) (name content line : Bytes) : scanner :=
  { s with state := .defn name (content ++ line) :: s.state.tail }

/-- The closure returned by Go `scanner.def(name)`, with its variable `content`. -/
def scanner.defn (s : scanner) (name content line : Bytes) : Except Err scanner :=
  if !Contains line s.pfx then .ok (s.capture name content line)
  else
    match s.splitPrefix line with
    | .error e => .error e
    | .ok (_, pragma) =>
      match index pragma 0 with
      | .error e => .error e
      | .ok p0 =>
        if p0 = kwEnddef then
          { s with templates := s.templates.set name content }.popState
        else .ok (s.capture name content line)

/-- Go `s.state[len(s.state)-1](s.w, line)`: the top handler is run on the line. -/
def scanner.dispatch (o : MapOrder) (s : scanner) (line : Bytes) : Except Err scanner :=
  match s.state with
  | [] => .error (.indexOutOfRange (-1) 0)
  | .neutral :: _ => s.neutral o line
  | .consumeUntilEnd :: _ => s.consumeUntilEnd line
  | .defn name content :: _ => s.defn name content line

/-- One turn of the loop of `start`: read a line and hand it to the top handler. -/
def scanner.step (o : MapOrder) (s : scanner) : Except Err scanner :=
  s.line.2.dispatch o s.line.1

/-- Go `for !s.eof { s.state[len(s.state)-1](s.w, s.line()) }`, with a bound on the number of
turns: `none` when the bound is reached before the loop ends. -/
def scanner.loop (o : MapOrder) : Nat → scanner → Option (Except Err scanner)
  | 0, s => if s.eof then some (.ok s) else none
  | fuel + 1, s =>
    if s.eof then some (.ok s)
    else
      match s.step o with
      | .error e => some (.error e)
      | .ok s1 => scanner.loop o fuel s1

/-- Go `scanner.start`. -/
def scanner.start (o : MapOrder) (fuel : Nat) (s : scanner) : Option (Except Err scanner) :=
  (s.pushState .neutral).loop o fuel

/-- The scanner built by `Process`. -/
def newScanner (input : Bytes) (flags : List Bytes) (pfx : Bytes) : scanner :=
  { templates := []
    replacements := []
    flags := flags ++ [kwTrue]
    pfx := pfx
    state := []
    w := []
    lineNumber := 0
    r := input
    eof := false }

/-- Go `Process(in, flags, prefix)`: `some (.ok out)` for `(out, nil)`, `some (.error e)` for
`(nil, e)`, and `none` when `fuel` turns of the loop do not finish the run. -/
def Process (o : MapOrder) (fuel : Nat) (input : Bytes) (flags : List Bytes) (pfx : Bytes) :
    Option (Except Err Bytes) :=
  match (newScanner input flags pfx).start o fuel with
  | none => none
  | some (.error e) => some (.error e)
  | some (.ok s) => some (.ok s.w)

end Preprocess


namespace Preprocess

deriving instance DecidableEq for Except

/-! ## Lines and directive lines -/

/-- The chunks that successive `ReadBytes(10)` calls yield on a reader holding `r`, up to and
including the one that reports `io.EOF`: the newline-terminated lines of `r`, then what
follows the last newline (the empty chunk when `r` is empty or ends with a newline). -/
def lines : Bytes → List Bytes
  | [] => [[]]
  | b :: rest =>
    if b = 10 then [b] :: lines rest
    else (b :: (lines rest).headD []) :: (lines rest).tail

/-- The bytes made of the newline-terminated lines whose bodies are `ls`. -/
def block (ls : List Bytes) : Bytes := (ls.map (· ++ [10])).flatten

/-- What `splitPrefix` returns on a line that contains the prefix and can be split: the text
before the first occurrence of the prefix and the tokens after it. `none` when the line does
not contain the prefix or the split has fewer than two parts. -/
def directive (pfx line : Bytes) : Option (Bytes × List Bytes) :=
  if Contains line pfx then
    match SplitN2 line pfx with
    | before :: after :: _ => some (before, Fields after)
    | _ => none
  else none

/-- Go `bytes.Join(pieces, sep)`: the pieces with `sep` between every two neighbours. -/
def Join : List Bytes → Bytes → Bytes
  | [], _ => []
  | [p], _ => p
  | p :: q :: ps, sep => p ++ sep ++ Join (q :: ps) sep

/-- The name whose capture block a turn of the loop completes: the capture handler for that
name is on top of the stack and the line read is a directive line whose first token is
`enddef`. -/
def scanner.completed (s : scanner) : Option Bytes :=
  match s.state with
  | .defn name _ :: _ =>
    match directive s.pfx s.line.1 with
    | some (_, p0 :: _) => if p0 = kwEnddef then some name else none
    | _ => none
  | _ => none

/-- The scanner reached from `s` by `n` turns of the loop of `start`, none of which raises an
error, together with the names of the capture blocks completed on the way (added to `done`);
`none` when the loop ends or fails before. -/
def scanner.turns (o : MapOrder) : Nat → scanner → List Bytes → Option (scanner × List Bytes)
  | 0, s, done => some (s, done)
  | n + 1, s, done =>
    if s.eof then none
    else
      match s.step o with
      | .ok s1 => scanner.turns o n s1 (done ++ s.completed.toList)
      | .error _ => none

/-- The first token after the prefix, for a line that contains the prefix, can be split and
has a token. -/
def firstToken (pfx line : Bytes) : Option Bytes :=
  match directive pfx line with
  | some (_, p0 :: _) => some p0
  | _ => none

/-- A line the capture handler appends to its buffer: it does not contain the prefix, or it
has a first token after the prefix and that token is not `enddef`. -/
def appended (pfx line : Bytes) : Bool :=
  !Contains line pfx ||
    (match firstToken pfx line with
     | some p0 => p0 != kwEnddef
     | none => false)

/-- The turn of the loop made from `s` is a template replay: the default handler is on top of
the stack and the first token of the line read is `template`. -/
def scanner.replays (s : scanner) : Bool :=
  match s.state with
  | .neutral :: _ => decide (firstToken s.pfx s.line.1 = some kwTemplate)
  | _ => false

end Preprocess

/-! ## Theorems -/

namespace Preprocess

theorem lines_eq (r : Bytes) :
    lines r = (ReadBytes r).1 :: (if (ReadBytes r).2.2 then [] else lines (ReadBytes r).2.1) := by
  induction r with
  | nil => simp [lines, ReadBytes]
  | cons b rest ih =>
    by_cases hb : b = 10
    · simp [lines, ReadBytes, hb]
    · simp only [lines, ReadBytes, hb, if_false]
      rw [ih]
      simp

theorem ReadBytes_append (r : Bytes) : (ReadBytes r).1 ++ (ReadBytes r).2.1 = r := by
  induction r with
  | nil => simp [ReadBytes]
  | cons b rest ih =>
    by_cases hb : b = 10
    · simp [ReadBytes, hb]
    · simp [ReadBytes, hb, ih]

theorem ReadBytes_eof (r : Bytes) (h : (ReadBytes r).2.2 = true) : (ReadBytes r).2.1 = [] := by
  induction r with
  | nil => simp [ReadBytes]
  | cons b rest ih =>
    by_cases hb : b = 10
    · simp [ReadBytes, hb] at h
    · simp [ReadBytes, hb] at h ⊢
      exact ih h

theorem applyReplacements_nil (o : MapOrder) (s : scanner) (line : Bytes)
    (h : s.replacements = []) : s.applyReplacements o line = line := by
  have hp := o.perm s.lineNumber s.replacements
  rw [h] at hp
  simp [scanner.applyReplacements, h, List.Perm.eq_nil hp]

theorem loop_eof (o : MapOrder) (fuel : Nat) (s : scanner) (h : s.eof = true) :
    s.loop o fuel = some (.ok s) := by
  cases fuel <;> simp [scanner.loop, h]

theorem loop_succ_ok (o : MapOrder) (fuel : Nat) (s s1 : scanner) (h : s.eof = false)
    (hs : s.step o = .ok s1) : s.loop o (fuel + 1) = s1.loop o fuel := by
  simp [scanner.loop, h, hs]

theorem loop_succ_error (o : MapOrder) (fuel : Nat) (s : scanner) (e : Err) (h : s.eof = false)
    (hs : s.step o = .error e) : s.loop o (fuel + 1) = some (.error e) := by
  simp [scanner.loop, h, hs]

/-- A run over input in which no line contains the prefix copies the input to the output. -/
theorem loop_plain (o : MapOrder) :
    ∀ (fuel : Nat) (s : scanner), s.eof = false → s.state = [.neutral] → s.replacements = [] →
      (∀ l ∈ lines s.r, Contains l s.pfx = false) → (lines s.r).length ≤ fuel →
      s.loop o fuel = some (.ok { s with
        w := s.w ++ s.r, r := [], eof := true
        lineNumber := s.lineNumber + (lines s.r).length }) := by
  intro fuel
  induction fuel with
  | zero =>
    intro s _ _ _ _ hlen
    rw [lines_eq] at hlen
    simp at hlen
  | succ n ih =>
    intro s he hst hrep hl hlen
    rw [lines_eq] at hl hlen
    have h1 : Contains (ReadBytes s.r).1 s.pfx = false := hl _ (List.mem_cons_self _ _)
    have hstep : s.step o = .ok { s with
        w := s.w ++ (ReadBytes s.r).1, r := (ReadBytes s.r).2.1
        eof := (ReadBytes s.r).2.2, lineNumber := s.lineNumber + 1 } := by
      have hap := applyReplacements_nil o s.line.2 s.line.1 (by simpa [scanner.line] using hrep)
      simp only [scanner.step, scanner.dispatch]
      simp only [scanner.line, hst] at hap ⊢
      simp only [scanner.neutral, h1, hap]
      simp [he]
    rw [loop_succ_ok o n s _ he hstep]
    by_cases hE : (ReadBytes s.r).2.2 = true
    · rw [loop_eof _ _ _ (by simpa using hE)]
      have hr := ReadBytes_eof s.r hE
      have ha := ReadBytes_append s.r
      rw [hr] at ha
      simp at ha
      rw [lines_eq s.r]
      simp [hE, hr, ha]
    · have hE2 : (ReadBytes s.r).2.2 = false := by simpa using hE
      simp only [hE2] at hl hlen
      have hl2 : ∀ l ∈ lines (ReadBytes s.r).2.1, Contains l s.pfx = false :=
        fun l hm => hl l (List.mem_cons_of_mem _ (by simpa using hm))
      have hlen2 : (lines (ReadBytes s.r).2.1).length ≤ n := by simpa using hlen
      have := ih { s with
        w := s.w ++ (ReadBytes s.r).1, r := (ReadBytes s.r).2.1
        eof := (ReadBytes s.r).2.2, lineNumber := s.lineNumber + 1 } hE2 hst hrep hl2 hlen2
      rw [this]
      have ha := ReadBytes_append s.r
      rw [lines_eq s.r]
      simp [hE2, ha, Nat.add_assoc, Nat.add_comm]

/-- C1 (amended): for every flag list, every non-empty prefix and every input none of whose
lines contains the prefix (the lines are the non-empty chunks read up to end of input, the
last one possibly without a newline), `Process` returns no error and an output equal to the
input byte for byte, also for the empty input, whenever the step budget covers the number of
reads. -/
theorem Process_no_directive (o : MapOrder) (flags : List Bytes) (pfx input : Bytes)
    (hp : pfx ≠ []) (h : ∀ l ∈ lines input, l ≠ [] → Contains l pfx = false) (fuel : Nat)
    (hfuel : (lines input).length ≤ fuel) :
    Process o fuel input flags pfx = some (.ok input) := by
  have hnil : Contains [] pfx = false := by
    cases pfx with
    | nil => exact absurd rfl hp
    | cons a t => simp [Contains, Index, hasPrefix, List.isPrefixOf]
  have hall : ∀ l ∈ lines input, Contains l pfx = false := by
    intro l hl
    by_cases hl0 : l = []
    · rw [hl0]; exact hnil
    · exact h l hl hl0
  have := loop_plain o fuel ((newScanner input flags pfx).pushState .neutral) rfl rfl rfl hall
    hfuel
  simp only [Process, scanner.start, this]
  simp [newScanner, scanner.pushState]

theorem Process_no_directive_witness :
    Process MapOrder.reversed 3 (bytesOf "a\n\nb") [bytesOf "x"] (bytesOf "//")
      = some (.ok (bytesOf "a\n\nb")) ∧
    Process MapOrder.stored 1 [] [bytesOf "x"] (bytesOf "//") = some (.ok []) :=
  ⟨Process_no_directive MapOrder.reversed [bytesOf "x"] (bytesOf "//") (bytesOf "a\n\nb")
     (by decide) (by decide) 3 (by decide),
   Process_no_directive MapOrder.stored [bytesOf "x"] (bytesOf "//") [] (by decide) (by decide)
     1 (by decide)⟩

/-- C1 as stated fails for the empty prefix: the empty input has no line that contains the
prefix, yet with the prefix "" the empty chunk read at end of input is split at the prefix,
the split is empty and the run ends with a runtime error instead of an empty output, with or
without flags and whatever the step budget. -/
theorem Process_no_directive_empty_prefix :
    Process MapOrder.stored 1 [] [] [] = some (.error (.indexOutOfRange 0 0)) ∧
    Process MapOrder.reversed 5 [] [bytesOf "x"] [] = some (.error (.indexOutOfRange 0 0)) := by
  refine ⟨by decide, by decide⟩

theorem ReadBytes_line (body rest : Bytes) (hb : 10 ∉ body) :
    ReadBytes (body ++ 10 :: rest) = (body ++ [10], rest, false) := by
  induction body with
  | nil => simp [ReadBytes]
  | cons b t ih =>
    have h1 : b ≠ 10 := fun h => hb (by simp [h])
    have h2 : 10 ∉ t := fun h => hb (by simp [h])
    simp [ReadBytes, h1, ih h2]

theorem ReadBytes_last (body : Bytes) (hb : 10 ∉ body) : ReadBytes body = (body, [], true) := by
  induction body with
  | nil => simp [ReadBytes]
  | cons b t ih =>
    have h1 : b ≠ 10 := fun h => hb (by simp [h])
    have h2 : 10 ∉ t := fun h => hb (by simp [h])
    simp [ReadBytes, h1, ih h2]

/-- A turn of the loop on a reader whose next line ends with a newline. -/
theorem step_line (o : MapOrder) (s : scanner) (body rest : Bytes) (hb : 10 ∉ body)
    (hr : s.r = body ++ 10 :: rest) :
    s.step o = ({ s with r := rest, lineNumber := s.lineNumber + 1 } : scanner).dispatch o
      (body ++ [10]) := by
  simp [scanner.step, scanner.line, hr, ReadBytes_line body rest hb]

/-- A turn of the loop on a reader that holds no newline: the read reports `io.EOF`. -/
theorem step_last (o : MapOrder) (s : scanner) (body : Bytes) (hb : 10 ∉ body)
    (hr : s.r = body) :
    s.step o = ({ s with r := [], eof := true, lineNumber := s.lineNumber + 1 } : scanner).dispatch
      o body := by
  simp [scanner.step, scanner.line, hr, ReadBytes_last body hb]

theorem splitPrefix_of_directive (s : scanner) (line before : Bytes) (pragma : List Bytes)
    (h : directive s.pfx line = some (before, pragma)) :
    Contains line s.pfx = true ∧ s.splitPrefix line = .ok (before, pragma) := by
  unfold directive at h
  by_cases hc : Contains line s.pfx = true
  · refine ⟨hc, ?_⟩
    simp only [hc, if_true] at h
    unfold scanner.splitPrefix
    simp only [hc, Bool.not_true, Bool.false_eq_true, if_false]
    split at h
    · rename_i b a t heq
      simp only [Option.some.injEq, Prod.mk.injEq] at h
      rw [heq]
      simp [h.1, h.2]
    · simp at h
  · simp [hc] at h

theorem block_cons (l : Bytes) (ls : List Bytes) : block (l :: ls) = l ++ 10 :: block ls := by
  simp [block]

theorem neutral_plain (o : MapOrder) (s : scanner) (line : Bytes)
    (hc : Contains line s.pfx = false) (hrep : s.replacements = []) :
    s.neutral o line = .ok { s with w := s.w ++ line } := by
  simp [scanner.neutral, hc, applyReplacements_nil o s line hrep]

theorem consumeUntilEnd_plain (s : scanner) (line : Bytes) (hc : Contains line s.pfx = false) :
    s.consumeUntilEnd line = .ok s := by
  simp [scanner.consumeUntilEnd, hc]

theorem dispatch_neutral (o : MapOrder) (s : scanner) (stk : List state) (line : Bytes)
    (h : s.state = .neutral :: stk) : s.dispatch o line = s.neutral o line := by
  simp [scanner.dispatch, h]

theorem dispatch_consumeUntilEnd (o : MapOrder) (s : scanner) (stk : List state) (line : Bytes)
    (h : s.state = .consumeUntilEnd :: stk) : s.dispatch o line = s.consumeUntilEnd line := by
  simp [scanner.dispatch, h]

theorem dispatch_defn (o : MapOrder) (s : scanner) (stk : List state) (name content line : Bytes)
    (h : s.state = .defn name content :: stk) :
    s.dispatch o line = s.defn name content line := by
  simp [scanner.dispatch, h]

/-- A block of newline-terminated lines without the prefix, read while the default handler is
on top and the replacement table is empty, is copied to the output. -/
theorem loop_block_neutral (o : MapOrder) (ls : List Bytes) :
    ∀ (s : scanner) (stk : List state) (rest : Bytes) (fuel : Nat),
      s.eof = false → s.state = .neutral :: stk → s.replacements = [] →
      s.r = block ls ++ rest → (∀ l ∈ ls, 10 ∉ l ∧ Contains (l ++ [10]) s.pfx = false) →
      s.loop o (ls.length + fuel) = ({ s with
        w := s.w ++ block ls, r := rest
        lineNumber := s.lineNumber + ls.length } : scanner).loop o fuel := by
  induction ls with
  | nil =>
    intro s stk rest fuel _ _ _ hr _
    simp [block] at hr
    simp [block, ← hr]
  | cons l ls ih =>
    intro s stk rest fuel he hst hrep hr hl
    have hl1 := hl l (List.mem_cons_self _ _)
    rw [block_cons, List.append_assoc, List.cons_append] at hr
    have hstep := step_line o s l (block ls ++ rest) hl1.1 hr
    rw [dispatch_neutral o
        ({ s with r := block ls ++ rest, lineNumber := s.lineNumber + 1 } : scanner) stk _ hst,
      neutral_plain o ({ s with r := block ls ++ rest, lineNumber := s.lineNumber + 1 } : scanner)
        (l ++ [10]) hl1.2 hrep] at hstep
    have hf : (l :: ls).length + fuel = (ls.length + fuel) + 1 := by simp; omega
    rw [hf, loop_succ_ok o _ s _ he hstep]
    rw [ih ({ s with
        w := s.w ++ (l ++ [10]), r := block ls ++ rest
        lineNumber := s.lineNumber + 1 } : scanner) stk rest fuel he hst hrep rfl
      (fun x hx => hl x (List.mem_cons_of_mem _ hx))]
    simp [block_cons, Nat.add_assoc, Nat.add_comm 1]

/-- A block of newline-terminated lines without the prefix, read while the skip handler is on
top, is discarded. -/
theorem loop_block_skip (o : MapOrder) (ls : List Bytes) :
    ∀ (s : scanner) (stk : List state) (rest : Bytes) (fuel : Nat),
      s.eof = false → s.state = .consumeUntilEnd :: stk →
      s.r = block ls ++ rest → (∀ l ∈ ls, 10 ∉ l ∧ Contains (l ++ [10]) s.pfx = false) →
      s.loop o (ls.length + fuel) = ({ s with
        r := rest, lineNumber := s.lineNumber + ls.length } : scanner).loop o fuel := by
  induction ls with
  | nil =>
    intro s stk rest fuel _ _ hr _
    simp [block] at hr
    simp [← hr]
  | cons l ls ih =>
    intro s stk rest fuel he hst hr hl
    have hl1 := hl l (List.mem_cons_self _ _)
    rw [block_cons, List.append_assoc, List.cons_append] at hr
    have hstep := step_line o s l (block ls ++ rest) hl1.1 hr
    rw [dispatch_consumeUntilEnd o
        ({ s with r := block ls ++ rest, lineNumber := s.lineNumber + 1 } : scanner) stk _ hst,
      consumeUntilEnd_plain
        ({ s with r := block ls ++ rest, lineNumber := s.lineNumber + 1 } : scanner)
        (l ++ [10]) hl1.2] at hstep
    have hf : (l :: ls).length + fuel = (ls.length + fuel) + 1 := by simp; omega
    rw [hf, loop_succ_ok o _ s _ he hstep]
    rw [ih ({ s with r := block ls ++ rest, lineNumber := s.lineNumber + 1 } : scanner)
      stk rest fuel he hst rfl (fun x hx => hl x (List.mem_cons_of_mem _ hx))]
    simp [Nat.add_assoc, Nat.add_comm 1]

theorem Contains_nil_left (p : Bytes) (hp : p ≠ []) : Contains [] p = false := by
  cases p with
  | nil => exact absurd rfl hp
  | cons a t => simp [Contains, Index, hasPrefix, List.isPrefixOf]

theorem popState_two (s : scanner) (a b : state) (stk : List state)
    (h : s.state = a :: b :: stk) : s.popState = .ok { s with state := b :: stk } := by
  simp [scanner.popState, h]

theorem popState_one (s : scanner) (a : state) (h : s.state = [a]) :
    s.popState = .error (.scan s.lineNumber .unexpectedEnd) := by
  simp [scanner.popState, h, scanner.error]

/-- The default handler on an `if` line: the flag test chooses the handler pushed. -/
theorem neutral_if (o : MapOrder) (s : scanner) (line before F : Bytes) (more : List Bytes)
    (h : directive s.pfx line = some (before, kwIf :: F :: more)) :
    s.neutral o line
      = .ok (s.pushState (if s.flagTest F then .neutral else .consumeUntilEnd)) := by
  obtain ⟨hc, hs⟩ := splitPrefix_of_directive s line before _ h
  simp only [scanner.neutral, hc, hs, index, scanner.flagTest]
  by_cases h1 : s.flag F = true
  · simp +decide [h1]
  · simp +decide only [h1, Bool.false_or, List.get?_cons_zero, List.get?_cons_succ,
      if_false, if_true, Bool.false_eq_true]
    split <;> rfl

/-- The default handler on an `end` line pops the stack. -/
theorem neutral_end (o : MapOrder) (s : scanner) (line before : Bytes) (more : List Bytes)
    (h : directive s.pfx line = some (before, kwEnd :: more)) :
    s.neutral o line = s.popState := by
  obtain ⟨hc, hs⟩ := splitPrefix_of_directive s line before _ h
  simp [scanner.neutral, hc, hs, index]

/-- The skip handler on an `end` line pops the stack. -/
theorem consumeUntilEnd_end (s : scanner) (line before : Bytes) (more : List Bytes)
    (h : directive s.pfx line = some (before, kwEnd :: more)) :
    s.consumeUntilEnd line = s.popState := by
  obtain ⟨hc, hs⟩ := splitPrefix_of_directive s line before _ h
  simp [scanner.consumeUntilEnd, hc, hs, index]

/-- A run over an `if` line, a block of lines without the prefix, an `end` line and the end
of input, started with only the base handler on the stack and an empty replacement table. -/
theorem loop_if_block (o : MapOrder) (t : Table) (fl : List Bytes) (P w : Bytes) (n : Nat)
    (F b1 b2 ifBody endBody : Bytes) (ls : List Bytes) (hP : P ≠ [])
    (hi : 10 ∉ ifBody) (di : directive P (ifBody ++ [10]) = some (b1, [kwIf, F]))
    (he : 10 ∉ endBody) (de : directive P (endBody ++ [10]) = some (b2, [kwEnd]))
    (hC : ∀ l ∈ ls, 10 ∉ l ∧ Contains (l ++ [10]) P = false) (k : Nat) :
    scanner.loop o (ls.length + 3 + k)
        ⟨t, [], fl, P, [.neutral], w, n, ifBody ++ [10] ++ block ls ++ (endBody ++ [10]), false⟩
      = some (.ok ⟨t, [], fl, P, [.neutral],
          w ++ (if scanner.flagTest ⟨t, [], fl, P, [.neutral], w, n, [], false⟩ F
                then block ls else []),
          n + (ls.length + 3), [], true⟩) := by
  -- the `if` line
  have h1 := step_line o
    ⟨t, [], fl, P, [.neutral], w, n, ifBody ++ [10] ++ block ls ++ (endBody ++ [10]), false⟩
    ifBody (block ls ++ (endBody ++ [10])) hi (by simp)
  rw [dispatch_neutral o ⟨t, [], fl, P, [.neutral], w, n + 1, _, false⟩ [] _ rfl,
    neutral_if o ⟨t, [], fl, P, [.neutral], w, n + 1, _, false⟩ _ b1 F [] di] at h1
  have hf : ls.length + 3 + k = (ls.length + (k + 2)) + 1 := by omega
  rw [hf, loop_succ_ok o _ _ _ rfl h1]
  -- the end of input, read by the base handler
  have hfin : ∀ (w1 : Bytes),
      scanner.loop o (k + 1) ⟨t, [], fl, P, [.neutral], w1, n + (ls.length + 2), [], false⟩
        = some (.ok ⟨t, [], fl, P, [.neutral], w1, n + (ls.length + 3), [], true⟩) := by
    intro w1
    have h3 := step_last o ⟨t, [], fl, P, [.neutral], w1, n + (ls.length + 2), [], false⟩ []
      (by simp) rfl
    rw [dispatch_neutral o ⟨t, [], fl, P, [.neutral], w1, n + (ls.length + 2) + 1, [], true⟩
        [] _ rfl,
      neutral_plain o ⟨t, [], fl, P, [.neutral], w1, n + (ls.length + 2) + 1, [], true⟩ []
        (Contains_nil_left _ hP) rfl] at h3
    rw [loop_succ_ok o _ _ _ rfl h3, loop_eof _ _ _ rfl]
    simp [Nat.add_assoc]
  have hflag : ∀ (w1 r1 : Bytes) (n1 : Nat) (e1 : Bool) (st : List state),
      scanner.flagTest ⟨t, [], fl, P, st, w1, n1, r1, e1⟩ F
        = scanner.flagTest ⟨t, [], fl, P, [.neutral], w, n, [], false⟩ F := fun _ _ _ _ _ => rfl
  rw [hflag]
  by_cases hF : scanner.flagTest ⟨t, [], fl, P, [.neutral], w, n, [], false⟩ F = true
  · simp only [hF, if_true, scanner.pushState]
    rw [loop_block_neutral o ls
      ⟨t, [], fl, P, [.neutral, .neutral], w, n + 1, block ls ++ (endBody ++ [10]), false⟩
      [.neutral] (endBody ++ [10]) (k + 2) rfl rfl rfl rfl hC]
    have h2 := step_line o
      ⟨t, [], fl, P, [.neutral, .neutral], w ++ block ls, n + 1 + ls.length, endBody ++ [10], false⟩
      endBody [] he rfl
    rw [dispatch_neutral o
        ⟨t, [], fl, P, [.neutral, .neutral], w ++ block ls, n + 1 + ls.length + 1, [], false⟩
        [.neutral] _ rfl,
      neutral_end o
        ⟨t, [], fl, P, [.neutral, .neutral], w ++ block ls, n + 1 + ls.length + 1, [], false⟩
        _ b2 [] de,
      popState_two _ .neutral .neutral [] rfl] at h2
    rw [show k + 2 = (k + 1) + 1 by omega, loop_succ_ok o _ _ _ rfl h2]
    have := hfin (w ++ block ls)
    rw [show n + 1 + ls.length + 1 = n + (ls.length + 2) by omega]
    exact this
  · have hF2 : scanner.flagTest ⟨t, [], fl, P, [.neutral], w, n, [], false⟩ F = false := by
      simpa using hF
    simp only [hF2, if_false, Bool.false_eq_true, scanner.pushState]
    rw [loop_block_skip o ls
      ⟨t, [], fl, P, [.consumeUntilEnd, .neutral], w, n + 1, block ls ++ (endBody ++ [10]), false⟩
      [.neutral] (endBody ++ [10]) (k + 2) rfl rfl rfl hC]
    have h2 := step_line o
      ⟨t, [], fl, P, [.consumeUntilEnd, .neutral], w, n + 1 + ls.length, endBody ++ [10], false⟩
      endBody [] he rfl
    rw [dispatch_consumeUntilEnd o
        ⟨t, [], fl, P, [.consumeUntilEnd, .neutral], w, n + 1 + ls.length + 1, [], false⟩
        [.neutral] _ rfl,
      consumeUntilEnd_end
        ⟨t, [], fl, P, [.consumeUntilEnd, .neutral], w, n + 1 + ls.length + 1, [], false⟩
        _ b2 [] de,
      popState_two _ .consumeUntilEnd .neutral [] rfl] at h2
    rw [show k + 2 = (k + 1) + 1 by omega, loop_succ_ok o _ _ _ rfl h2]
    have := hfin w
    rw [show n + 1 + ls.length + 1 = n + (ls.length + 2) by omega]
    simpa using this

/-- The run of `loop_if_block` when the `end` line is the last line of the input and has no
newline. -/
theorem loop_if_block_last (o : MapOrder) (t : Table) (fl : List Bytes) (P w : Bytes) (n : Nat)
    (F b1 b2 ifBody endBody : Bytes) (ls : List Bytes)
    (hi : 10 ∉ ifBody) (di : directive P (ifBody ++ [10]) = some (b1, [kwIf, F]))
    (he : 10 ∉ endBody) (de : directive P endBody = some (b2, [kwEnd]))
    (hC : ∀ l ∈ ls, 10 ∉ l ∧ Contains (l ++ [10]) P = false) (k : Nat) :
    scanner.loop o (ls.length + 3 + k)
        ⟨t, [], fl, P, [.neutral], w, n, ifBody ++ [10] ++ block ls ++ endBody, false⟩
      = some (.ok ⟨t, [], fl, P, [.neutral],
          w ++ (if scanner.flagTest ⟨t, [], fl, P, [.neutral], w, n, [], false⟩ F
                then block ls else []),
          n + (ls.length + 2), [], true⟩) := by
  have h1 := step_line o
    ⟨t, [], fl, P, [.neutral], w, n, ifBody ++ [10] ++ block ls ++ endBody, false⟩
    ifBody (block ls ++ endBody) hi (by simp)
  rw [dispatch_neutral o ⟨t, [], fl, P, [.neutral], w, n + 1, _, false⟩ [] _ rfl,
    neutral_if o ⟨t, [], fl, P, [.neutral], w, n + 1, _, false⟩ _ b1 F [] di] at h1
  have hf : ls.length + 3 + k = (ls.length + (k + 2)) + 1 := by omega
  rw [hf, loop_succ_ok o _ _ _ rfl h1]
  have hflag : ∀ (w1 r1 : Bytes) (n1 : Nat) (e1 : Bool) (st : List state),
      scanner.flagTest ⟨t, [], fl, P, st, w1, n1, r1, e1⟩ F
        = scanner.flagTest ⟨t, [], fl, P, [.neutral], w, n, [], false⟩ F := fun _ _ _ _ _ => rfl
  rw [hflag]
  by_cases hF : scanner.flagTest ⟨t, [], fl, P, [.neutral], w, n, [], false⟩ F = true
  · simp only [hF, if_true, scanner.pushState]
    rw [loop_block_neutral o ls
      ⟨t, [], fl, P, [.neutral, .neutral], w, n + 1, block ls ++ endBody, false⟩
      [.neutral] endBody (k + 2) rfl rfl rfl rfl hC]
    have h2 := step_last o
      ⟨t, [], fl, P, [.neutral, .neutral], w ++ block ls, n + 1 + ls.length, endBody, false⟩
      endBody he rfl
    rw [dispatch_neutral o
        ⟨t, [], fl, P, [.neutral, .neutral], w ++ block ls, n + 1 + ls.length + 1, [], true⟩
        [.neutral] _ rfl,
      neutral_end o
        ⟨t, [], fl, P, [.neutral, .neutral], w ++ block ls, n + 1 + ls.length + 1, [], true⟩
        _ b2 [] de,
      popState_two _ .neutral .neutral [] rfl] at h2
    rw [show k + 2 = (k + 1) + 1 by omega, loop_succ_ok o _ _ _ rfl h2, loop_eof _ _ _ rfl,
      show n + 1 + ls.length + 1 = n + (ls.length + 2) by omega]
  · have hF2 : scanner.flagTest ⟨t, [], fl, P, [.neutral], w, n, [], false⟩ F = false := by
      simpa using hF
    simp only [hF2, if_false, Bool.false_eq_true, scanner.pushState]
    rw [loop_block_skip o ls
      ⟨t, [], fl, P, [.consumeUntilEnd, .neutral], w, n + 1, block ls ++ endBody, false⟩
      [.neutral] endBody (k + 2) rfl rfl rfl hC]
    have h2 := step_last o
      ⟨t, [], fl, P, [.consumeUntilEnd, .neutral], w, n + 1 + ls.length, endBody, false⟩
      endBody he rfl
    rw [dispatch_consumeUntilEnd o
        ⟨t, [], fl, P, [.consumeUntilEnd, .neutral], w, n + 1 + ls.length + 1, [], true⟩
        [.neutral] _ rfl,
      consumeUntilEnd_end
        ⟨t, [], fl, P, [.consumeUntilEnd, .neutral], w, n + 1 + ls.length + 1, [], true⟩
        _ b2 [] de,
      popState_two _ .consumeUntilEnd .neutral [] rfl] at h2
    rw [show k + 2 = (k + 1) + 1 by omega, loop_succ_ok o _ _ _ rfl h2, loop_eof _ _ _ rfl,
      show n + 1 + ls.length + 1 = n + (ls.length + 2) by omega]
    simp

/-- C2 (amended: the prefix is not empty): for every flag list, non-empty prefix `P`, flag
name `F` and content made of newline-terminated lines none of which contains `P`, `Process`
on an `if F` directive line, the content and an `end` directive line (followed by a newline,
or ending the input without one) returns no error; the output is the content when `F` is in
the flag list or is the always-on name `true` (whatever the flag list), and is empty when `F`
is not on and does not start with `!`. -/
theorem Process_if_block (o : MapOrder) (flags : List Bytes)
    (P F b1 b2 b3 ifBody endBody : Bytes) (ls : List Bytes) (hP : P ≠ [])
    (hi : 10 ∉ ifBody) (di : directive P (ifBody ++ [10]) = some (b1, [kwIf, F]))
    (he : 10 ∉ endBody) (de : directive P (endBody ++ [10]) = some (b2, [kwEnd]))
    (dl : directive P endBody = some (b3, [kwEnd]))
    (hC : ∀ l ∈ ls, 10 ∉ l ∧ Contains (l ++ [10]) P = false)
    (fuel : Nat) (hfuel : ls.length + 3 ≤ fuel) :
    ((F ∈ flags ∨ F = kwTrue) →
      Process o fuel (ifBody ++ [10] ++ block ls ++ (endBody ++ [10])) flags P
        = some (.ok (block ls)) ∧
      Process o fuel (ifBody ++ [10] ++ block ls ++ endBody) flags P
        = some (.ok (block ls))) ∧
    ((F ∉ flags ∧ F ≠ kwTrue ∧ hasPrefix F kwBang = false) →
      Process o fuel (ifBody ++ [10] ++ block ls ++ (endBody ++ [10])) flags P
        = some (.ok []) ∧
      Process o fuel (ifBody ++ [10] ++ block ls ++ endBody) flags P
        = some (.ok [])) := by
  obtain ⟨k, rfl⟩ : ∃ k, fuel = ls.length + 3 + k := ⟨fuel - (ls.length + 3), by omega⟩
  have hrun := loop_if_block o [] (flags ++ [kwTrue]) P [] 0 F b1 b2 ifBody endBody ls hP
    hi di he de hC k
  have hlast := loop_if_block_last o [] (flags ++ [kwTrue]) P [] 0 F b1 b3 ifBody endBody ls
    hi di he dl hC k
  constructor
  · intro hF
    have hT : scanner.flagTest ⟨[], [], flags ++ [kwTrue], P, [.neutral], [], 0, [], false⟩ F
        = true := by
      simp [scanner.flagTest, scanner.flag]
      exact Or.inl hF
    rw [hT] at hrun hlast
    simp only [Process, scanner.start, newScanner, scanner.pushState, hrun, hlast]
    simp
  · rintro ⟨h1, h2, h3⟩
    have hT : scanner.flagTest ⟨[], [], flags ++ [kwTrue], P, [.neutral], [], 0, [], false⟩ F
        = false := by
      simp [scanner.flagTest, scanner.flag, h3]
      exact ⟨h1, h2⟩
    rw [hT] at hrun hlast
    simp only [Process, scanner.start, newScanner, scanner.pushState, hrun, hlast]
    simp

theorem Process_if_block_witness :
    Process MapOrder.stored 5
        (bytesOf "// if x" ++ [10] ++ block [bytesOf "foo", bytesOf "bar"]
          ++ (bytesOf "// end" ++ [10])) [bytesOf "x"] (bytesOf "//")
      = some (.ok (block [bytesOf "foo", bytesOf "bar"])) ∧
    Process MapOrder.stored 5
        (bytesOf "// if x" ++ [10] ++ block [bytesOf "foo", bytesOf "bar"]
          ++ bytesOf "// end") [bytesOf "y"] (bytesOf "//")
      = some (.ok []) :=
  ⟨((Process_if_block MapOrder.stored [bytesOf "x"] (bytesOf "//") (bytesOf "x") [] [] []
      (bytesOf "// if x") (bytesOf "// end") [bytesOf "foo", bytesOf "bar"]
      (by decide) (by decide) (by decide) (by decide) (by decide) (by decide) (by decide)
      5 (by decide)).1 (Or.inl (by decide))).1,
   ((Process_if_block MapOrder.stored [bytesOf "y"] (bytesOf "//") (bytesOf "x") [] [] []
      (bytesOf "// if x") (bytesOf "// end") [bytesOf "foo", bytesOf "bar"]
      (by decide) (by decide) (by decide) (by decide) (by decide) (by decide) (by decide)
      5 (by decide)).2 ⟨by decide, by decide, by decide⟩).2⟩

/-- C2 as stated fails for the empty prefix: with the prefix "" and no content, the lines
" if true" and " end" are the `if true` and `end` directive lines, yet the run ends with the
runtime error raised on the empty chunk read at end of input. -/
theorem Process_if_block_empty_prefix :
    directive [] (bytesOf " if true" ++ [10]) = some (bytesOf " ", [kwIf, kwTrue]) ∧
    directive [] (bytesOf " end" ++ [10]) = some (bytesOf " ", [kwEnd]) ∧
    Process MapOrder.stored 3
        (bytesOf " if true" ++ [10] ++ block [] ++ (bytesOf " end" ++ [10])) [] []
      = some (.error (.indexOutOfRange 0 0)) := by
  refine ⟨by decide, by decide, by decide⟩

theorem loop_congr_step (o : MapOrder) (s1 s2 : scanner) (h1 : s1.eof = false)
    (h2 : s2.eof = false) (h : s1.step o = s2.step o) (fuel : Nat) :
    s1.loop o fuel = s2.loop o fuel := by
  cases fuel with
  | zero => simp [scanner.loop, h1, h2]
  | succ n => simp [scanner.loop, h1, h2, h]

theorem kwBang_eq : kwBang = [33] := by decide

theorem kwTrue_eq : kwTrue = [116, 114, 117, 101] := by decide

/-- The flag test on a negated name. -/
theorem flagTest_negated (s : scanner) (flags : List Bytes) (N : Bytes)
    (hfl : s.flags = flags ++ [kwTrue]) :
    s.flagTest (kwBang ++ N) = true ↔ (kwBang ++ N ∈ flags ∨ (N ∉ flags ∧ N ≠ kwTrue)) := by
  simp [scanner.flagTest, scanner.flag, hfl, hasPrefix, kwBang_eq, kwTrue_eq]

/-- The flag test on a name that is not negated. -/
theorem flagTest_plain (s : scanner) (flags : List Bytes) (G : Bytes)
    (hfl : s.flags = flags ++ [kwTrue]) (hG : hasPrefix G kwBang = false) :
    s.flagTest G = true ↔ (G ∈ flags ∨ G = kwTrue) := by
  simp [scanner.flagTest, scanner.flag, hfl, hG]

/-- C3 (amended): a block opened by `if !N` is processed exactly like a block opened by
`if true` when `N` is not on (it is neither in the flag list nor the always-on name `true`),
and exactly like a block opened by `if G` for a flag `G` that is off (its lines are discarded
by the skip handler) when `N` is on and the name `!N` itself is not in the flag list: in each
case the two opening lines leave the scanner in the same state, so the rest of the run is the
same whatever input follows. -/
theorem if_negated (o : MapOrder) (s : scanner) (flags : List Bytes) (stk : List state)
    (N G bodyN bodyT bodyF bN bT bF : Bytes)
    (hfl : s.flags = flags ++ [kwTrue]) (htop : s.state = .neutral :: stk)
    (hne : s.eof = false)
    (hN : 10 ∉ bodyN) (dN : directive s.pfx (bodyN ++ [10]) = some (bN, [kwIf, kwBang ++ N]))
    (hT : 10 ∉ bodyT) (dT : directive s.pfx (bodyT ++ [10]) = some (bT, [kwIf, kwTrue]))
    (hF : 10 ∉ bodyF) (dF : directive s.pfx (bodyF ++ [10]) = some (bF, [kwIf, G]))
    (hG : G ∉ flags ∧ G ≠ kwTrue ∧ hasPrefix G kwBang = false) :
    ((N ∉ flags ∧ N ≠ kwTrue) →
      ({ s with r := bodyN ++ 10 :: s.r } : scanner).step o
          = .ok { s with state := .neutral :: s.state, lineNumber := s.lineNumber + 1 } ∧
      ∀ fuel, ({ s with r := bodyN ++ 10 :: s.r } : scanner).loop o fuel
          = ({ s with r := bodyT ++ 10 :: s.r } : scanner).loop o fuel) ∧
    (((N ∈ flags ∨ N = kwTrue) ∧ kwBang ++ N ∉ flags) →
      ({ s with r := bodyN ++ 10 :: s.r } : scanner).step o
          = .ok { s with state := .consumeUntilEnd :: s.state, lineNumber := s.lineNumber + 1 } ∧
      ∀ fuel, ({ s with r := bodyN ++ 10 :: s.r } : scanner).loop o fuel
          = ({ s with r := bodyF ++ 10 :: s.r } : scanner).loop o fuel) := by
  have stepOf : ∀ (body before X : Bytes), 10 ∉ body →
      directive s.pfx (body ++ [10]) = some (before, [kwIf, X]) →
      ({ s with r := body ++ 10 :: s.r } : scanner).step o
        = .ok { s with
            state := (if s.flagTest X then .neutral else .consumeUntilEnd) :: s.state
            lineNumber := s.lineNumber + 1 } := by
    intro body before X hb hd
    have h := step_line o ({ s with r := body ++ 10 :: s.r } : scanner) body s.r hb rfl
    rw [dispatch_neutral o ({ s with lineNumber := s.lineNumber + 1 } : scanner) stk _ htop,
      neutral_if o ({ s with lineNumber := s.lineNumber + 1 } : scanner) _ before X [] hd] at h
    rw [h]
    rfl
  have tT : s.flagTest kwTrue = true :=
    (flagTest_plain s flags kwTrue hfl (by decide)).2 (Or.inr rfl)
  have tG : s.flagTest G = false := by
    have := (flagTest_plain s flags G hfl hG.2.2).not.2 (fun h => h.elim hG.1 hG.2.1)
    simpa using this
  constructor
  · intro h
    have tN : s.flagTest (kwBang ++ N) = true := (flagTest_negated s flags N hfl).2 (Or.inr h)
    have e1 := stepOf bodyN bN _ hN dN
    have e2 := stepOf bodyT bT _ hT dT
    rw [tN] at e1
    rw [tT] at e2
    exact ⟨e1, loop_congr_step o _ _ hne hne (e1.trans e2.symm)⟩
  · rintro ⟨h1, h2⟩
    have tN : s.flagTest (kwBang ++ N) = false := by
      have := (flagTest_negated s flags N hfl).not.2
        (fun h => h.elim h2 (fun h' => h1.elim h'.1 h'.2))
      simpa using this
    have e1 := stepOf bodyN bN _ hN dN
    have e2 := stepOf bodyF bF _ hF dF
    rw [tN] at e1
    rw [tG] at e2
    exact ⟨e1, loop_congr_step o _ _ hne hne (e1.trans e2.symm)⟩

theorem if_negated_witness :
    (scanner.step MapOrder.stored
        ⟨[], [], [bytesOf "x"] ++ [kwTrue], bytesOf "//", [.neutral], [], 0,
          bytesOf "// if !y" ++ 10 :: bytesOf "A\n// end\n", false⟩
      = .ok ⟨[], [], [bytesOf "x"] ++ [kwTrue], bytesOf "//", [.neutral, .neutral], [], 1,
          bytesOf "A\n// end\n", false⟩) ∧
    (scanner.step MapOrder.stored
        ⟨[], [], [bytesOf "x"] ++ [kwTrue], bytesOf "//", [.neutral], [], 0,
          bytesOf "// if !x" ++ 10 :: bytesOf "A\n// end\n", false⟩
      = .ok ⟨[], [], [bytesOf "x"] ++ [kwTrue], bytesOf "//", [.consumeUntilEnd, .neutral], [], 1,
          bytesOf "A\n// end\n", false⟩) :=
  ⟨((if_negated MapOrder.stored
      ⟨[], [], [bytesOf "x"] ++ [kwTrue], bytesOf "//", [.neutral], [], 0,
        bytesOf "A\n// end\n", false⟩
      [bytesOf "x"] [] (bytesOf "y") (bytesOf "off") (bytesOf "// if !y") (bytesOf "// if true")
      (bytesOf "// if off") [] [] [] rfl rfl rfl (by decide) (by decide) (by decide) (by decide)
      (by decide) (by decide) (by decide)).1 (by decide)).1,
   ((if_negated MapOrder.stored
      ⟨[], [], [bytesOf "x"] ++ [kwTrue], bytesOf "//", [.neutral], [], 0,
        bytesOf "A\n// end\n", false⟩
      [bytesOf "x"] [] (bytesOf "x") (bytesOf "off") (bytesOf "// if !x") (bytesOf "// if true")
      (bytesOf "// if off") [] [] [] rfl rfl rfl (by decide) (by decide) (by decide) (by decide)
      (by decide) (by decide) (by decide)).2 (by decide)).1⟩

/-- C3 as stated fails twice. The name `true` is in no flag list, yet a block opened by
`if !true` is discarded while the one opened by `if true` is emitted. And with the flag list
`x`, `!x` the name `x` is in the flag list, yet a block opened by `if !x` is emitted while the
one opened by the false flag `off` is discarded. -/
theorem if_negated_counterexample :
    (kwTrue ∉ ([] : List Bytes) ∧
      Process MapOrder.stored 4 (bytesOf "// if !true\nA\n// end\n") [] (bytesOf "//")
        = some (.ok []) ∧
      Process MapOrder.stored 4 (bytesOf "// if true\nA\n// end\n") [] (bytesOf "//")
        = some (.ok (bytesOf "A\n"))) ∧
    (bytesOf "x" ∈ [bytesOf "x", bytesOf "!x"] ∧
      Process MapOrder.stored 4 (bytesOf "// if !x\nA\n// end\n") [bytesOf "x", bytesOf "!x"]
        (bytesOf "//") = some (.ok (bytesOf "A\n")) ∧
      Process MapOrder.stored 4 (bytesOf "// if off\nA\n// end\n") [bytesOf "x", bytesOf "!x"]
        (bytesOf "//") = some (.ok [])) := by
  refine ⟨⟨by decide, by decide, by decide⟩, ⟨by decide, by decide, by decide⟩⟩

/-- The default handler on an `omit if` line. -/
theorem neutral_omit_if (o : MapOrder) (s : scanner) (line before X : Bytes) (more : List Bytes)
    (h : directive s.pfx line = some (before, kwOmit :: kwIf :: X :: more)) :
    s.neutral o line = .ok (if s.flagTest X then s else s.writeLeft o before) := by
  obtain ⟨hc, hs⟩ := splitPrefix_of_directive s line before _ h
  simp only [scanner.neutral, hc, hs, index, scanner.flagTest]
  by_cases h1 : s.flag X = true
  · simp +decide [h1]
  · simp +decide only [h1, Bool.false_or, List.get?_cons_zero, List.get?_cons_succ,
      if_false, if_true, Bool.false_eq_true, List.length_cons, Nat.lt_add_left_iff_pos,
      Nat.zero_lt_succ, Bool.and_self, decide_True, Nat.lt_add_one, Nat.succ_lt_succ_iff,
      Nat.zero_lt_succ, Bool.true_and]
    split <;> simp_all

/-- The default handler on an `include if` line. -/
theorem neutral_include_if (o : MapOrder) (s : scanner) (line before X : Bytes)
    (more : List Bytes)
    (h : directive s.pfx line = some (before, kwInclude :: kwIf :: X :: more)) :
    s.neutral o line = .ok (if s.flagTest X then s.writeLeft o before else s) := by
  obtain ⟨hc, hs⟩ := splitPrefix_of_directive s line before _ h
  simp only [scanner.neutral, hc, hs, index, scanner.flagTest]
  simp +decide
  split <;> rfl

/-- The default handler on an `omit` line without a condition. -/
theorem neutral_omit_bare (o : MapOrder) (s : scanner) (line before : Bytes)
    (h : directive s.pfx line = some (before, [kwOmit])) :
    s.neutral o line = .ok s := by
  obtain ⟨hc, hs⟩ := splitPrefix_of_directive s line before _ h
  simp +decide [scanner.neutral, hc, hs, index]

/-- C4 (amended): for a line handled by the default handler that splits, at the first
occurrence of the prefix, into `TEXT` and the tokens `omit if F MORE`: when the flag test on
`F` holds (`F` is on, or `F` is `!G` with `G` off) the line adds nothing to the output; when
it fails (for a name without `!`: `F` is off) the line adds exactly `TEXT` with its trailing
white space removed and the replacement table applied, then one newline byte. A line whose
tokens are a bare `omit` adds nothing. Nothing but the output changes. -/
theorem omit_if_line (o : MapOrder) (s : scanner) (line bare TEXT T F : Bytes)
    (MORE : List Bytes)
    (d : directive s.pfx line = some (TEXT, kwOmit :: kwIf :: F :: MORE))
    (db : directive s.pfx bare = some (T, [kwOmit])) :
    (s.flagTest F = true → s.neutral o line = .ok s) ∧
    (s.flag F = true → s.neutral o line = .ok s) ∧
    (s.flagTest F = false → s.neutral o line
      = .ok { s with w := s.w ++ s.applyReplacements o (TrimRightSpace TEXT) ++ [10] }) ∧
    (s.flag F = false → hasPrefix F kwBang = false → s.neutral o line
      = .ok { s with w := s.w ++ s.applyReplacements o (TrimRightSpace TEXT) ++ [10] }) ∧
    s.neutral o bare = .ok s := by
  have h := neutral_omit_if o s line TEXT F MORE d
  refine ⟨fun hF => ?_, fun hF => ?_, fun hF => ?_, fun hF hB => ?_, neutral_omit_bare o s bare T db⟩
  · rw [h, hF]; rfl
  · rw [h]; simp [scanner.flagTest, hF]
  · rw [h, hF]; rfl
  · rw [h]; simp [scanner.flagTest, hF, hB, scanner.writeLeft]

theorem omit_if_line_witness :
    scanner.neutral MapOrder.stored
        ⟨[], [(bytesOf "A", bytesOf "B")], [bytesOf "on", kwTrue], bytesOf "//", [.neutral],
          [], 1, [], false⟩ (bytesOf "xAy \t // omit if off MORE\n")
      = .ok ⟨[], [(bytesOf "A", bytesOf "B")], [bytesOf "on", kwTrue], bytesOf "//", [.neutral],
          bytesOf "xBy\n", 1, [], false⟩ :=
  (omit_if_line MapOrder.stored
      ⟨[], [(bytesOf "A", bytesOf "B")], [bytesOf "on", kwTrue], bytesOf "//", [.neutral],
        [], 1, [], false⟩ (bytesOf "xAy \t // omit if off MORE\n") (bytesOf "// omit\n")
      (bytesOf "xAy \t ") [] (bytesOf "off") [bytesOf "MORE"] (by decide) (by decide)).2.2.1
    (by decide)

/-- C4 as stated fails when the prefix occurs earlier than after `TEXT`: `x/` does not contain
the prefix `//`, yet in `x/// omit if off MORE` the first occurrence of `//` starts inside
`TEXT`, the tokens begin with `/`, and the run fails instead of emitting `x/`. It also fails
for a negated token: `!G` is not on, yet with `G` off the line adds nothing. -/
theorem omit_if_line_counterexample :
    (Contains (bytesOf "x/") (bytesOf "//") = false ∧
      Process MapOrder.stored 2
        (bytesOf "x/" ++ bytesOf "//" ++ bytesOf " omit if off MORE\n") [] (bytesOf "//")
        = some (.error (.scan 1 (.unknownDirective (bytesOf "/"))))) ∧
    (bytesOf "!G" ∉ [kwTrue] ∧
      Process MapOrder.stored 2
        (bytesOf "x" ++ bytesOf "//" ++ bytesOf " omit if !G MORE\n") [] (bytesOf "//")
        = some (.ok [])) := by
  refine ⟨⟨by decide, by decide⟩, ⟨by decide, by decide⟩⟩

/-- C5: `include if` is the complement of `omit if`. For two lines handled by the default
handler in the same state that split into the same text `TEXT` and the tokens `include if X`
and `omit if X`: when the flag test on `X` (`X` set, or `X` negated and the name after `!`
unset) is true the `include` line emits and the `omit` line emits nothing, when it is false
it is the other way round; what is emitted is `TEXT` with its trailing white space removed
and the replacement table applied, then a newline, which is never empty. Applying the table
leaves the trimmed text as it is when the table is empty, and replaces every occurrence of
`A` by `B` in it when `A ↦ B` is the only entry. -/
theorem include_omit_complement (o : MapOrder) (s : scanner) (lineI lineO TEXT X : Bytes)
    (moreI moreO : List Bytes)
    (dI : directive s.pfx lineI = some (TEXT, kwInclude :: kwIf :: X :: moreI))
    (dO : directive s.pfx lineO = some (TEXT, kwOmit :: kwIf :: X :: moreO)) :
    (s.flagTest X = (s.flag X || (hasPrefix X kwBang && !s.flag (X.drop 1)))) ∧
    (s.flagTest X = true →
      s.neutral o lineI
        = .ok { s with w := s.w ++ s.applyReplacements o (TrimRightSpace TEXT) ++ [10] } ∧
      s.neutral o lineO = .ok s) ∧
    (s.flagTest X = false →
      s.neutral o lineI = .ok s ∧
      s.neutral o lineO
        = .ok { s with w := s.w ++ s.applyReplacements o (TrimRightSpace TEXT) ++ [10] }) ∧
    s.w ++ s.applyReplacements o (TrimRightSpace TEXT) ++ [10] ≠ s.w ∧
    (s.replacements = [] →
      s.applyReplacements o (TrimRightSpace TEXT) = TrimRightSpace TEXT) ∧
    (∀ A B, s.replacements = [(A, B)] →
      s.applyReplacements o (TrimRightSpace TEXT) = Replace (TrimRightSpace TEXT) A B) := by
  have hI := neutral_include_if o s lineI TEXT X moreI dI
  have hO := neutral_omit_if o s lineO TEXT X moreO dO
  refine ⟨rfl, fun hX => ?_, fun hX => ?_, ?_, applyReplacements_nil o s _, fun A B h => ?_⟩
  · rw [hI, hO, hX]; exact ⟨rfl, rfl⟩
  · rw [hI, hO, hX]; exact ⟨rfl, rfl⟩
  · intro h
    have := congrArg List.length h
    simp at this
  · have hp := o.perm s.lineNumber s.replacements
    rw [h] at hp
    simp [scanner.applyReplacements, h, List.perm_singleton.1 hp]

theorem include_omit_complement_witness :
    (scanner.neutral MapOrder.stored
        ⟨[], [(bytesOf "A", bytesOf "B")], [bytesOf "on", kwTrue], bytesOf "//", [.neutral],
          bytesOf "w", 1, [], false⟩ (bytesOf "xAyA \t // include if !off\n")
      = .ok ⟨[], [(bytesOf "A", bytesOf "B")], [bytesOf "on", kwTrue], bytesOf "//", [.neutral],
          bytesOf "wxByB\n", 1, [], false⟩ ∧
    scanner.neutral MapOrder.stored
        ⟨[], [(bytesOf "A", bytesOf "B")], [bytesOf "on", kwTrue], bytesOf "//", [.neutral],
          bytesOf "w", 1, [], false⟩ (bytesOf "xAyA \t // omit if !off\n")
      = .ok ⟨[], [(bytesOf "A", bytesOf "B")], [bytesOf "on", kwTrue], bytesOf "//", [.neutral],
          bytesOf "w", 1, [], false⟩) ∧
    (scanner.neutral MapOrder.stored
        ⟨[], [(bytesOf "A", bytesOf "B")], [bytesOf "on", kwTrue], bytesOf "//", [.neutral],
          bytesOf "w", 1, [], false⟩ (bytesOf "xAyA \t // include if off\n")
      = .ok ⟨[], [(bytesOf "A", bytesOf "B")], [bytesOf "on", kwTrue], bytesOf "//", [.neutral],
          bytesOf "w", 1, [], false⟩ ∧
    scanner.neutral MapOrder.stored
        ⟨[], [(bytesOf "A", bytesOf "B")], [bytesOf "on", kwTrue], bytesOf "//", [.neutral],
          bytesOf "w", 1, [], false⟩ (bytesOf "xAyA \t // omit if off\n")
      = .ok ⟨[], [(bytesOf "A", bytesOf "B")], [bytesOf "on", kwTrue], bytesOf "//", [.neutral],
          bytesOf "wxByB\n", 1, [], false⟩) :=
  ⟨(include_omit_complement MapOrder.stored
      ⟨[], [(bytesOf "A", bytesOf "B")], [bytesOf "on", kwTrue], bytesOf "//", [.neutral],
        bytesOf "w", 1, [], false⟩
      (bytesOf "xAyA \t // include if !off\n") (bytesOf "xAyA \t // omit if !off\n")
      (bytesOf "xAyA \t ") (bytesOf "!off") [] [] (by decide) (by decide)).2.1 (by decide),
   (include_omit_complement MapOrder.stored
      ⟨[], [(bytesOf "A", bytesOf "B")], [bytesOf "on", kwTrue], bytesOf "//", [.neutral],
        bytesOf "w", 1, [], false⟩
      (bytesOf "xAyA \t // include if off\n") (bytesOf "xAyA \t // omit if off\n")
      (bytesOf "xAyA \t ") (bytesOf "off") [] [] (by decide) (by decide)).2.2.1 (by decide)⟩

/-- C6 fails on the code when the `template` line is the last line of the input and has no
newline: the read of that line reports end of input, `eof` stays set after the stored lines
are put back on the reader, and the loop stops without reading them. The same line followed
by a newline replays the template, as the input with the stored lines written in its place
does. -/
theorem template_last_line_not_replayed :
    Process MapOrder.stored 5 (bytesOf "// def X\nfoo\n// enddef\n// template X") []
        (bytesOf "//") = some (.ok []) ∧
    Process MapOrder.stored 5 (bytesOf "// def X\nfoo\n// enddef\nfoo\n") []
        (bytesOf "//") = some (.ok (bytesOf "foo\n")) ∧
    Process MapOrder.stored 7 (bytesOf "// def X\nfoo\n// enddef\n// template X\n") []
        (bytesOf "//") = some (.ok (bytesOf "foo\n")) := by
  refine ⟨by decide, by decide, by decide⟩

/-- The default handler on a `replace` line with at least two more tokens. -/
theorem neutral_replace (o : MapOrder) (s : scanner) (line before A B : Bytes)
    (more : List Bytes)
    (h : directive s.pfx line = some (before, kwReplace :: A :: B :: more)) :
    s.neutral o line = .ok { s with replacements := s.replacements.set A B } := by
  obtain ⟨hc, hs⟩ := splitPrefix_of_directive s line before _ h
  simp +decide [scanner.neutral, hc, hs, index]

/-- The default handler on a `replace` line with fewer than two more tokens. -/
theorem neutral_replace_short (o : MapOrder) (s : scanner) (line before : Bytes)
    (rest : List Bytes) (hlen : rest.length < 2)
    (h : directive s.pfx line = some (before, kwReplace :: rest)) :
    s.neutral o line = .error (.scan s.lineNumber .malformedReplace) := by
  obtain ⟨hc, hs⟩ := splitPrefix_of_directive s line before _ h
  have h3 : (kwReplace :: rest).length < 3 := by simp only [List.length_cons]; omega
  simp +decide only [scanner.neutral, hc, hs, index, scanner.error, h3, if_true, if_false,
    Bool.not_true, Bool.false_eq_true, List.get?_cons_zero]

/-- An error raised by a turn of the loop ends the run. -/
theorem Process_error_of_loop (o : MapOrder) (fuel : Nat) (input : Bytes) (flags : List Bytes)
    (pfx : Bytes) (e : Err)
    (h : ((newScanner input flags pfx).pushState .neutral).loop o fuel = some (.error e)) :
    Process o fuel input flags pfx = some (.error e) := by
  simp [Process, scanner.start, h]

/-- C10 (amended): a `replace` directive handled by the default handler succeeds if and only
if it is followed by at least two tokens: the first two are stored as sentinel and
replacement (the earlier entry for the sentinel is overwritten) and further tokens are
ignored; with no or one following token it raises the error "replace needs both sentinel and
replacement", carrying the line number, and the handler returns no scanner. -/
theorem replace_arity (o : MapOrder) (s : scanner) (line before : Bytes) (rest : List Bytes)
    (d : directive s.pfx line = some (before, kwReplace :: rest)) :
    (rest.length < 2 → s.neutral o line = .error (.scan s.lineNumber .malformedReplace)) ∧
    (∀ A B more, rest = A :: B :: more →
      s.neutral o line = .ok { s with replacements := s.replacements.set A B }) ∧
    ((∃ s1, s.neutral o line = .ok s1) ↔ 2 ≤ rest.length) := by
  refine ⟨fun h => neutral_replace_short o s line before rest h d, ?_, ?_⟩
  · intro A B more h
    subst h
    exact neutral_replace o s line before A B more d
  · constructor
    · rintro ⟨s1, h1⟩
      by_contra hlt
      rw [neutral_replace_short o s line before rest (by omega) d] at h1
      cases h1
    · intro h2
      match rest, d, h2 with
      | A :: B :: more, d, _ => exact ⟨_, neutral_replace o s line before A B more d⟩

theorem replace_arity_witness :
    scanner.neutral MapOrder.stored
        ⟨[], [(bytesOf "A", bytesOf "Z")], [kwTrue], bytesOf "//", [.neutral], [], 1, [], false⟩
        (bytesOf "// replace A B C\n")
      = .ok ⟨[], [(bytesOf "A", bytesOf "B")], [kwTrue], bytesOf "//", [.neutral], [], 1, [],
          false⟩ ∧
    scanner.neutral MapOrder.stored
        ⟨[], [(bytesOf "A", bytesOf "Z")], [kwTrue], bytesOf "//", [.neutral], [], 1, [], false⟩
        (bytesOf "// replace onlyone\n")
      = .error (.scan 1 .malformedReplace) :=
  ⟨(replace_arity MapOrder.stored
      ⟨[], [(bytesOf "A", bytesOf "Z")], [kwTrue], bytesOf "//", [.neutral], [], 1, [], false⟩
      (bytesOf "// replace A B C\n") [] [bytesOf "A", bytesOf "B", bytesOf "C"]
      (by decide)).2.1 (bytesOf "A") (bytesOf "B") [bytesOf "C"] rfl,
   (replace_arity MapOrder.stored
      ⟨[], [(bytesOf "A", bytesOf "Z")], [kwTrue], bytesOf "//", [.neutral], [], 1, [], false⟩
      (bytesOf "// replace onlyone\n") [] [bytesOf "onlyone"] (by decide)).1 (by decide)⟩

/-- C10 as stated fails: a `replace` line followed by three tokens does not raise an error;
the third token is ignored and the mapping of the first to the second is applied to the next
line. -/
theorem replace_three_tokens :
    Process MapOrder.stored 3 (bytesOf "// replace A B C\nxAy\n") [] (bytesOf "//")
      = some (.ok (bytesOf "xBy\n")) := by
  decide

/-- C8: for every input whose first `k - 1` lines are newline-terminated lines without the
prefix and whose `k`-th line is an `end` directive line (followed by a newline and any further
input, or ending the input without a newline), `Process` returns no output but the error made
from the line number `k` and the text "unexpected end directive". More generally the default
handler, run on an `end` line while the stack holds one entry, raises that error with the
current line number. -/
theorem Process_bare_end (o : MapOrder) (flags : List Bytes) (P b1 b2 endBody rest : Bytes)
    (ls : List Bytes) (quote : Bytes → String)
    (hC : ∀ l ∈ ls, 10 ∉ l ∧ Contains (l ++ [10]) P = false)
    (he : 10 ∉ endBody)
    (dT : directive P (endBody ++ [10]) = some (b1, [kwEnd]))
    (dU : directive P endBody = some (b2, [kwEnd]))
    (fuel : Nat) (hfuel : ls.length + 1 ≤ fuel) :
    Process o fuel (block ls ++ (endBody ++ 10 :: rest)) flags P
      = some (.error (.scan (ls.length + 1) .unexpectedEnd)) ∧
    Process o fuel (block ls ++ endBody) flags P
      = some (.error (.scan (ls.length + 1) .unexpectedEnd)) ∧
    (Err.scan (ls.length + 1) .unexpectedEnd).Error quote
      = toString (ls.length + 1) ++ ": " ++ "unexpected end directive" ∧
    (∀ (s : scanner) (h : state) (line before : Bytes) (more : List Bytes), s.state = [h] →
      directive s.pfx line = some (before, kwEnd :: more) →
      s.neutral o line = .error (.scan s.lineNumber .unexpectedEnd)) := by
  obtain ⟨k, rfl⟩ : ∃ k, fuel = ls.length + (k + 1) := ⟨fuel - (ls.length + 1), by omega⟩
  refine ⟨?_, ?_, rfl, ?_⟩
  · apply Process_error_of_loop
    simp only [newScanner, scanner.pushState]
    rw [loop_block_neutral o ls
      ⟨[], [], flags ++ [kwTrue], P, [.neutral], [], 0, block ls ++ (endBody ++ 10 :: rest), false⟩
      [] (endBody ++ 10 :: rest) (k + 1) rfl rfl rfl rfl hC]
    have h := step_line o
      ⟨[], [], flags ++ [kwTrue], P, [.neutral], [] ++ block ls, 0 + ls.length,
        endBody ++ 10 :: rest, false⟩ endBody rest he rfl
    rw [dispatch_neutral o
        ⟨[], [], flags ++ [kwTrue], P, [.neutral], [] ++ block ls, 0 + ls.length + 1, rest, false⟩
        [] _ rfl,
      neutral_end o
        ⟨[], [], flags ++ [kwTrue], P, [.neutral], [] ++ block ls, 0 + ls.length + 1, rest, false⟩
        _ b1 [] dT,
      popState_one _ .neutral rfl] at h
    rw [loop_succ_error o k _ _ rfl h]
    simp
  · apply Process_error_of_loop
    simp only [newScanner, scanner.pushState]
    rw [loop_block_neutral o ls
      ⟨[], [], flags ++ [kwTrue], P, [.neutral], [], 0, block ls ++ endBody, false⟩
      [] endBody (k + 1) rfl rfl rfl rfl hC]
    have h := step_last o
      ⟨[], [], flags ++ [kwTrue], P, [.neutral], [] ++ block ls, 0 + ls.length,
        endBody, false⟩ endBody he rfl
    rw [dispatch_neutral o
        ⟨[], [], flags ++ [kwTrue], P, [.neutral], [] ++ block ls, 0 + ls.length + 1, [], true⟩
        [] _ rfl,
      neutral_end o
        ⟨[], [], flags ++ [kwTrue], P, [.neutral], [] ++ block ls, 0 + ls.length + 1, [], true⟩
        _ b2 [] dU,
      popState_one _ .neutral rfl] at h
    rw [loop_succ_error o k _ _ rfl h]
    simp
  · intro s h line before more hs d
    rw [neutral_end o s line before more d, popState_one s h hs]

theorem Process_bare_end_witness :
    Process MapOrder.stored 3
        (block [bytesOf "a", bytesOf "b"] ++ (bytesOf "// end" ++ 10 :: bytesOf "c\n")) []
        (bytesOf "//")
      = some (.error (.scan 3 .unexpectedEnd)) ∧
    (Err.scan 3 .unexpectedEnd).Error (fun _ => "") = "3: unexpected end directive" :=
  ⟨(Process_bare_end MapOrder.stored [] (bytesOf "//") [] [] (bytesOf "// end") (bytesOf "c\n")
      [bytesOf "a", bytesOf "b"] (fun _ => "") (by decide) (by decide) (by decide) (by decide)
      3 (by decide)).1,
   by decide⟩

theorem Contains_cons (a : Nat) (s sub : Bytes) :
    Contains (a :: s) sub = (hasPrefix (a :: s) sub || Contains s sub) := by
  simp only [Contains, Index]
  by_cases h : hasPrefix (a :: s) sub = true
  · simp [h]
  · simp [h]

theorem hasPrefix_iff (s p : Bytes) : hasPrefix s p = true ↔ ∃ t, s = p ++ t := by
  simp only [hasPrefix, List.isPrefixOf_iff_prefix]
  constructor
  · rintro ⟨t, rfl⟩; exact ⟨t, rfl⟩
  · rintro ⟨t, rfl⟩; exact ⟨t, rfl⟩

theorem replaceLoop_skip (old new : Bytes) :
    ∀ (s : Bytes) (k : Nat), replaceLoop old new s k = replaceLoop old new (s.drop k) 0 := by
  intro s
  induction s with
  | nil => intro k; simp [replaceLoop]
  | cons b t ih =>
    intro k
    cases k with
    | zero => simp
    | succ k => simp [replaceLoop, ih k]

theorem replaceLoop_match (old new rest : Bytes) (h : old ≠ []) :
    replaceLoop old new (old ++ rest) 0 = new ++ replaceLoop old new rest 0 := by
  cases old with
  | nil => exact absurd rfl h
  | cons a t =>
    have hp : hasPrefix (a :: (t ++ rest)) (a :: t) = true :=
      (hasPrefix_iff _ _).2 ⟨rest, rfl⟩
    have e : (a :: t) ++ rest = a :: (t ++ rest) := rfl
    rw [e, replaceLoop, if_pos hp, replaceLoop_skip (a :: t) new (t ++ rest)]
    simp

/-- A line that does not contain the sentinel is left as it is. -/
theorem Replace_absent (s old new : Bytes) (hold : old ≠ []) (h : Contains s old = false) :
    Replace s old new = s := by
  simp only [Replace, hold, if_false]
  induction s with
  | nil => simp [replaceLoop]
  | cons b t ih =>
    rw [Contains_cons] at h
    simp only [Bool.or_eq_false_iff] at h
    simp [replaceLoop, h.1, ih h.2]

/-- Every occurrence of the sentinel is replaced: the line is cut at the occurrences of `old`
into pieces that do not contain `old`, and the result is these pieces with `new` between
them. -/
theorem Replace_pieces (old new : Bytes) (hold : old ≠ []) :
    ∀ (n : Nat) (s : Bytes), s.length ≤ n →
      ∃ pieces : List Bytes, pieces ≠ [] ∧ s = Join pieces old ∧
        Replace s old new = Join pieces new ∧ ∀ p ∈ pieces, Contains p old = false := by
  intro n
  induction n with
  | zero =>
    intro s hs
    have : s = [] := List.eq_nil_of_length_eq_zero (by omega)
    subst this
    refine ⟨[[]], by simp, rfl, ?_, ?_⟩
    · simp [Replace, hold, replaceLoop, Join]
    · intro p hp
      simp at hp
      subst hp
      exact Contains_nil_left old hold
  | succ n ih =>
    intro s hs
    cases s with
    | nil =>
      refine ⟨[[]], by simp, rfl, ?_, ?_⟩
      · simp [Replace, hold, replaceLoop, Join]
      · intro p hp
        simp at hp
        subst hp
        exact Contains_nil_left old hold
    | cons b t =>
      by_cases hp : hasPrefix (b :: t) old = true
      · obtain ⟨rest, hrest⟩ := (hasPrefix_iff _ _).1 hp
        have hlen : rest.length ≤ n := by
          have := congrArg List.length hrest
          have h0 : 0 < old.length := List.length_pos.2 hold
          simp at this
          simp at hs
          omega
        obtain ⟨ps, hne, hj, hr, hc⟩ := ih rest hlen
        refine ⟨[] :: ps, by simp, ?_, ?_, ?_⟩
        · cases ps with
          | nil => exact absurd rfl hne
          | cons q qs => rw [hrest]; simp [Join, ← hj]
        · cases ps with
          | nil => exact absurd rfl hne
          | cons q qs =>
            simp only [Replace, hold, if_false] at hr ⊢
            rw [hrest, replaceLoop_match old new rest hold, hr]
            simp [Join]
        · intro p hmem
          rcases List.mem_cons.1 hmem with rfl | h
          · exact Contains_nil_left old hold
          · exact hc p h
      · have hp2 : hasPrefix (b :: t) old = false := by simpa using hp
        obtain ⟨ps, hne, hj, hr, hc⟩ := ih t (by simp at hs; omega)
        cases ps with
        | nil => exact absurd rfl hne
        | cons q qs =>
          refine ⟨(b :: q) :: qs, by simp, ?_, ?_, ?_⟩
          · cases qs with
            | nil => simp [Join] at hj ⊢; exact hj
            | cons q2 qs2 => simp [Join] at hj ⊢; exact hj
          · simp only [Replace, hold, if_false] at hr ⊢
            simp only [replaceLoop, hp2, if_false, Bool.false_eq_true, hr]
            cases qs with
            | nil => simp [Join]
            | cons q2 qs2 => simp [Join]
          · intro p hmem
            rcases List.mem_cons.1 hmem with rfl | h
            · rw [Contains_cons]
              have hq := hc q (List.mem_cons_self _ _)
              rw [hq, Bool.or_false]
              by_contra hcon
              have hcon2 : hasPrefix (b :: q) old = true := by simpa using hcon
              obtain ⟨u, hu⟩ := (hasPrefix_iff _ _).1 hcon2
              apply hp
              apply (hasPrefix_iff _ _).2
              cases qs with
              | nil =>
                simp [Join] at hj
                exact ⟨u, by rw [hj, hu]⟩
              | cons q2 qs2 =>
                simp [Join] at hj
                refine ⟨u ++ (old ++ Join (q2 :: qs2) old), ?_⟩
                rw [hj, ← List.cons_append, hu]
                simp
            · exact hc p (List.mem_cons_of_mem _ h)

theorem fieldsLoop_ne_nil :
    ∀ (s : Bytes) (k : Nat) (cur : Option Bytes), (∀ t, cur = some t → t ≠ []) →
      ∀ x ∈ fieldsLoop s k cur, x ≠ [] := by
  intro s
  induction s with
  | nil =>
    intro k cur hcur x hx
    cases cur with
    | none => simp [fieldsLoop] at hx
    | some t =>
      simp [fieldsLoop] at hx
      subst hx
      exact hcur _ rfl
  | cons b s ih =>
    intro k cur hcur x hx
    cases k with
    | succ k =>
      rw [fieldsLoop] at hx
      refine ih k _ ?_ x hx
      intro t ht
      cases cur with
      | none => simp at ht
      | some u => simp at ht; subst ht; simp
    | zero =>
      simp only [fieldsLoop] at hx
      split at hx
      · cases cur with
        | none => exact ih _ none (by simp) x hx
        | some t =>
          simp only [List.mem_cons] at hx
          rcases hx with rfl | hx
          · exact hcur _ rfl
          · exact ih _ none (by simp) x hx
      · refine ih _ _ ?_ x hx
        intro t ht
        simp at ht
        subst ht
        simp

/-- The tokens of a directive line are not empty. -/
theorem directive_token_ne_nil (P line before : Bytes) (toks : List Bytes)
    (h : directive P line = some (before, toks)) : ∀ x ∈ toks, x ≠ [] := by
  unfold directive at h
  split at h
  · split at h
    · simp only [Option.some.injEq, Prod.mk.injEq] at h
      rw [← h.2]
      exact fieldsLoop_ne_nil _ 0 none (by simp)
    · simp at h
  · simp at h

theorem set_only (m : Table) (A B : Bytes) (h : ∀ e ∈ m, e.1 = A) : m.set A B = [(A, B)] := by
  have : m.filter (fun e => e.1 != A) = [] := by
    rw [List.filter_eq_nil_iff]
    intro e he
    simp [h e he]
  simp [Table.set, this]

theorem applyReplacements_single (o : MapOrder) (s : scanner) (A B line : Bytes)
    (h : s.replacements = [(A, B)]) : s.applyReplacements o line = Replace line A B := by
  have hp := o.perm s.lineNumber s.replacements
  rw [h] at hp
  simp [scanner.applyReplacements, h, List.perm_singleton.1 hp]

theorem neutral_plain_single (o : MapOrder) (s : scanner) (A B line : Bytes)
    (h : s.replacements = [(A, B)]) (hc : Contains line s.pfx = false) :
    s.neutral o line = .ok { s with w := s.w ++ Replace line A B } := by
  simp [scanner.neutral, hc, applyReplacements_single o s A B line h]

/-- C7: when a `replace A B` line is handled by the default handler and no sentinel other
than `A` is registered, the replacement table becomes the single entry `A ↦ B`. With that
table every line without the prefix handled by the default handler is emitted with every
occurrence of `A` replaced by `B`: the line is cut at the occurrences of `A` into pieces free
of `A`, and what is emitted is these pieces joined by `B`; a line that does not contain `A`
is emitted unchanged. A later `replace A C` line overwrites the entry, after which `A` is
replaced by `C`. -/
theorem replace_then_lines (o : MapOrder) (s : scanner)
    (lineR lineR2 before before2 A B C : Bytes)
    (hOnly : ∀ e ∈ s.replacements, e.1 = A)
    (d : directive s.pfx lineR = some (before, [kwReplace, A, B]))
    (d2 : directive s.pfx lineR2 = some (before2, [kwReplace, A, C])) :
    s.neutral o lineR = .ok { s with replacements := [(A, B)] } ∧
    (∀ (s2 : scanner) (line : Bytes), s2.pfx = s.pfx → s2.replacements = [(A, B)] →
      Contains line s2.pfx = false →
        s2.neutral o line = .ok { s2 with w := s2.w ++ Replace line A B } ∧
        (Contains line A = false → Replace line A B = line) ∧
        (∃ pieces : List Bytes, pieces ≠ [] ∧ line = Join pieces A ∧
          Replace line A B = Join pieces B ∧ ∀ p ∈ pieces, Contains p A = false)) ∧
    (∀ (s2 : scanner), s2.pfx = s.pfx → s2.replacements = [(A, B)] →
      s2.neutral o lineR2 = .ok { s2 with replacements := [(A, C)] } ∧
      ∀ (s3 : scanner) (line : Bytes), s3.replacements = [(A, C)] →
        Contains line s3.pfx = false →
        s3.neutral o line = .ok { s3 with w := s3.w ++ Replace line A C }) := by
  have hA : A ≠ [] := directive_token_ne_nil _ _ _ _ d A (by simp)
  refine ⟨?_, ?_, ?_⟩
  · rw [neutral_replace o s lineR before A B [] d, set_only _ A B hOnly]
  · intro s2 line _ hrep hc
    refine ⟨neutral_plain_single o s2 A B line hrep hc,
      fun h => Replace_absent line A B hA h, Replace_pieces A B hA line.length line (le_refl _)⟩
  · intro s2 hpfx hrep
    constructor
    · rw [← hpfx] at d2
      rw [neutral_replace o s2 lineR2 before2 A C [] d2,
        set_only _ A C (by rw [hrep]; simp)]
    · intro s3 line h3 hc
      exact neutral_plain_single o s3 A C line h3 hc

theorem replace_then_lines_witness :
    scanner.neutral MapOrder.reversed
        ⟨[], [(bytesOf "A", bytesOf "B")], [kwTrue], bytesOf "//", [.neutral], [], 2, [], false⟩
        (bytesOf "xAAy A\n")
      = .ok ⟨[], [(bytesOf "A", bytesOf "B")], [kwTrue], bytesOf "//", [.neutral],
          bytesOf "xBBy B\n", 2, [], false⟩ :=
  ((replace_then_lines MapOrder.reversed
      ⟨[], [], [kwTrue], bytesOf "//", [.neutral], [], 1, [], false⟩
      (bytesOf "// replace A B\n") (bytesOf "// replace A C\n") [] [] (bytesOf "A") (bytesOf "B")
      (bytesOf "C") (by decide) (by decide) (by decide)).2.1
    ⟨[], [(bytesOf "A", bytesOf "B")], [kwTrue], bytesOf "//", [.neutral], [], 2, [], false⟩
    (bytesOf "xAAy A\n") rfl rfl (by decide)).1

theorem directive_of_splitPrefix (s : scanner) (line before : Bytes) (pragma : List Bytes)
    (h : s.splitPrefix line = .ok (before, pragma)) :
    directive s.pfx line = some (before, pragma) := by
  unfold scanner.splitPrefix at h
  unfold directive
  split at h
  · cases h
  · rename_i hc
    have hc2 : Contains line s.pfx = true := by simpa using hc
    simp only [hc2, if_true]
    split at h
    · cases h
    · cases h
    · rename_i b a t heq
      rw [heq]
      cases h
      rfl

/-- What a successful run of the default handler does to the scanner: one case per kind of
line. -/
theorem neutral_ok_cases (o : MapOrder) (s s1 : scanner) (line : Bytes)
    (h : s.neutral o line = .ok s1) :
    (Contains line s.pfx = false ∧ s1 = { s with w := s.w ++ s.applyReplacements o line }) ∨
    (∃ before p0 rest, directive s.pfx line = some (before, p0 :: rest) ∧
      ((p0 = kwEnd ∧ s.popState = .ok s1) ∨
       (p0 = kwDef ∧ ∃ name, s1 = s.pushState (.defn name [])) ∨
       (p0 = kwIf ∧ (s1 = s.pushState .neutral ∨ s1 = s.pushState .consumeUntilEnd)) ∨
       (p0 = kwOmit ∧ (s1 = s ∨ s1 = s.writeLeft o before)) ∨
       (p0 = kwInclude ∧ (s1 = s ∨ s1 = s.writeLeft o before)) ∨
       (p0 = kwTemplate ∧ ∃ name contents, rest.head? = some name ∧
          s.templates.get name = some contents ∧ s1 = { s with r := contents ++ s.r }) ∨
       (p0 = kwReplace ∧ ∃ a b, s1 = { s with replacements := s.replacements.set a b }))) := by
  unfold scanner.neutral at h
  by_cases hc : Contains line s.pfx = true
  · right
    simp only [hc, Bool.not_true, Bool.false_eq_true, if_false] at h
    cases hsp : s.splitPrefix line with
    | error e => rw [hsp] at h; cases h
    | ok bp =>
      obtain ⟨before, pragma⟩ := bp
      rw [hsp] at h
      simp only at h
      have hd := directive_of_splitPrefix s line before pragma hsp
      cases pragma with
      | nil => simp [index] at h
      | cons p0 rest =>
        refine ⟨before, p0, rest, hd, ?_⟩
        simp only [index, List.get?_cons_zero] at h
        by_cases h1 : p0 = kwEnd
        · simp only [h1, if_true] at h
          exact Or.inl ⟨h1, h⟩
        simp only [h1, if_false] at h
        by_cases h2 : p0 = kwDef
        · simp only [h2, if_true] at h
          refine Or.inr (Or.inl ⟨h2, ?_⟩)
          split at h
          · cases h
          · rename_i name _
            cases h
            exact ⟨name, rfl⟩
        simp only [h2, if_false] at h
        by_cases h3 : p0 = kwIf
        · simp only [h3, if_true] at h
          refine Or.inr (Or.inr (Or.inl ⟨h3, ?_⟩))
          repeat' split at h
          all_goals first
            | (cases h; exact Or.inl rfl)
            | (cases h; exact Or.inr rfl)
            | cases h
        simp only [h3, if_false] at h
        by_cases h4 : p0 = kwOmit
        · simp only [h4, if_true] at h
          refine Or.inr (Or.inr (Or.inr (Or.inl ⟨h4, ?_⟩)))
          repeat' split at h
          all_goals first
            | (cases h; exact Or.inl rfl)
            | (cases h; exact Or.inr rfl)
            | cases h
        simp only [h4, if_false] at h
        by_cases h5 : p0 = kwInclude
        · simp only [h5, if_true] at h
          refine Or.inr (Or.inr (Or.inr (Or.inr (Or.inl ⟨h5, ?_⟩))))
          repeat' split at h
          all_goals first
            | (cases h; exact Or.inl rfl)
            | (cases h; exact Or.inr rfl)
            | cases h
        simp only [h5, if_false] at h
        by_cases h6 : p0 = kwTemplate
        · simp only [h6, if_true] at h
          refine Or.inr (Or.inr (Or.inr (Or.inr (Or.inr (Or.inl ⟨h6, ?_⟩)))))
          cases rest with
          | nil => simp at h
          | cons name more =>
            simp only [List.get?_cons_succ, List.get?_cons_zero] at h
            cases hg : s.templates.get name with
            | none => rw [hg] at h; cases h
            | some c =>
              rw [hg] at h
              cases h
              exact ⟨name, c, rfl, hg, rfl⟩
        simp only [h6, if_false] at h
        by_cases h7 : p0 = kwReplace
        · simp only [h7, if_true] at h
          refine Or.inr (Or.inr (Or.inr (Or.inr (Or.inr (Or.inr ⟨h7, ?_⟩)))))
          repeat' split at h
          all_goals first
            | (cases h; exact ⟨_, _, rfl⟩)
            | cases h
        simp only [h7, if_false] at h
        cases h
  · left
    have hc2 : Contains line s.pfx = false := by simpa using hc
    simp only [hc2, Bool.not_false, if_true] at h
    cases h
    exact ⟨hc2, rfl⟩

theorem popState_templates (s s1 : scanner) (h : s.popState = .ok s1) :
    s1.templates = s.templates := by
  unfold scanner.popState at h
  split at h
  · cases h
  · split at h
    · cases h
    · cases h; rfl

theorem neutral_templates (o : MapOrder) (s s1 : scanner) (line : Bytes)
    (h : s.neutral o line = .ok s1) : s1.templates = s.templates := by
  rcases neutral_ok_cases o s s1 line h with ⟨_, rfl⟩ | ⟨_, _, _, _, hcase⟩
  · rfl
  · rcases hcase with ⟨_, hp⟩ | ⟨_, _, rfl⟩ | ⟨_, rfl | rfl⟩ | ⟨_, rfl | rfl⟩ | ⟨_, rfl | rfl⟩ |
      ⟨_, _, _, _, _, rfl⟩ | ⟨_, _, _, rfl⟩
    · exact popState_templates _ _ hp
    all_goals rfl

theorem consumeUntilEnd_templates (s s1 : scanner) (line : Bytes)
    (h : s.consumeUntilEnd line = .ok s1) : s1.templates = s.templates := by
  unfold scanner.consumeUntilEnd at h
  repeat' split at h
  all_goals first
    | (cases h; rfl)
    | exact popState_templates _ _ h
    | (cases h)

theorem get_set (m : Table) (k v k2 : Bytes) :
    ((m.set k v).get k2).isSome = true ↔ (k2 = k ∨ (m.get k2).isSome = true) := by
  simp only [Table.set, Table.get]
  induction m with
  | nil =>
    by_cases h : k2 = k
    · simp [List.lookup, h]
    · have hb : (k2 == k) = false := by simpa using h
      simp [List.lookup, h, hb]
  | cons e m ih =>
    obtain ⟨a, b⟩ := e
    by_cases h1 : a = k
    · subst h1
      simp only [List.filter_cons, bne_self_eq_false, Bool.false_eq_true, if_false, ih,
        List.lookup_cons]
      by_cases h2 : k2 = a
      · simp [h2]
      · have hb : (k2 == a) = false := by simpa using h2
        simp only [hb, h2, false_or]
    · have hne : (a != k) = true := by simpa using h1
      simp only [List.filter_cons, hne, if_true, List.cons_append, List.lookup_cons]
      by_cases h2 : k2 = a
      · simp [h2]
      · have : (k2 == a) = false := by simpa using h2
        simp only [this, ih]

theorem defn_templates (s s1 : scanner) (name content line : Bytes)
    (h : s.defn name content line = .ok s1) (N : Bytes) :
    (s1.templates.get N).isSome = true ↔
      ((s.templates.get N).isSome = true ∨
        (match directive s.pfx line with
          | some (_, p0 :: _) => if p0 = kwEnddef then some name else none
          | _ => none) = some N) := by
  unfold scanner.defn at h
  split at h
  · rename_i hc
    have hc2 : Contains line s.pfx = false := by simpa using hc
    cases h
    simp [directive, hc2, scanner.capture]
  · split at h
    · cases h
    · rename_i before pragma hsp
      have hd := directive_of_splitPrefix s line before pragma hsp
      rw [hd]
      cases pragma with
      | nil => simp [index] at h
      | cons p0 rest =>
        simp only [index, List.get?_cons_zero] at h
        by_cases hp : p0 = kwEnddef
        · simp only [hp, if_true] at h ⊢
          have := popState_templates _ _ h
          rw [this]
          simp only [get_set, Option.some.injEq]
          constructor
          · rintro (h1 | h1)
            · exact Or.inr h1.symm
            · exact Or.inl h1
          · rintro (h1 | h1)
            · exact Or.inr h1
            · exact Or.inl h1.symm
        · simp only [hp, if_false] at h ⊢
          cases h
          simp [scanner.capture]

/-- A turn of the loop adds to the template store the name of the capture block it completes,
and nothing else. -/
theorem step_templates (o : MapOrder) (s s1 : scanner) (h : s.step o = .ok s1) (N : Bytes) :
    (s1.templates.get N).isSome = true ↔
      ((s.templates.get N).isSome = true ∨ s.completed = some N) := by
  unfold scanner.step scanner.dispatch at h
  have hst : s.line.2.state = s.state := rfl
  have htp : s.line.2.templates = s.templates := rfl
  unfold scanner.completed
  split at h
  · cases h
  · rename_i stk heq
    rw [hst] at heq
    rw [neutral_templates o _ _ _ h, htp, heq]
    simp
  · rename_i stk heq
    rw [hst] at heq
    rw [consumeUntilEnd_templates _ _ _ h, htp, heq]
    simp
  · rename_i name content stk heq
    have := defn_templates s.line.2 s1 name content s.line.1 h N
    rw [hst] at heq
    rw [this, htp, heq]
    rfl

theorem turns_templates (o : MapOrder) :
    ∀ (n : Nat) (s0 s : scanner) (d0 done : List Bytes),
      scanner.turns o n s0 d0 = some (s, done) →
      (∀ N, (s0.templates.get N).isSome = true ↔ N ∈ d0) →
      ∀ N, (s.templates.get N).isSome = true ↔ N ∈ done := by
  intro n
  induction n with
  | zero =>
    intro s0 s d0 done h hinv
    simp only [scanner.turns, Option.some.injEq, Prod.mk.injEq] at h
    rw [← h.1, ← h.2]
    exact hinv
  | succ n ih =>
    intro s0 s d0 done h hinv
    simp only [scanner.turns] at h
    split at h
    · cases h
    · split at h
      · rename_i s1 hstep
        refine ih s1 s _ done h ?_
        intro N
        rw [step_templates o s0 s1 hstep N, hinv N]
        cases hc : s0.completed with
        | none => simp
        | some x =>
          simp only [Option.toList_some, List.mem_append, List.mem_singleton, Option.some.injEq]
          constructor
          · rintro (h1 | h1)
            · exact Or.inl h1
            · exact Or.inr h1.symm
          · rintro (h1 | h1)
            · exact Or.inl h1
            · exact Or.inr h1.symm
      · cases h

theorem turns_loop (o : MapOrder) :
    ∀ (n : Nat) (s0 s : scanner) (d0 done : List Bytes),
      scanner.turns o n s0 d0 = some (s, done) →
      ∀ k, s0.loop o (n + k) = s.loop o k := by
  intro n
  induction n with
  | zero =>
    intro s0 s d0 done h k
    simp only [scanner.turns, Option.some.injEq, Prod.mk.injEq] at h
    rw [h.1, Nat.zero_add]
  | succ n ih =>
    intro s0 s d0 done h k
    simp only [scanner.turns] at h
    split at h
    · cases h
    · rename_i he
      split at h
      · rename_i s1 hstep
        rw [show n + 1 + k = (n + k) + 1 by omega,
          loop_succ_ok o _ s0 s1 (by simpa using he) hstep]
        exact ih s1 s _ done h k
      · cases h

/-- The default handler on a `template` line. -/
theorem neutral_template (o : MapOrder) (s : scanner) (line before N : Bytes)
    (more : List Bytes)
    (h : directive s.pfx line = some (before, kwTemplate :: N :: more)) :
    s.neutral o line
      = match s.templates.get N with
        | none => .error (.scan s.lineNumber .unknownTemplate)
        | some contents => .ok { s with r := contents ++ s.r } := by
  obtain ⟨hc, hs⟩ := splitPrefix_of_directive s line before _ h
  simp +decide [scanner.neutral, hc, hs, index, scanner.error]

/-- C9: in a scanner reached by `Process` after `n` turns in which the capture blocks of the
names `done` were completed, the default handler fails on a `template N` line with the
unknown-template error if and only if `N` is not among `done`; for a name among `done` it
puts the stored content back on the reader. When the next line read is that `template` line,
the default handler is on top and `N` is not among `done` (as for a reference placed before
the `def N` block), `Process` returns the error and no output. -/
theorem template_unknown_iff (o : MapOrder) (input : Bytes) (flags : List Bytes) (pfx : Bytes)
    (n : Nat) (s : scanner) (done : List Bytes) (line before N : Bytes) (more : List Bytes)
    (hrun : scanner.turns o n ((newScanner input flags pfx).pushState .neutral) []
      = some (s, done))
    (d : directive s.pfx line = some (before, kwTemplate :: N :: more)) :
    (s.neutral o line = .error (.scan s.lineNumber .unknownTemplate) ↔ N ∉ done) ∧
    (N ∈ done → ∃ contents, s.neutral o line = .ok { s with r := contents ++ s.r }) ∧
    (∀ stk, s.eof = false → s.state = .neutral :: stk → s.line.1 = line → N ∉ done →
      ∀ k, Process o (n + (k + 1)) input flags pfx
        = some (.error (.scan (s.lineNumber + 1) .unknownTemplate))) := by
  have hinv := turns_templates o n _ s [] done hrun (by intro N; simp [newScanner, scanner.pushState, Table.get])
  have hN := hinv N
  have hneu := neutral_template o s line before N more d
  have hfail : N ∉ done → ∀ (s2 : scanner), s2.templates = s.templates → s2.pfx = s.pfx →
      s2.neutral o line = .error (.scan s2.lineNumber .unknownTemplate) := by
    intro hnd s2 ht hp
    have d2 : directive s2.pfx line = some (before, kwTemplate :: N :: more) := by rw [hp]; exact d
    rw [neutral_template o s2 line before N more d2, ht]
    cases hg : s.templates.get N with
    | none => rfl
    | some c => rw [hg] at hN; exact absurd (hN.1 rfl) hnd
  refine ⟨⟨?_, fun h => hfail h s rfl rfl⟩, ?_, ?_⟩
  · intro herr hmem
    rw [hneu] at herr
    cases hg : s.templates.get N with
    | none => rw [hg] at hN; exact absurd (hN.2 hmem) (by simp)
    | some c => rw [hg] at herr; cases herr
  · intro hmem
    cases hg : s.templates.get N with
    | none => rw [hg] at hN; exact absurd (hN.2 hmem) (by simp)
    | some c => exact ⟨c, by rw [hneu, hg]⟩
  · intro stk he hst hline hnd k
    apply Process_error_of_loop
    rw [turns_loop o n _ s [] done hrun (k + 1)]
    have hstep : s.step o = .error (.scan (s.lineNumber + 1) .unknownTemplate) := by
      have := hfail hnd s.line.2 rfl rfl
      rw [scanner.step, dispatch_neutral o s.line.2 stk _ hst, hline]
      exact this
    exact loop_succ_error o k s _ he hstep

theorem template_unknown_iff_witness :
    Process MapOrder.stored (1 + (0 + 1))
        (bytesOf "a\n// template X\n// def X\nfoo\n// enddef\n") [] (bytesOf "//")
      = some (.error (.scan 2 .unknownTemplate)) ∧
    (∃ contents, scanner.neutral MapOrder.stored
        ⟨[(bytesOf "X", bytesOf "foo\n")], [], [kwTrue], bytesOf "//", [.neutral], [], 3,
          bytesOf "rest\n", false⟩ (bytesOf "// template X\n")
      = .ok ⟨[(bytesOf "X", bytesOf "foo\n")], [], [kwTrue], bytesOf "//", [.neutral], [], 3,
          contents ++ bytesOf "rest\n", false⟩) :=
  ⟨(template_unknown_iff MapOrder.stored
      (bytesOf "a\n// template X\n// def X\nfoo\n// enddef\n") [] (bytesOf "//") 1
      ⟨[], [], [kwTrue], bytesOf "//", [.neutral], bytesOf "a\n", 1,
        bytesOf "// template X\n// def X\nfoo\n// enddef\n", false⟩ []
      (bytesOf "// template X\n") [] (bytesOf "X") [] (by decide) (by decide)).2.2
      [] rfl rfl (by decide) (by decide) 0,
   (template_unknown_iff MapOrder.stored
      (bytesOf "// def X\nfoo\n// enddef\nrest\n") [] (bytesOf "//") 3
      ⟨[(bytesOf "X", bytesOf "foo\n")], [], [kwTrue], bytesOf "//", [.neutral], [], 3,
        bytesOf "rest\n", false⟩ [bytesOf "X"]
      (bytesOf "// template X\n") [] (bytesOf "X") [] (by decide) (by decide)).2.1
      (by decide)⟩

theorem popState_ok (s s1 : scanner) (h : s.popState = .ok s1) :
    ∃ a b stk, s.state = a :: b :: stk ∧ s1 = { s with state := b :: stk } := by
  unfold scanner.popState at h
  split at h
  · cases h
  · rename_i hlen
    split at h
    · cases h
    · rename_i a below heq
      cases below with
      | nil => simp [heq] at hlen
      | cons b stk =>
        cases h
        exact ⟨a, b, stk, heq, rfl⟩

theorem popState_error (s : scanner) (e : Err) (h : s.popState = .error e) :
    e = .scan s.lineNumber .unexpectedEnd ∨ e = .sliceOutOfRange := by
  unfold scanner.popState at h
  split at h
  · cases h; exact Or.inl rfl
  · split at h
    · cases h; exact Or.inr rfl
    · cases h

theorem splitPrefix_error (s : scanner) (line : Bytes) (e : Err)
    (h : s.splitPrefix line = .error e) :
    e = .scan s.lineNumber .paranoid ∨ ∃ i n, e = .indexOutOfRange i n := by
  unfold scanner.splitPrefix at h
  split at h
  · cases h; exact Or.inl rfl
  · split at h
    · cases h; exact Or.inr ⟨_, _, rfl⟩
    · cases h; exact Or.inr ⟨_, _, rfl⟩
    · cases h

theorem index_error (xs : List Bytes) (i : Nat) (e : Err) (h : index xs i = .error e) :
    e = .indexOutOfRange i xs.length := by
  unfold index at h
  split at h
  · cases h
  · cases h; rfl

/-- An error raised by the default handler is a runtime error or carries the line number of
the scanner. -/
theorem neutral_error_cases (o : MapOrder) (s : scanner) (line : Bytes) (e : Err)
    (h : s.neutral o line = .error e) :
    (∃ m, e = .scan s.lineNumber m) ∨ (∃ i n, e = .indexOutOfRange i n) ∨
      e = .sliceOutOfRange := by
  unfold scanner.neutral at h
  by_cases hc : Contains line s.pfx = true
  · simp only [hc, Bool.not_true, Bool.false_eq_true, if_false] at h
    cases hsp : s.splitPrefix line with
    | error e2 =>
      rw [hsp] at h
      cases h
      rcases splitPrefix_error s line e hsp with h1 | h1
      · exact Or.inl ⟨_, h1⟩
      · exact Or.inr (Or.inl h1)
    | ok bp =>
      obtain ⟨before, pragma⟩ := bp
      rw [hsp] at h
      simp only at h
      cases hi0 : index pragma 0 with
      | error e2 =>
        rw [hi0] at h
        cases h
        exact Or.inr (Or.inl ⟨_, _, index_error _ _ _ hi0⟩)
      | ok p0 =>
        rw [hi0] at h
        simp only at h
        have hidx : ∀ i e2, index pragma i = .error e2 →
            (∃ m, e2 = .scan s.lineNumber m) ∨ (∃ i n, e2 = .indexOutOfRange i n) ∨
              e2 = .sliceOutOfRange :=
          fun i e2 hi => Or.inr (Or.inl ⟨_, _, index_error _ _ _ hi⟩)
        repeat' split at h
        all_goals first
          | exact (popState_error s e h).elim (fun h1 => Or.inl ⟨_, h1⟩)
              (fun h1 => Or.inr (Or.inr h1))
          | (cases h; done)
          | (cases h; exact Or.inl ⟨_, rfl⟩)
          | (cases h; exact hidx _ _ (by assumption))
  · have hc2 : Contains line s.pfx = false := by simpa using hc
    simp only [hc2, Bool.not_false, if_true] at h
    cases h

theorem consumeUntilEnd_ok_cases (s s1 : scanner) (line : Bytes)
    (h : s.consumeUntilEnd line = .ok s1) :
    s1 = s ∨ ∃ before rest, directive s.pfx line = some (before, kwEnd :: rest) ∧
      s.popState = .ok s1 := by
  unfold scanner.consumeUntilEnd at h
  split at h
  · cases h; exact Or.inl rfl
  · split at h
    · cases h
    · rename_i before pragma hsp
      have hd := directive_of_splitPrefix s line before pragma hsp
      cases pragma with
      | nil => simp [index] at h
      | cons p0 rest =>
        simp only [index, List.get?_cons_zero] at h
        by_cases h1 : p0 = kwEnd
        · subst h1
          simp only [if_true] at h
          exact Or.inr ⟨before, rest, hd, h⟩
        · simp only [h1, if_false] at h
          cases h
          exact Or.inl rfl

theorem consumeUntilEnd_error_cases (s : scanner) (line : Bytes) (e : Err)
    (h : s.consumeUntilEnd line = .error e) :
    (∃ m, e = .scan s.lineNumber m) ∨ (∃ i n, e = .indexOutOfRange i n) ∨
      e = .sliceOutOfRange := by
  unfold scanner.consumeUntilEnd at h
  split at h
  · cases h
  · split at h
    · rename_i e2 hsp
      cases h
      rcases splitPrefix_error s line e hsp with h1 | h1
      · exact Or.inl ⟨_, h1⟩
      · exact Or.inr (Or.inl h1)
    · split at h
      · rename_i e2 hi
        cases h
        exact Or.inr (Or.inl ⟨_, _, index_error _ _ _ hi⟩)
      · split at h
        · rcases popState_error s e h with h1 | h1
          · exact Or.inl ⟨_, h1⟩
          · exact Or.inr (Or.inr h1)
        · cases h

theorem defn_ok_cases (s s1 : scanner) (name content line : Bytes)
    (h : s.defn name content line = .ok s1) :
    ((Contains line s.pfx = false ∨
        ∃ before p0 rest, directive s.pfx line = some (before, p0 :: rest) ∧ p0 ≠ kwEnddef) ∧
      s1 = s.capture name content line) ∨
    ∃ before rest, directive s.pfx line = some (before, kwEnddef :: rest) ∧
      ({ s with templates := s.templates.set name content } : scanner).popState = .ok s1 := by
  unfold scanner.defn at h
  split at h
  · rename_i hc
    cases h
    exact Or.inl ⟨Or.inl (by simpa using hc), rfl⟩
  · split at h
    · cases h
    · rename_i before pragma hsp
      have hd := directive_of_splitPrefix s line before pragma hsp
      cases pragma with
      | nil => simp [index] at h
      | cons p0 rest =>
        simp only [index, List.get?_cons_zero] at h
        by_cases h1 : p0 = kwEnddef
        · subst h1
          simp only [if_true] at h
          exact Or.inr ⟨before, rest, hd, h⟩
        · simp only [h1, if_false] at h
          cases h
          exact Or.inl ⟨Or.inr ⟨before, p0, rest, hd, h1⟩, rfl⟩

theorem defn_error_cases (s : scanner) (name content line : Bytes) (e : Err)
    (h : s.defn name content line = .error e) :
    (∃ m, e = .scan s.lineNumber m) ∨ (∃ i n, e = .indexOutOfRange i n) ∨
      e = .sliceOutOfRange := by
  unfold scanner.defn at h
  split at h
  · cases h
  · split at h
    · rename_i e2 hsp
      cases h
      rcases splitPrefix_error s line e hsp with h1 | h1
      · exact Or.inl ⟨_, h1⟩
      · exact Or.inr (Or.inl h1)
    · split at h
      · rename_i e2 hi
        cases h
        exact Or.inr (Or.inl ⟨_, _, index_error _ _ _ hi⟩)
      · split at h
        · rcases popState_error _ e h with h1 | h1
          · exact Or.inl ⟨_, h1⟩
          · exact Or.inr (Or.inr h1)
        · cases h

/-- What a handler leaves as it is: the line number, the prefix, the flags and the `eof`
mark; and how it changes the stack: not at all, by a push, by a pop from a stack of at least
two entries, or by a new top entry in place of a capture handler on top. -/
theorem dispatch_frame (o : MapOrder) (s s1 : scanner) (line : Bytes)
    (h : s.dispatch o line = .ok s1) :
    s1.lineNumber = s.lineNumber ∧ s1.pfx = s.pfx ∧ s1.flags = s.flags ∧ s1.eof = s.eof ∧
    (s1.state = s.state ∨ (∃ t, s1.state = t :: s.state) ∨
      (∃ a b stk, s.state = a :: b :: stk ∧ s1.state = b :: stk) ∨
      (∃ name c c2 stk, s.state = .defn name c :: stk ∧ s1.state = .defn name c2 :: stk)) := by
  unfold scanner.dispatch at h
  split at h
  · cases h
  · rcases neutral_ok_cases o s s1 line h with ⟨_, rfl⟩ | ⟨_, _, _, _, hcase⟩
    · exact ⟨rfl, rfl, rfl, rfl, Or.inl rfl⟩
    · rcases hcase with ⟨_, hp⟩ | ⟨_, _, rfl⟩ | ⟨_, rfl | rfl⟩ | ⟨_, rfl | rfl⟩ | ⟨_, rfl | rfl⟩ |
        ⟨_, _, _, _, _, rfl⟩ | ⟨_, _, _, rfl⟩
      · obtain ⟨a, b, stk, hst, rfl⟩ := popState_ok s s1 hp
        exact ⟨rfl, rfl, rfl, rfl, Or.inr (Or.inr (Or.inl ⟨a, b, stk, hst, rfl⟩))⟩
      · exact ⟨rfl, rfl, rfl, rfl, Or.inr (Or.inl ⟨_, rfl⟩)⟩
      · exact ⟨rfl, rfl, rfl, rfl, Or.inr (Or.inl ⟨_, rfl⟩)⟩
      · exact ⟨rfl, rfl, rfl, rfl, Or.inr (Or.inl ⟨_, rfl⟩)⟩
      all_goals exact ⟨rfl, rfl, rfl, rfl, Or.inl rfl⟩
  · rcases consumeUntilEnd_ok_cases s s1 line h with rfl | ⟨_, _, _, hp⟩
    · exact ⟨rfl, rfl, rfl, rfl, Or.inl rfl⟩
    · obtain ⟨a, b, stk, hst, rfl⟩ := popState_ok s s1 hp
      exact ⟨rfl, rfl, rfl, rfl, Or.inr (Or.inr (Or.inl ⟨a, b, stk, hst, rfl⟩))⟩
  · rename_i name content stk heq
    rcases defn_ok_cases s s1 name content line h with ⟨_, rfl⟩ | ⟨_, _, _, hp⟩
    · refine ⟨rfl, rfl, rfl, rfl, Or.inr (Or.inr (Or.inr ⟨name, content, content ++ line, stk, heq, ?_⟩))⟩
      simp [scanner.capture, heq]
    · obtain ⟨a, b, stk2, hst, rfl⟩ := popState_ok _ s1 hp
      exact ⟨rfl, rfl, rfl, rfl, Or.inr (Or.inr (Or.inl ⟨a, b, stk2, hst, rfl⟩))⟩

theorem dispatch_error_line (o : MapOrder) (s : scanner) (line : Bytes) (k : Nat) (m : Msg)
    (h : s.dispatch o line = .error (.scan k m)) : k = s.lineNumber := by
  have key : ∀ e : Err, ((∃ m, e = .scan s.lineNumber m) ∨ (∃ i n, e = .indexOutOfRange i n) ∨
      e = .sliceOutOfRange) → e = .scan k m → k = s.lineNumber := by
    rintro e (⟨m2, rfl⟩ | ⟨i, n, rfl⟩ | rfl) he
    · cases he; rfl
    · cases he
    · cases he
  unfold scanner.dispatch at h
  split at h
  · cases h
  · exact key _ (neutral_error_cases o s line _ h) rfl
  · exact key _ (consumeUntilEnd_error_cases s line _ h) rfl
  · exact key _ (defn_error_cases s _ _ line _ h) rfl

/-- A turn of the loop that ends well raises the line number by one. -/
theorem step_lineNumber (o : MapOrder) (s s1 : scanner) (h : s.step o = .ok s1) :
    s1.lineNumber = s.lineNumber + 1 :=
  (dispatch_frame o s.line.2 s1 s.line.1 h).1

/-- An error made by `scanner.error` in a turn of the loop carries the number of the line
read in that turn. -/
theorem step_error_line (o : MapOrder) (s : scanner) (k : Nat) (m : Msg)
    (h : s.step o = .error (.scan k m)) : k = s.lineNumber + 1 :=
  dispatch_error_line o s.line.2 s.line.1 k m h

theorem turns_lineNumber (o : MapOrder) :
    ∀ (n : Nat) (s0 s : scanner) (d0 done : List Bytes),
      scanner.turns o n s0 d0 = some (s, done) → s.lineNumber = s0.lineNumber + n := by
  intro n
  induction n with
  | zero =>
    intro s0 s d0 done h
    simp only [scanner.turns, Option.some.injEq, Prod.mk.injEq] at h
    rw [← h.1]; rfl
  | succ n ih =>
    intro s0 s d0 done h
    simp only [scanner.turns] at h
    split at h
    · cases h
    · split at h
      · rename_i s1 hstep
        rw [ih s1 s _ done h, step_lineNumber o s0 s1 hstep]
        omega
      · cases h

/-- The stack keeps the default handler at its bottom. -/
theorem step_stack (o : MapOrder) (s s1 : scanner) (h : s.step o = .ok s1)
    (hinv : ∃ stk, s.state = stk ++ [.neutral]) : ∃ stk, s1.state = stk ++ [.neutral] := by
  obtain ⟨stk, hs⟩ := hinv
  have hs2 : s.line.2.state = stk ++ [.neutral] := hs
  obtain ⟨_, _, _, _, hcase⟩ := dispatch_frame o s.line.2 s1 s.line.1 h
  rcases hcase with h1 | ⟨t, h1⟩ | ⟨a, b, stk2, h0, h1⟩ | ⟨name, c, c2, stk2, h0, h1⟩
  · exact ⟨stk, by rw [h1, hs2]⟩
  · exact ⟨t :: stk, by rw [h1, hs2]; rfl⟩
  · rw [hs2] at h0
    cases stk with
    | nil => simp at h0
    | cons x xs =>
      simp only [List.cons_append, List.cons.injEq] at h0
      exact ⟨xs, by rw [h1, h0.2]⟩
  · rw [hs2] at h0
    cases stk with
    | nil => simp at h0
    | cons x xs =>
      simp only [List.cons_append, List.cons.injEq] at h0
      exact ⟨.defn name c2 :: xs, by rw [h1, ← h0.2]; rfl⟩

theorem turns_stack (o : MapOrder) :
    ∀ (n : Nat) (s0 s : scanner) (d0 done : List Bytes),
      scanner.turns o n s0 d0 = some (s, done) → (∃ stk, s0.state = stk ++ [.neutral]) →
      ∃ stk, s.state = stk ++ [.neutral] := by
  intro n
  induction n with
  | zero =>
    intro s0 s d0 done h hinv
    simp only [scanner.turns, Option.some.injEq, Prod.mk.injEq] at h
    rw [← h.1]; exact hinv
  | succ n ih =>
    intro s0 s d0 done h hinv
    simp only [scanner.turns] at h
    split at h
    · cases h
    · split at h
      · rename_i s1 hstep
        exact ih s1 s _ done h (step_stack o s0 s1 hstep hinv)
      · cases h

/-- C11 fails on the code for an `include` directive followed by fewer than two tokens: the
test for `if` sits inside `len(pragma) > 2`, so a bare `include` and `include X` raise no
error and the line is dropped, while `include X Y` raises "expected 'if' for include
directive". -/
theorem include_without_if_not_rejected :
    Process MapOrder.stored 2 (bytesOf "text // include\n") [] (bytesOf "//")
      = some (.ok []) ∧
    Process MapOrder.stored 2 (bytesOf "text // include X\n") [] (bytesOf "//")
      = some (.ok []) ∧
    Process MapOrder.stored 2 (bytesOf "text // include X Y\n") [] (bytesOf "//")
      = some (.error (.scan 1 .missingIfClause)) := by
  refine ⟨by decide, by decide, by decide⟩

/-- The default handler on a line whose first token is no directive name. -/
theorem neutral_unknown (o : MapOrder) (s : scanner) (line before p0 : Bytes)
    (more : List Bytes) (h : directive s.pfx line = some (before, p0 :: more))
    (hp : p0 ≠ kwEnd ∧ p0 ≠ kwDef ∧ p0 ≠ kwIf ∧ p0 ≠ kwOmit ∧ p0 ≠ kwInclude ∧
      p0 ≠ kwTemplate ∧ p0 ≠ kwReplace) :
    s.neutral o line = .error (.scan s.lineNumber (.unknownDirective p0)) := by
  obtain ⟨hc, hs⟩ := splitPrefix_of_directive s line before _ h
  obtain ⟨h1, h2, h3, h4, h5, h6, h7⟩ := hp
  simp [scanner.neutral, hc, hs, index, scanner.error, h1, h2, h3, h4, h5, h6, h7]

/-- A turn of the loop made by the default handler. -/
theorem step_neutral (o : MapOrder) (s : scanner) (stk : List state)
    (htop : s.state = .neutral :: stk) : s.step o = s.line.2.neutral o s.line.1 := by
  rw [scanner.step, dispatch_neutral o s.line.2 stk _ htop]

/-- An error raised in the turn that follows `n` turns of the run is what `Process` returns. -/
theorem Process_error_of_turns (o : MapOrder) (input : Bytes) (flags : List Bytes) (pfx : Bytes)
    (n : Nat) (s : scanner) (done : List Bytes) (e : Err)
    (hrun : scanner.turns o n ((newScanner input flags pfx).pushState .neutral) []
      = some (s, done))
    (hne : s.eof = false) (hstep : s.step o = .error e) (k : Nat) :
    Process o (n + (k + 1)) input flags pfx = some (.error e) := by
  apply Process_error_of_loop
  rw [turns_loop o n _ s [] done hrun (k + 1)]
  exact loop_succ_error o k s e hne hstep

theorem turns_newScanner_lineNumber (o : MapOrder) (input : Bytes) (flags : List Bytes)
    (pfx : Bytes) (n : Nat) (s : scanner) (done : List Bytes)
    (hrun : scanner.turns o n ((newScanner input flags pfx).pushState .neutral) []
      = some (s, done)) : s.lineNumber = n := by
  have := turns_lineNumber o n _ s [] done hrun
  simpa [newScanner, scanner.pushState] using this

/-- C12: when the default handler is on top of the stack and the line read has a first token
after the prefix that is none of `end`, `def`, `if`, `omit`, `include`, `template`, `replace`
(`enddef` is such a token), the handler raises the unknown-directive error for that token with
the number of the line, `Process` returns that error and no output, and the message is the
line number, a colon, and "unknown directive" followed by the quoted token. -/
theorem unknown_directive (o : MapOrder) (input : Bytes) (flags : List Bytes) (pfx : Bytes)
    (n : Nat) (s : scanner) (done : List Bytes) (stk : List state) (before p0 : Bytes)
    (more : List Bytes) (quote : Bytes → String)
    (hrun : scanner.turns o n ((newScanner input flags pfx).pushState .neutral) []
      = some (s, done))
    (hne : s.eof = false) (htop : s.state = .neutral :: stk)
    (d : directive s.pfx s.line.1 = some (before, p0 :: more))
    (hp : p0 ≠ kwEnd ∧ p0 ≠ kwDef ∧ p0 ≠ kwIf ∧ p0 ≠ kwOmit ∧ p0 ≠ kwInclude ∧
      p0 ≠ kwTemplate ∧ p0 ≠ kwReplace) :
    s.step o = .error (.scan (n + 1) (.unknownDirective p0)) ∧
    (∀ k, Process o (n + (k + 1)) input flags pfx
      = some (.error (.scan (n + 1) (.unknownDirective p0)))) ∧
    (Err.scan (n + 1) (.unknownDirective p0)).Error quote
      = toString (n + 1) ++ ": " ++ ("unknown directive " ++ quote p0) ∧
    kwEnddef ≠ kwEnd ∧ kwEnddef ≠ kwDef ∧ kwEnddef ≠ kwIf ∧ kwEnddef ≠ kwOmit ∧
      kwEnddef ≠ kwInclude ∧ kwEnddef ≠ kwTemplate ∧ kwEnddef ≠ kwReplace := by
  have hln := turns_newScanner_lineNumber o input flags pfx n s done hrun
  have hstep : s.step o = .error (.scan (n + 1) (.unknownDirective p0)) := by
    rw [step_neutral o s stk htop, neutral_unknown o s.line.2 s.line.1 before p0 more d hp]
    simp [scanner.line, hln]
  refine ⟨hstep, fun k => Process_error_of_turns o input flags pfx n s done _ hrun hne hstep k,
    rfl, by decide, by decide, by decide, by decide, by decide, by decide, by decide⟩

theorem unknown_directive_witness :
    Process MapOrder.stored (1 + (0 + 1)) (bytesOf "a\nb // enddef\nc\n") [] (bytesOf "//")
      = some (.error (.scan 2 (.unknownDirective kwEnddef))) :=
  (unknown_directive MapOrder.stored (bytesOf "a\nb // enddef\nc\n") [] (bytesOf "//") 1
    ⟨[], [], [kwTrue], bytesOf "//", [.neutral], bytesOf "a\n", 1, bytesOf "b // enddef\nc\n",
      false⟩ [] [] (bytesOf "b ") kwEnddef [] (fun _ => "") (by decide) rfl rfl (by decide)
    (by decide)).2.1 0

/-- The default handler on a `def` line pushes a capture handler with an empty buffer. -/
theorem neutral_def (o : MapOrder) (s : scanner) (line before name : Bytes) (more : List Bytes)
    (h : directive s.pfx line = some (before, kwDef :: name :: more)) :
    s.neutral o line = .ok (s.pushState (.defn name [])) := by
  obtain ⟨hc, hs⟩ := splitPrefix_of_directive s line before _ h
  simp +decide [scanner.neutral, hc, hs, index]

/-- The capture handler appends a line without the prefix to its buffer. -/
theorem defn_plain (s : scanner) (name content line : Bytes)
    (hc : Contains line s.pfx = false) :
    s.defn name content line = .ok (s.capture name content line) := by
  simp [scanner.defn, hc]

/-- The capture handler appends a line whose first token is not `enddef` to its buffer. -/
theorem defn_other (s : scanner) (name content line before p0 : Bytes) (more : List Bytes)
    (h : directive s.pfx line = some (before, p0 :: more)) (hp : p0 ≠ kwEnddef) :
    s.defn name content line = .ok (s.capture name content line) := by
  obtain ⟨hc, hs⟩ := splitPrefix_of_directive s line before _ h
  simp [scanner.defn, hc, hs, index, hp]

/-- The capture handler on an `enddef` line stores its buffer and pops the stack. -/
theorem defn_enddef (s : scanner) (name content line before : Bytes) (more : List Bytes)
    (h : directive s.pfx line = some (before, kwEnddef :: more)) :
    s.defn name content line
      = ({ s with templates := s.templates.set name content } : scanner).popState := by
  obtain ⟨hc, hs⟩ := splitPrefix_of_directive s line before _ h
  simp [scanner.defn, hc, hs, index]

theorem get_set_self (m : Table) (k v : Bytes) : (m.set k v).get k = some v := by
  simp only [Table.set, Table.get]
  induction m with
  | nil => simp [List.lookup]
  | cons e m ih =>
    obtain ⟨a, b⟩ := e
    by_cases h1 : a = k
    · subst h1
      simpa using ih
    · have hne : (a != k) = true := by simpa using h1
      have hb : (k == a) = false := by simpa using (fun h : k = a => h1 h.symm)
      simp only [List.filter_cons, hne, if_true, List.cons_append, List.lookup_cons, hb]
      exact ih

/-- The run on a `def X` line, an `end` line, an `enddef` line and a `template X` line: the
`end` line is stored, replayed, and raises its error as the fifth line read. -/
theorem loop_replayed_end (o : MapOrder) (fl : List Bytes)
    (P X b1 b2 b3 b4 defBody endBody enddefBody tplBody : Bytes)
    (h1 : 10 ∉ defBody) (d1 : directive P (defBody ++ [10]) = some (b1, [kwDef, X]))
    (h2 : 10 ∉ endBody) (d2 : directive P (endBody ++ [10]) = some (b2, [kwEnd]))
    (h3 : 10 ∉ enddefBody) (d3 : directive P (enddefBody ++ [10]) = some (b3, [kwEnddef]))
    (h4 : 10 ∉ tplBody) (d4 : directive P (tplBody ++ [10]) = some (b4, [kwTemplate, X]))
    (k : Nat) :
    scanner.loop o (5 + k)
        ⟨[], [], fl, P, [.neutral], [], 0,
          defBody ++ [10] ++ (endBody ++ [10]) ++ (enddefBody ++ [10]) ++ (tplBody ++ [10]),
          false⟩
      = some (.error (.scan 5 .unexpectedEnd)) := by
  have s1 := step_line o
    ⟨[], [], fl, P, [.neutral], [], 0,
      defBody ++ [10] ++ (endBody ++ [10]) ++ (enddefBody ++ [10]) ++ (tplBody ++ [10]), false⟩
    defBody ((endBody ++ [10]) ++ (enddefBody ++ [10]) ++ (tplBody ++ [10])) h1 (by simp)
  rw [dispatch_neutral o ⟨[], [], fl, P, [.neutral], [], 0 + 1, _, false⟩ [] _ rfl,
    neutral_def o ⟨[], [], fl, P, [.neutral], [], 0 + 1, _, false⟩ _ b1 X [] d1] at s1
  have s2 := step_line o
    ⟨[], [], fl, P, [.defn X [], .neutral], [], 1,
      (endBody ++ [10]) ++ (enddefBody ++ [10]) ++ (tplBody ++ [10]), false⟩
    endBody ((enddefBody ++ [10]) ++ (tplBody ++ [10])) h2 (by simp)
  rw [dispatch_defn o ⟨[], [], fl, P, [.defn X [], .neutral], [], 1 + 1, _, false⟩
      [.neutral] X [] _ rfl,
    defn_other ⟨[], [], fl, P, [.defn X [], .neutral], [], 1 + 1, _, false⟩ X [] _ b2 kwEnd []
      d2 (by decide)] at s2
  have s3 := step_line o
    ⟨[], [], fl, P, [.defn X ([] ++ (endBody ++ [10])), .neutral], [], 2,
      (enddefBody ++ [10]) ++ (tplBody ++ [10]), false⟩
    enddefBody (tplBody ++ [10]) h3 (by simp)
  rw [dispatch_defn o
      ⟨[], [], fl, P, [.defn X ([] ++ (endBody ++ [10])), .neutral], [], 2 + 1, _, false⟩
      [.neutral] X ([] ++ (endBody ++ [10])) _ rfl,
    defn_enddef
      ⟨[], [], fl, P, [.defn X ([] ++ (endBody ++ [10])), .neutral], [], 2 + 1, _, false⟩
      X ([] ++ (endBody ++ [10])) _ b3 [] d3,
    popState_two _ (.defn X ([] ++ (endBody ++ [10]))) .neutral [] rfl] at s3
  have s4 := step_line o
    ⟨Table.set [] X ([] ++ (endBody ++ [10])), [], fl, P, [.neutral], [], 3,
      tplBody ++ [10], false⟩ tplBody [] h4 rfl
  rw [dispatch_neutral o
      ⟨Table.set [] X ([] ++ (endBody ++ [10])), [], fl, P, [.neutral], [], 3 + 1, [], false⟩
      [] _ rfl,
    neutral_template o
      ⟨Table.set [] X ([] ++ (endBody ++ [10])), [], fl, P, [.neutral], [], 3 + 1, [], false⟩
      _ b4 X [] d4] at s4
  simp only [get_set_self] at s4
  have s5 := step_line o
    ⟨Table.set [] X ([] ++ (endBody ++ [10])), [], fl, P, [.neutral], [], 4,
      [] ++ (endBody ++ [10]) ++ [], false⟩ endBody [] h2 (by simp)
  rw [dispatch_neutral o
      ⟨Table.set [] X ([] ++ (endBody ++ [10])), [], fl, P, [.neutral], [], 4 + 1, [], false⟩
      [] _ rfl,
    neutral_end o
      ⟨Table.set [] X ([] ++ (endBody ++ [10])), [], fl, P, [.neutral], [], 4 + 1, [], false⟩
      _ b2 [] d2,
    popState_one _ .neutral rfl] at s5
  rw [show 5 + k = (((k + 1) + 1 + 1) + 1) + 1 by omega, loop_succ_ok o _ _ _ rfl s1]
  simp only [scanner.pushState, scanner.capture] at s2 ⊢
  rw [loop_succ_ok o _ _ _ rfl s2]
  simp only [List.tail_cons]
  rw [loop_succ_ok o _ _ _ rfl s3, loop_succ_ok o _ _ _ rfl s4, loop_succ_error o _ _ _ rfl s5]

/-- C13: the line cursor starts at 0; after `n` turns of the loop (each reads one line, be it
a line of the input or a line put back by a template replay) it is `n`; an error made by
`scanner.error` in the next turn carries `n + 1`, the number of lines read so far, and is
what `Process` returns. On the input made of a `def X` line, an `end` line, an `enddef` line
and a `template X` line, `Process` fails with line number 5: the error is raised by the
replayed `end` line, the fifth line read. -/
theorem error_line_number (o : MapOrder) (input : Bytes) (flags : List Bytes) (pfx : Bytes)
    (n : Nat) (s : scanner) (done : List Bytes)
    (X b1 b2 b3 b4 defBody endBody enddefBody tplBody : Bytes)
    (hrun : scanner.turns o n ((newScanner input flags pfx).pushState .neutral) []
      = some (s, done))
    (h1 : 10 ∉ defBody) (d1 : directive pfx (defBody ++ [10]) = some (b1, [kwDef, X]))
    (h2 : 10 ∉ endBody) (d2 : directive pfx (endBody ++ [10]) = some (b2, [kwEnd]))
    (h3 : 10 ∉ enddefBody) (d3 : directive pfx (enddefBody ++ [10]) = some (b3, [kwEnddef]))
    (h4 : 10 ∉ tplBody) (d4 : directive pfx (tplBody ++ [10]) = some (b4, [kwTemplate, X])) :
    ((newScanner input flags pfx).pushState .neutral).lineNumber = 0 ∧
    s.lineNumber = n ∧
    (∀ s1, s.step o = .ok s1 → s1.lineNumber = n + 1) ∧
    (∀ k m, s.eof = false → s.step o = .error (.scan k m) →
      k = n + 1 ∧ ∀ j, Process o (n + (j + 1)) input flags pfx
        = some (.error (.scan (n + 1) m))) ∧
    (∀ j, Process o (5 + j)
        (defBody ++ [10] ++ (endBody ++ [10]) ++ (enddefBody ++ [10]) ++ (tplBody ++ [10]))
        flags pfx = some (.error (.scan 5 .unexpectedEnd))) := by
  have hln := turns_newScanner_lineNumber o input flags pfx n s done hrun
  refine ⟨rfl, hln, ?_, ?_, ?_⟩
  · intro s1 hs
    rw [step_lineNumber o s s1 hs, hln]
  · intro k m hne hs
    have hk : k = n + 1 := by rw [step_error_line o s k m hs, hln]
    subst hk
    exact ⟨rfl, fun j => Process_error_of_turns o input flags pfx n s done _ hrun hne hs j⟩
  · intro j
    apply Process_error_of_loop
    exact loop_replayed_end o (flags ++ [kwTrue]) pfx X b1 b2 b3 b4 defBody endBody enddefBody
      tplBody h1 d1 h2 d2 h3 d3 h4 d4 j

theorem error_line_number_witness :
    Process MapOrder.stored (5 + 0)
        (bytesOf "// def X" ++ [10] ++ (bytesOf "// end" ++ [10])
          ++ (bytesOf "// enddef" ++ [10]) ++ (bytesOf "// template X" ++ [10]))
        [] (bytesOf "//") = some (.error (.scan 5 .unexpectedEnd)) ∧
    Process MapOrder.stored (2 + (0 + 1)) (bytesOf "a\nb\n// template X\n") [] (bytesOf "//")
      = some (.error (.scan (2 + 1) .unknownTemplate)) :=
  ⟨(error_line_number MapOrder.stored (bytesOf "a\nb\n// template X\n") [] (bytesOf "//") 2
      ⟨[], [], [kwTrue], bytesOf "//", [.neutral], bytesOf "a\nb\n", 2,
        bytesOf "// template X\n", false⟩ [] (bytesOf "X") [] [] [] []
      (bytesOf "// def X") (bytesOf "// end") (bytesOf "// enddef") (bytesOf "// template X")
      (by decide) (by decide) (by decide) (by decide) (by decide) (by decide) (by decide)
      (by decide) (by decide)).2.2.2.2 0,
   ((error_line_number MapOrder.stored (bytesOf "a\nb\n// template X\n") [] (bytesOf "//") 2
      ⟨[], [], [kwTrue], bytesOf "//", [.neutral], bytesOf "a\nb\n", 2,
        bytesOf "// template X\n", false⟩ [] (bytesOf "X") [] [] [] []
      (bytesOf "// def X") (bytesOf "// end") (bytesOf "// enddef") (bytesOf "// template X")
      (by decide) (by decide) (by decide) (by decide) (by decide) (by decide) (by decide)
      (by decide) (by decide)).2.2.2.1 3 .unknownTemplate rfl (by decide)).2 0⟩

theorem turns_succ (o : MapOrder) (n : Nat) (s s1 : scanner) (d : List Bytes)
    (hne : s.eof = false) (hs : s.step o = .ok s1) :
    scanner.turns o (n + 1) s d = scanner.turns o n s1 (d ++ s.completed.toList) := by
  simp [scanner.turns, hne, hs]

theorem line_terminated (s : scanner) (body rest : Bytes) (hb : 10 ∉ body)
    (hr : s.r = body ++ 10 :: rest) : s.line.1 = body ++ [10] := by
  simp [scanner.line, hr, ReadBytes_line body rest hb]

theorem completed_capture (s : scanner) (name content : Bytes) (stk : List state)
    (hst : s.state = .defn name content :: stk)
    (hl : Contains s.line.1 s.pfx = false ∨
      ∃ b p0 r, directive s.pfx s.line.1 = some (b, p0 :: r) ∧ p0 ≠ kwEnddef) :
    s.completed = none := by
  unfold scanner.completed
  rw [hst]
  rcases hl with hc | ⟨b, p0, r, hd, hp⟩
  · simp [directive, hc]
  · simp [hd, hp]

theorem completed_enddef (s : scanner) (name content before : Bytes) (more : List Bytes)
    (stack : List state) (hst : s.state = .defn name content :: stack)
    (hd : directive s.pfx s.line.1 = some (before, kwEnddef :: more)) :
    s.completed = some name := by
  unfold scanner.completed
  rw [hst]
  simp [hd]

/-- A block of lines, none of them an `enddef` line and each without the prefix or with a
first token after it, read while a capture handler is on top: the lines are appended to the
buffer of the handler and nothing else changes. -/
theorem turns_block_capture (o : MapOrder) (name : Bytes) (ls : List Bytes) :
    ∀ (s : scanner) (content : Bytes) (stk : List state) (rest : Bytes) (d : List Bytes),
      s.eof = false → s.state = .defn name content :: stk → s.r = block ls ++ rest →
      (∀ l ∈ ls, 10 ∉ l ∧ (Contains (l ++ [10]) s.pfx = false ∨
        ∃ b p0 r, directive s.pfx (l ++ [10]) = some (b, p0 :: r) ∧ p0 ≠ kwEnddef)) →
      scanner.turns o ls.length s d = some ({ s with
        state := .defn name (content ++ block ls) :: stk, r := rest
        lineNumber := s.lineNumber + ls.length }, d) := by
  induction ls with
  | nil =>
    intro s content stk rest d _ hst hr _
    simp [block] at hr
    simp [scanner.turns, block, ← hr, ← hst]
  | cons l ls ih =>
    intro s content stk rest d hne hst hr hl
    have hl1 := hl l (List.mem_cons_self _ _)
    rw [block_cons, List.append_assoc, List.cons_append] at hr
    have hline := line_terminated s l (block ls ++ rest) hl1.1 hr
    have hstep := step_line o s l (block ls ++ rest) hl1.1 hr
    have hcap : ({ s with r := block ls ++ rest, lineNumber := s.lineNumber + 1 } : scanner).defn
        name content (l ++ [10])
        = .ok (({ s with r := block ls ++ rest, lineNumber := s.lineNumber + 1 } : scanner).capture
          name content (l ++ [10])) := by
      rcases hl1.2 with hc | ⟨b, p0, r, hd, hp⟩
      · exact defn_plain _ name content _ hc
      · exact defn_other _ name content _ b p0 r hd hp
    rw [dispatch_defn o
        ({ s with r := block ls ++ rest, lineNumber := s.lineNumber + 1 } : scanner) stk name
        content _ hst, hcap] at hstep
    have hcomp : s.completed = none :=
      completed_capture s name content stk hst (by rw [hline]; exact hl1.2)
    rw [List.length_cons, turns_succ o _ s _ d hne hstep, hcomp]
    simp only [Option.toList_none, List.append_nil, scanner.capture, hst, List.tail_cons]
    rw [ih ({ s with
        state := .defn name (content ++ (l ++ [10])) :: stk, r := block ls ++ rest
        lineNumber := s.lineNumber + 1 } : scanner) (content ++ (l ++ [10])) stk rest d hne
      (by simp [hst]) rfl (fun x hx => hl x (List.mem_cons_of_mem _ hx))]
    simp [block_cons, hst, Nat.add_assoc, Nat.add_comm 1]

theorem turns_add (o : MapOrder) (m : Nat) :
    ∀ (n : Nat) (s s1 : scanner) (d d1 : List Bytes),
      scanner.turns o n s d = some (s1, d1) →
      scanner.turns o (n + m) s d = scanner.turns o m s1 d1 := by
  intro n
  induction n with
  | zero =>
    intro s s1 d d1 h
    simp only [scanner.turns, Option.some.injEq, Prod.mk.injEq] at h
    rw [Nat.zero_add, h.1, h.2]
  | succ n ih =>
    intro s s1 d d1 h
    simp only [scanner.turns] at h
    split at h
    · cases h
    · rename_i hne
      split at h
      · rename_i s2 hstep
        rw [show n + 1 + m = (n + m) + 1 by omega,
          turns_succ o _ s s2 d (by simpa using hne) hstep]
        exact ih s2 s1 _ d1 h
      · cases h

theorem firstToken_eq (pfx line before p0 : Bytes) (more : List Bytes)
    (h : directive pfx line = some (before, p0 :: more)) : firstToken pfx line = some p0 := by
  simp [firstToken, h]

theorem appended_iff (pfx line : Bytes) :
    appended pfx line = true ↔ (Contains line pfx = false ∨
      ∃ b p0 r, directive pfx line = some (b, p0 :: r) ∧ p0 ≠ kwEnddef) := by
  unfold appended firstToken
  constructor
  · intro h
    by_cases hc : Contains line pfx = true
    · right
      simp only [hc, Bool.not_true, Bool.false_or] at h
      split at h
      · rename_i p0 hm
        split at hm
        · rename_i b q r hd
          cases hm
          exact ⟨b, _, r, hd, by simpa using h⟩
        · cases hm
      · cases h
    · left; simpa using hc
  · rintro (hc | ⟨b, p0, r, hd, hp⟩)
    · simp [hc]
    · simp [hd, hp]

/-- C14 (amended): while a capture handler for the name `X` is on top of the stack, every
line that does not contain the prefix, or that has a first token after the prefix other than
`enddef` (so also `def`, `end`, `replace` lines), is appended as it is to the buffer of the
handler; the output, the replacement table and the template store stay as they are. On the
`enddef` line the template store maps `X` to the buffer, that is to what it held before
followed by these lines in order, whatever `X` was mapped to before, and the handler is
popped. -/
theorem capture_block (o : MapOrder) (s : scanner) (X content : Bytes) (below : state)
    (stk : List state) (ls : List Bytes) (endBody before rest : Bytes) (more : List Bytes)
    (hne : s.eof = false) (htop : s.state = .defn X content :: below :: stk)
    (hr : s.r = block ls ++ (endBody ++ 10 :: rest))
    (hC : ∀ l ∈ ls, 10 ∉ l ∧ appended s.pfx (l ++ [10]) = true)
    (he : 10 ∉ endBody)
    (de : directive s.pfx (endBody ++ [10]) = some (before, kwEnddef :: more)) :
    (∀ l ∈ ls, ∀ (s2 : scanner) (c : Bytes), s2.pfx = s.pfx →
      s2.defn X c (l ++ [10]) = .ok { s2 with state := .defn X (c ++ (l ++ [10])) :: s2.state.tail }) ∧
    scanner.turns o ls.length s [] = some ({ s with
      state := .defn X (content ++ block ls) :: below :: stk, r := endBody ++ 10 :: rest
      lineNumber := s.lineNumber + ls.length }, []) ∧
    scanner.turns o (ls.length + 1) s [] = some ({ s with
      templates := s.templates.set X (content ++ block ls), state := below :: stk, r := rest
      lineNumber := s.lineNumber + ls.length + 1 }, [X]) ∧
    (s.templates.set X (content ++ block ls)).get X = some (content ++ block ls) := by
  have hC2 : ∀ l ∈ ls, 10 ∉ l ∧ (Contains (l ++ [10]) s.pfx = false ∨
      ∃ b p0 r, directive s.pfx (l ++ [10]) = some (b, p0 :: r) ∧ p0 ≠ kwEnddef) :=
    fun l hl => ⟨(hC l hl).1, (appended_iff _ _).1 (hC l hl).2⟩
  have hblock := turns_block_capture o X ls s content (below :: stk) (endBody ++ 10 :: rest) []
    hne htop hr hC2
  refine ⟨?_, hblock, ?_, get_set_self _ _ _⟩
  · intro l hl s2 c hp
    rcases (hC2 l hl).2 with hc | ⟨b, p0, r, hd, hp0⟩
    · exact defn_plain s2 X c _ (by rw [hp]; exact hc)
    · exact defn_other s2 X c _ b p0 r (by rw [hp]; exact hd) hp0
  · rw [turns_add o 1 ls.length s _ [] [] hblock]
    have hstep := step_line o ({ s with
      state := .defn X (content ++ block ls) :: below :: stk, r := endBody ++ 10 :: rest
      lineNumber := s.lineNumber + ls.length } : scanner) endBody rest he rfl
    rw [dispatch_defn o ({ s with
        state := .defn X (content ++ block ls) :: below :: stk, r := rest
        lineNumber := s.lineNumber + ls.length + 1 } : scanner) (below :: stk) X
        (content ++ block ls) _ rfl,
      defn_enddef ({ s with
        state := .defn X (content ++ block ls) :: below :: stk, r := rest
        lineNumber := s.lineNumber + ls.length + 1 } : scanner) X (content ++ block ls) _ before
        more de,
      popState_two _ (.defn X (content ++ block ls)) below stk rfl] at hstep
    have hcomp : ({ s with
        state := .defn X (content ++ block ls) :: below :: stk, r := endBody ++ 10 :: rest
        lineNumber := s.lineNumber + ls.length } : scanner).completed = some X := by
      refine completed_enddef _ X (content ++ block ls) before more (below :: stk) rfl ?_
      rw [line_terminated _ endBody rest he rfl]
      exact de
    rw [turns_succ o 0 ({ s with
        state := .defn X (content ++ block ls) :: below :: stk, r := endBody ++ 10 :: rest
        lineNumber := s.lineNumber + ls.length } : scanner) _ [] hne hstep, hcomp]
    simp [scanner.turns]

theorem capture_block_witness :
    scanner.turns MapOrder.stored (3 + 1)
        ⟨[(bytesOf "X", bytesOf "old\n")], [(bytesOf "a", bytesOf "b")], [kwTrue], bytesOf "//",
          [.defn (bytesOf "X") [], .neutral], bytesOf "out\n", 1,
          block [bytesOf "a", bytesOf "// end", bytesOf "z // def Y"]
            ++ (bytesOf "// enddef" ++ 10 :: bytesOf "rest\n"), false⟩ []
      = some (⟨Table.set [(bytesOf "X", bytesOf "old\n")] (bytesOf "X")
            ([] ++ block [bytesOf "a", bytesOf "// end", bytesOf "z // def Y"]),
          [(bytesOf "a", bytesOf "b")], [kwTrue], bytesOf "//", [.neutral], bytesOf "out\n",
          1 + 3 + 1, bytesOf "rest\n", false⟩, [bytesOf "X"]) :=
  (capture_block MapOrder.stored
    ⟨[(bytesOf "X", bytesOf "old\n")], [(bytesOf "a", bytesOf "b")], [kwTrue], bytesOf "//",
      [.defn (bytesOf "X") [], .neutral], bytesOf "out\n", 1,
      block [bytesOf "a", bytesOf "// end", bytesOf "z // def Y"]
        ++ (bytesOf "// enddef" ++ 10 :: bytesOf "rest\n"), false⟩
    (bytesOf "X") [] .neutral [] [bytesOf "a", bytesOf "// end", bytesOf "z // def Y"]
    (bytesOf "// enddef") [] (bytesOf "rest\n") [] rfl rfl rfl (by decide) (by decide)
    (by decide)).2.2.1

/-- C14 as stated fails for a line that contains the prefix with no token after it: such a
line is not an `enddef` line, yet the capture handler does not append it; the lookup of the
first token fails and the run ends with a runtime error. -/
theorem capture_prefix_without_token :
    Contains (bytesOf "//\n") (bytesOf "//") = true ∧
    firstToken (bytesOf "//") (bytesOf "//\n") = none ∧
    Process MapOrder.stored 3 (bytesOf "// def X\n//\n// enddef\n") [] (bytesOf "//")
      = some (.error (.indexOutOfRange 0 0)) := by
  refine ⟨by decide, by decide, by decide⟩

/-- The skip handler leaves the scanner as it is on a line whose first token is not `end`. -/
theorem consumeUntilEnd_other (s : scanner) (line before p0 : Bytes) (more : List Bytes)
    (h : directive s.pfx line = some (before, p0 :: more)) (hp : p0 ≠ kwEnd) :
    s.consumeUntilEnd line = .ok s := by
  obtain ⟨hc, hs⟩ := splitPrefix_of_directive s line before _ h
  simp [scanner.consumeUntilEnd, hc, hs, index, hp]

theorem firstToken_some (pfx line p0 : Bytes) (h : firstToken pfx line = some p0) :
    ∃ b r, directive pfx line = some (b, p0 :: r) := by
  unfold firstToken at h
  split at h
  · rename_i b q r hd
    cases h
    exact ⟨b, r, hd⟩
  · cases h

theorem firstToken_none_of_plain (pfx line : Bytes) (h : Contains line pfx = false) :
    firstToken pfx line = none := by
  simp [firstToken, directive, h]

theorem turns_newScanner_stack (o : MapOrder) (input : Bytes) (flags : List Bytes)
    (pfx : Bytes) (n : Nat) (s : scanner) (done : List Bytes)
    (hrun : scanner.turns o n ((newScanner input flags pfx).pushState .neutral) []
      = some (s, done)) : ∃ stk, s.state = stk ++ [.neutral] :=
  turns_stack o n _ s [] done hrun ⟨[], rfl⟩

/-- C15 (amended): in a state reached by `Process` with the skip handler on top of the stack,
the turn on a line that does not contain the prefix, or that has a first token after the
prefix, raises no error and leaves the output, the template store and the replacement table
as they are (so `replace`, `def`, `template` and unknown directives have no effect there);
the stack is unchanged unless the first token is `end`, in which case the skip handler is
popped, and it is never the only entry. -/
theorem skip_discards (o : MapOrder) (input : Bytes) (flags : List Bytes) (pfx : Bytes)
    (n : Nat) (s : scanner) (done : List Bytes) (stk : List state)
    (hrun : scanner.turns o n ((newScanner input flags pfx).pushState .neutral) []
      = some (s, done))
    (htop : s.state = .consumeUntilEnd :: stk)
    (hl : Contains s.line.1 s.pfx = false ∨ (firstToken s.pfx s.line.1).isSome = true) :
    stk ≠ [] ∧
    s.step o = .ok { s.line.2 with
      state := if firstToken s.pfx s.line.1 = some kwEnd then stk else s.state } ∧
    s.line.2.w = s.w ∧ s.line.2.templates = s.templates ∧
    s.line.2.replacements = s.replacements := by
  have hstk : stk ≠ [] := by
    obtain ⟨st, hst⟩ := turns_newScanner_stack o input flags pfx n s done hrun
    rw [htop] at hst
    intro h0
    subst h0
    cases st with
    | nil => simp at hst
    | cons a t =>
      simp only [List.cons_append, List.cons.injEq] at hst
      have := congrArg List.length hst.2
      simp at this
  refine ⟨hstk, ?_, rfl, rfl, rfl⟩
  have htop2 : s.line.2.state = .consumeUntilEnd :: stk := htop
  rw [scanner.step, dispatch_consumeUntilEnd o s.line.2 stk _ htop2]
  rcases hl with hc | ht
  · rw [consumeUntilEnd_plain s.line.2 _ hc, firstToken_none_of_plain _ _ hc]
    simp
    rfl
  · cases hf : firstToken s.pfx s.line.1 with
    | none => rw [hf] at ht; cases ht
    | some p0 =>
      obtain ⟨b, r, hd⟩ := firstToken_some _ _ _ hf
      by_cases hp : p0 = kwEnd
      · subst hp
        rw [consumeUntilEnd_end s.line.2 _ b r hd]
        cases stk with
        | nil => exact absurd rfl hstk
        | cons a t =>
          rw [popState_two s.line.2 .consumeUntilEnd a t htop2]
          simp
      · rw [consumeUntilEnd_other s.line.2 _ b p0 r hd hp]
        have : ¬ (some p0 = some kwEnd) := fun h => hp (Option.some.inj h)
        simp only [this, if_false]
        rfl

theorem skip_discards_witness :
    scanner.step MapOrder.stored
        ⟨[], [], [kwTrue], bytesOf "//", [.consumeUntilEnd, .neutral], [], 1,
          bytesOf "// replace A B\n// end\n", false⟩
      = .ok ⟨[], [], [kwTrue], bytesOf "//", [.consumeUntilEnd, .neutral], [], 2,
          bytesOf "// end\n", false⟩ ∧
    scanner.step MapOrder.stored
        ⟨[], [], [kwTrue], bytesOf "//", [.consumeUntilEnd, .neutral], [], 2,
          bytesOf "// end\n", false⟩
      = .ok ⟨[], [], [kwTrue], bytesOf "//", [.neutral], [], 3, [], false⟩ :=
  ⟨(skip_discards MapOrder.stored (bytesOf "// if off\n// replace A B\n// end\n") []
      (bytesOf "//") 1
      ⟨[], [], [kwTrue], bytesOf "//", [.consumeUntilEnd, .neutral], [], 1,
        bytesOf "// replace A B\n// end\n", false⟩ [] [.neutral] (by decide) rfl
      (Or.inr (by decide))).2.1,
   (skip_discards MapOrder.stored (bytesOf "// if off\n// replace A B\n// end\n") []
      (bytesOf "//") 2
      ⟨[], [], [kwTrue], bytesOf "//", [.consumeUntilEnd, .neutral], [], 2,
        bytesOf "// end\n", false⟩ [] [.neutral] (by decide) rfl
      (Or.inr (by decide))).2.1⟩

/-- C15 as stated fails for a line that contains the prefix with no token after it: the skip
handler looks up the first token of every line that contains the prefix, the lookup fails
and the run ends with a runtime error although the line lies in a skipped region. -/
theorem skip_prefix_without_token :
    Contains (bytesOf "//\n") (bytesOf "//") = true ∧
    Process MapOrder.stored 3 (bytesOf "// if off\n//\n// end\n") [] (bytesOf "//")
      = some (.error (.indexOutOfRange 0 0)) := by
  refine ⟨by decide, by decide⟩

/-- The default handler writes a line without the prefix through the replacement table. -/
theorem neutral_plain_any (o : MapOrder) (s : scanner) (line : Bytes)
    (hc : Contains line s.pfx = false) :
    s.neutral o line = .ok { s with w := s.w ++ s.applyReplacements o line } := by
  simp [scanner.neutral, hc]

theorem completed_neutral (s : scanner) (stk : List state) (h : s.state = .neutral :: stk) :
    s.completed = none := by
  simp [scanner.completed, h]

theorem completed_consumeUntilEnd (s : scanner) (stk : List state)
    (h : s.state = .consumeUntilEnd :: stk) : s.completed = none := by
  simp [scanner.completed, h]

/-- The turns on a false `if` line, a nested `if` line, a line `A`, an `end` line and a line
`B`, started with the default handler on top: the first `end` pops the skip handler, `A` is
discarded and `B` is written by the handler that was on top at the start. -/
theorem turns_nested_if (o : MapOrder) (t rp : Table) (fl : List Bytes) (P w : Bytes) (n : Nat)
    (stk : List state) (fOff fOn b1 b2 b3 ifOff ifOn A end1 B rest : Bytes)
    (h1 : 10 ∉ ifOff) (d1 : directive P (ifOff ++ [10]) = some (b1, [kwIf, fOff]))
    (hoff : scanner.flagTest ⟨t, rp, fl, P, .neutral :: stk, w, n, [], false⟩ fOff = false)
    (h2 : 10 ∉ ifOn) (d2 : directive P (ifOn ++ [10]) = some (b2, [kwIf, fOn]))
    (h3 : 10 ∉ A) (d3 : Contains (A ++ [10]) P = false)
    (h4 : 10 ∉ end1) (d4 : directive P (end1 ++ [10]) = some (b3, [kwEnd]))
    (h5 : 10 ∉ B) (d5 : Contains (B ++ [10]) P = false) :
    scanner.turns o 4 ⟨t, rp, fl, P, .neutral :: stk, w, n,
        ifOff ++ [10] ++ (ifOn ++ [10]) ++ (A ++ [10]) ++ (end1 ++ [10]) ++ (B ++ [10]) ++ rest,
        false⟩ []
      = some (⟨t, rp, fl, P, .neutral :: stk, w, n + 4, B ++ [10] ++ rest, false⟩, []) ∧
    scanner.turns o 5 ⟨t, rp, fl, P, .neutral :: stk, w, n,
        ifOff ++ [10] ++ (ifOn ++ [10]) ++ (A ++ [10]) ++ (end1 ++ [10]) ++ (B ++ [10]) ++ rest,
        false⟩ []
      = some (⟨t, rp, fl, P, .neutral :: stk,
          w ++ scanner.applyReplacements o ⟨t, rp, fl, P, .neutral :: stk, w, n + 5, rest, false⟩
            (B ++ [10]),
          n + 5, rest, false⟩, []) := by
  have s1 := step_line o ⟨t, rp, fl, P, .neutral :: stk, w, n,
      ifOff ++ [10] ++ (ifOn ++ [10]) ++ (A ++ [10]) ++ (end1 ++ [10]) ++ (B ++ [10]) ++ rest,
      false⟩ ifOff ((ifOn ++ [10]) ++ (A ++ [10]) ++ (end1 ++ [10]) ++ (B ++ [10]) ++ rest) h1
    (by simp)
  rw [dispatch_neutral o ⟨t, rp, fl, P, .neutral :: stk, w, n + 1, _, false⟩ stk _ rfl,
    neutral_if o ⟨t, rp, fl, P, .neutral :: stk, w, n + 1, _, false⟩ _ b1 fOff [] d1] at s1
  have hoff2 : scanner.flagTest ⟨t, rp, fl, P, .neutral :: stk, w, n + 1,
      (ifOn ++ [10]) ++ (A ++ [10]) ++ (end1 ++ [10]) ++ (B ++ [10]) ++ rest, false⟩ fOff
      = false := hoff
  rw [hoff2] at s1
  simp only [Bool.false_eq_true, if_false, scanner.pushState] at s1
  have s2 := step_line o ⟨t, rp, fl, P, .consumeUntilEnd :: .neutral :: stk, w, n + 1,
      (ifOn ++ [10]) ++ (A ++ [10]) ++ (end1 ++ [10]) ++ (B ++ [10]) ++ rest, false⟩
    ifOn ((A ++ [10]) ++ (end1 ++ [10]) ++ (B ++ [10]) ++ rest) h2 (by simp)
  rw [dispatch_consumeUntilEnd o
      ⟨t, rp, fl, P, .consumeUntilEnd :: .neutral :: stk, w, n + 1 + 1, _, false⟩
      (.neutral :: stk) _ rfl,
    consumeUntilEnd_other
      ⟨t, rp, fl, P, .consumeUntilEnd :: .neutral :: stk, w, n + 1 + 1, _, false⟩
      _ b2 kwIf [fOn] d2 (by decide)] at s2
  have s3 := step_line o ⟨t, rp, fl, P, .consumeUntilEnd :: .neutral :: stk, w, n + 1 + 1,
      (A ++ [10]) ++ (end1 ++ [10]) ++ (B ++ [10]) ++ rest, false⟩
    A ((end1 ++ [10]) ++ (B ++ [10]) ++ rest) h3 (by simp)
  rw [dispatch_consumeUntilEnd o
      ⟨t, rp, fl, P, .consumeUntilEnd :: .neutral :: stk, w, n + 1 + 1 + 1, _, false⟩
      (.neutral :: stk) _ rfl,
    consumeUntilEnd_plain
      ⟨t, rp, fl, P, .consumeUntilEnd :: .neutral :: stk, w, n + 1 + 1 + 1, _, false⟩
      _ d3] at s3
  have s4 := step_line o
    ⟨t, rp, fl, P, .consumeUntilEnd :: .neutral :: stk, w, n + 1 + 1 + 1,
      (end1 ++ [10]) ++ (B ++ [10]) ++ rest, false⟩
    end1 ((B ++ [10]) ++ rest) h4 (by simp)
  rw [dispatch_consumeUntilEnd o
      ⟨t, rp, fl, P, .consumeUntilEnd :: .neutral :: stk, w, n + 1 + 1 + 1 + 1, _, false⟩
      (.neutral :: stk) _ rfl,
    consumeUntilEnd_end
      ⟨t, rp, fl, P, .consumeUntilEnd :: .neutral :: stk, w, n + 1 + 1 + 1 + 1, _, false⟩
      _ b3 [] d4,
    popState_two _ .consumeUntilEnd .neutral stk rfl] at s4
  have s5 := step_line o
    ⟨t, rp, fl, P, .neutral :: stk, w, n + 1 + 1 + 1 + 1, (B ++ [10]) ++ rest, false⟩
    B rest h5 (by simp)
  rw [dispatch_neutral o
      ⟨t, rp, fl, P, .neutral :: stk, w, n + 1 + 1 + 1 + 1 + 1, rest, false⟩ stk _ rfl,
    neutral_plain_any o
      ⟨t, rp, fl, P, .neutral :: stk, w, n + 1 + 1 + 1 + 1 + 1, rest, false⟩ _ d5] at s5
  have t4 : scanner.turns o 4 ⟨t, rp, fl, P, .neutral :: stk, w, n,
        ifOff ++ [10] ++ (ifOn ++ [10]) ++ (A ++ [10]) ++ (end1 ++ [10]) ++ (B ++ [10]) ++ rest,
        false⟩ []
      = some (⟨t, rp, fl, P, .neutral :: stk, w, n + 4, B ++ [10] ++ rest, false⟩, []) := by
    rw [turns_succ o 3 _ _ [] rfl s1, completed_neutral _ stk rfl,
      turns_succ o 2 _ _ _ rfl s2, completed_consumeUntilEnd _ (.neutral :: stk) rfl,
      turns_succ o 1 _ _ _ rfl s3, completed_consumeUntilEnd _ (.neutral :: stk) rfl,
      turns_succ o 0 _ _ _ rfl s4, completed_consumeUntilEnd _ (.neutral :: stk) rfl]
    simp [scanner.turns]
  refine ⟨t4, ?_⟩
  rw [turns_add o 1 4 _ _ [] [] t4]
  have s5b : scanner.step o ⟨t, rp, fl, P, .neutral :: stk, w, n + 4, B ++ [10] ++ rest, false⟩
      = .ok ⟨t, rp, fl, P, .neutral :: stk,
          w ++ scanner.applyReplacements o ⟨t, rp, fl, P, .neutral :: stk, w, n + 5, rest, false⟩
            (B ++ [10]),
          n + 5, rest, false⟩ := s5
  rw [turns_succ o 0 _ _ [] rfl s5b, completed_neutral _ stk rfl]
  simp [scanner.turns]

/-- Once a read has reported the end of input the loop ends and `Process` returns the
output, whatever the stack holds. -/
theorem Process_ok_of_turns (o : MapOrder) (input : Bytes) (flags : List Bytes) (pfx : Bytes)
    (n : Nat) (s : scanner) (done : List Bytes)
    (hrun : scanner.turns o n ((newScanner input flags pfx).pushState .neutral) []
      = some (s, done))
    (heof : s.eof = true) (k : Nat) :
    Process o (n + k) input flags pfx = some (.ok s.w) := by
  have hl := turns_loop o n _ s [] done hrun k
  rw [loop_eof o k s heof] at hl
  simp [Process, scanner.start, hl]

/-- C16: the skip handler does not track nesting. On a false `if` line, a nested `if` line, a
line `A`, an `end` line, a line `B` and a second `end` line (`A` and `B` without the prefix),
read with the default handler on top: after the first `end` line the skip handler is popped
and the output is as before (`A` is discarded); `B` is then written by the handler below,
with the replacement table applied: as it is when the table is empty, with every occurrence
of `X` replaced by `Y` when `X ↦ Y` is the only entry; and the second `end` line is handled
by that handler: it pops the stack when there is an entry below, and raises "unexpected end
directive" when it is the base handler, which is what `Process` returns for this input.
Without the second `end` line `Process` returns the line `B` as the whole output. -/
theorem skip_no_nesting (o : MapOrder) (t rp : Table) (fl flags : List Bytes) (P w : Bytes)
    (n : Nat) (stk : List state)
    (fOff fOn b1 b2 b3 b4 ifOff ifOn A end1 B end2 rest : Bytes)
    (h1 : 10 ∉ ifOff) (d1 : directive P (ifOff ++ [10]) = some (b1, [kwIf, fOff]))
    (hoff : scanner.flagTest ⟨t, rp, fl, P, .neutral :: stk, w, n, [], false⟩ fOff = false)
    (h2 : 10 ∉ ifOn) (d2 : directive P (ifOn ++ [10]) = some (b2, [kwIf, fOn]))
    (h3 : 10 ∉ A) (d3 : Contains (A ++ [10]) P = false)
    (h4 : 10 ∉ end1) (d4 : directive P (end1 ++ [10]) = some (b3, [kwEnd]))
    (h5 : 10 ∉ B) (d5 : Contains (B ++ [10]) P = false)
    (h6 : 10 ∉ end2) (d6 : directive P (end2 ++ [10]) = some (b4, [kwEnd])) :
    scanner.turns o 4 ⟨t, rp, fl, P, .neutral :: stk, w, n,
        ifOff ++ [10] ++ (ifOn ++ [10]) ++ (A ++ [10]) ++ (end1 ++ [10]) ++ (B ++ [10])
          ++ (end2 ++ 10 :: rest), false⟩ []
      = some (⟨t, rp, fl, P, .neutral :: stk, w, n + 4, B ++ [10] ++ (end2 ++ 10 :: rest),
          false⟩, []) ∧
    scanner.turns o 5 ⟨t, rp, fl, P, .neutral :: stk, w, n,
        ifOff ++ [10] ++ (ifOn ++ [10]) ++ (A ++ [10]) ++ (end1 ++ [10]) ++ (B ++ [10])
          ++ (end2 ++ 10 :: rest), false⟩ []
      = some (⟨t, rp, fl, P, .neutral :: stk,
          w ++ scanner.applyReplacements o
            ⟨t, rp, fl, P, .neutral :: stk, w, n + 5, end2 ++ 10 :: rest, false⟩ (B ++ [10]),
          n + 5, end2 ++ 10 :: rest, false⟩, []) ∧
    (stk = [] → ∀ w5, scanner.step o
        ⟨t, rp, fl, P, .neutral :: stk, w5, n + 5, end2 ++ 10 :: rest, false⟩
      = .error (.scan (n + 6) .unexpectedEnd)) ∧
    (∀ a u, stk = a :: u → ∀ w5, scanner.step o
        ⟨t, rp, fl, P, .neutral :: stk, w5, n + 5, end2 ++ 10 :: rest, false⟩
      = .ok ⟨t, rp, fl, P, a :: u, w5, n + 6, rest, false⟩) ∧
    (t = [] → rp = [] → fl = flags ++ [kwTrue] → w = [] → n = 0 → stk = [] →
      ∀ k, Process o (5 + (k + 1))
        (ifOff ++ [10] ++ (ifOn ++ [10]) ++ (A ++ [10]) ++ (end1 ++ [10]) ++ (B ++ [10])
          ++ (end2 ++ 10 :: rest)) flags P
        = some (.error (.scan 6 .unexpectedEnd))) ∧
    (rp = [] → scanner.applyReplacements o
        ⟨t, rp, fl, P, .neutral :: stk, w, n + 5, end2 ++ 10 :: rest, false⟩ (B ++ [10])
      = B ++ [10]) ∧
    (∀ X Y, rp = [(X, Y)] → scanner.applyReplacements o
        ⟨t, rp, fl, P, .neutral :: stk, w, n + 5, end2 ++ 10 :: rest, false⟩ (B ++ [10])
      = Replace (B ++ [10]) X Y) ∧
    (t = [] → rp = [] → fl = flags ++ [kwTrue] → w = [] → n = 0 → stk = [] →
      ∀ k, Process o (6 + k)
        (ifOff ++ [10] ++ (ifOn ++ [10]) ++ (A ++ [10]) ++ (end1 ++ [10]) ++ (B ++ [10]))
        flags P
      = some (.ok (B ++ [10]))) := by
  obtain ⟨t4, t5⟩ := turns_nested_if o t rp fl P w n stk fOff fOn b1 b2 b3 ifOff ifOn A end1 B
    (end2 ++ 10 :: rest) h1 d1 hoff h2 d2 h3 d3 h4 d4 h5 d5
  obtain ⟨_, t5e⟩ := turns_nested_if o t rp fl P w n stk fOff fOn b1 b2 b3 ifOff ifOn A end1 B
    [] h1 d1 hoff h2 d2 h3 d3 h4 d4 h5 d5
  have hend : ∀ w5, scanner.step o
      ⟨t, rp, fl, P, .neutral :: stk, w5, n + 5, end2 ++ 10 :: rest, false⟩
      = scanner.popState ⟨t, rp, fl, P, .neutral :: stk, w5, n + 5 + 1, rest, false⟩ := by
    intro w5
    have s6 := step_line o
      ⟨t, rp, fl, P, .neutral :: stk, w5, n + 5, end2 ++ 10 :: rest, false⟩ end2 rest h6 rfl
    rw [dispatch_neutral o ⟨t, rp, fl, P, .neutral :: stk, w5, n + 5 + 1, rest, false⟩ stk _ rfl,
      neutral_end o ⟨t, rp, fl, P, .neutral :: stk, w5, n + 5 + 1, rest, false⟩ _ b4 [] d6] at s6
    exact s6
  refine ⟨t4, t5, ?_, ?_, ?_, fun hrp => applyReplacements_nil o _ _ hrp,
    fun X Y hrp => applyReplacements_single o _ X Y _ hrp, ?_⟩
  · intro hs w5
    subst hs
    rw [hend w5, popState_one _ .neutral rfl]
  · intro a u hs w5
    subst hs
    rw [hend w5, popState_two _ .neutral a u rfl]
  · intro ht hrp hfl hw hn hs k
    subst ht hrp hfl hw hn hs
    refine Process_error_of_turns o _ flags P 5 _ [] _ t5 rfl ?_ k
    rw [hend, popState_one _ .neutral rfl]
  · intro ht hrp hfl hw hn hs k
    subst ht hrp hfl hw hn hs
    have hP : P ≠ [] := by
      rintro rfl
      cases A with
      | nil => simp [Contains, Index, hasPrefix] at d3
      | cons a A2 => simp [Contains, Index, hasPrefix] at d3
    rw [List.append_nil, applyReplacements_nil o _ _ rfl] at t5e
    have s6 : scanner.step o
        ⟨[], [], flags ++ [kwTrue], P, [.neutral], [] ++ (B ++ [10]), 0 + 5, [], false⟩
        = .ok ⟨[], [], flags ++ [kwTrue], P, [.neutral], [] ++ (B ++ [10]), 0 + 5 + 1, [],
            true⟩ := by
      rw [step_last o _ [] (by simp) rfl,
        dispatch_neutral o
          ⟨[], [], flags ++ [kwTrue], P, [.neutral], [] ++ (B ++ [10]), 0 + 5 + 1, [], true⟩
          [] _ rfl,
        neutral_plain o
          ⟨[], [], flags ++ [kwTrue], P, [.neutral], [] ++ (B ++ [10]), 0 + 5 + 1, [], true⟩
          [] (Contains_nil_left P hP) rfl]
      simp
    have t6 : scanner.turns o (5 + 1) ⟨[], [], flags ++ [kwTrue], P, [.neutral], [], 0,
          ifOff ++ [10] ++ (ifOn ++ [10]) ++ (A ++ [10]) ++ (end1 ++ [10]) ++ (B ++ [10]),
          false⟩ []
        = some (⟨[], [], flags ++ [kwTrue], P, [.neutral], [] ++ (B ++ [10]), 0 + 5 + 1, [],
            true⟩, []) := by
      rw [turns_add o 1 5 _ _ [] [] t5e, turns_succ o 0 _ _ [] rfl s6,
        completed_neutral _ [] rfl]
      simp [scanner.turns]
    have := Process_ok_of_turns o _ flags P 6 _ [] t6 rfl k
    simpa using this

theorem skip_no_nesting_witness :
    Process MapOrder.stored (5 + (0 + 1))
        (bytesOf "// if off" ++ [10] ++ (bytesOf "// if on" ++ [10]) ++ (bytesOf "A" ++ [10])
          ++ (bytesOf "// end" ++ [10]) ++ (bytesOf "B" ++ [10])
          ++ (bytesOf "// end" ++ 10 :: bytesOf "C\n")) [bytesOf "on"] (bytesOf "//")
      = some (.error (.scan 6 .unexpectedEnd)) ∧
    scanner.turns MapOrder.stored 5 ⟨[], [(bytesOf "B", bytesOf "Z")], [bytesOf "on", kwTrue],
        bytesOf "//", [.neutral, .neutral], bytesOf "w", 0,
        bytesOf "// if off" ++ [10] ++ (bytesOf "// if on" ++ [10]) ++ (bytesOf "A" ++ [10])
          ++ (bytesOf "// end" ++ [10]) ++ (bytesOf "aBB" ++ [10])
          ++ (bytesOf "// end" ++ 10 :: bytesOf "C\n"), false⟩ []
      = some (⟨[], [(bytesOf "B", bytesOf "Z")], [bytesOf "on", kwTrue], bytesOf "//",
          [.neutral, .neutral], bytesOf "waZZ\n", 5, bytesOf "// end\nC\n", false⟩, []) ∧
    Process MapOrder.stored (6 + 0)
        (bytesOf "// if off" ++ [10] ++ (bytesOf "// if on" ++ [10]) ++ (bytesOf "A" ++ [10])
          ++ (bytesOf "// end" ++ [10]) ++ (bytesOf "B" ++ [10])) [bytesOf "on"] (bytesOf "//")
      = some (.ok (bytesOf "B\n")) :=
  ⟨(skip_no_nesting MapOrder.stored [] [] ([bytesOf "on"] ++ [kwTrue]) [bytesOf "on"]
      (bytesOf "//") [] 0 [] (bytesOf "off") (bytesOf "on") [] [] [] [] (bytesOf "// if off")
      (bytesOf "// if on") (bytesOf "A") (bytesOf "// end") (bytesOf "B") (bytesOf "// end")
      (bytesOf "C\n") (by decide) (by decide) (by decide) (by decide) (by decide) (by decide)
      (by decide) (by decide) (by decide) (by decide) (by decide) (by decide)
      (by decide)).2.2.2.2.1 rfl rfl rfl rfl rfl rfl 0,
   (skip_no_nesting MapOrder.stored [] [(bytesOf "B", bytesOf "Z")] [bytesOf "on", kwTrue]
      [bytesOf "on"] (bytesOf "//") (bytesOf "w") 0 [.neutral] (bytesOf "off") (bytesOf "on")
      [] [] [] [] (bytesOf "// if off") (bytesOf "// if on") (bytesOf "A") (bytesOf "// end")
      (bytesOf "aBB") (bytesOf "// end") (bytesOf "C\n") (by decide) (by decide) (by decide)
      (by decide) (by decide) (by decide) (by decide) (by decide) (by decide) (by decide)
      (by decide) (by decide) (by decide)).2.1,
   (skip_no_nesting MapOrder.stored [] [] ([bytesOf "on"] ++ [kwTrue]) [bytesOf "on"]
      (bytesOf "//") [] 0 [] (bytesOf "off") (bytesOf "on") [] [] [] [] (bytesOf "// if off")
      (bytesOf "// if on") (bytesOf "A") (bytesOf "// end") (bytesOf "B") (bytesOf "// end")
      (bytesOf "C\n") (by decide) (by decide) (by decide) (by decide) (by decide) (by decide)
      (by decide) (by decide) (by decide) (by decide) (by decide) (by decide)
      (by decide)).2.2.2.2.2.2.2 rfl rfl rfl rfl rfl rfl 0⟩

/-- C17: in every state reached by the loop of `start` as run by `Process`, the stack is not
empty and its bottom entry is the default handler, so the top handler always exists when a
line is dispatched; a turn that ends well leaves such a stack again; a pop attempted with
exactly one entry raises the error "unexpected end directive" instead of removing the entry;
and a capture or skip handler on top of the stack always has an entry below it. -/
theorem stack_invariant (o : MapOrder) (input : Bytes) (flags : List Bytes) (pfx : Bytes)
    (n : Nat) (s : scanner) (done : List Bytes)
    (hrun : scanner.turns o n ((newScanner input flags pfx).pushState .neutral) []
      = some (s, done)) :
    s.state ≠ [] ∧ s.state.getLast? = some .neutral ∧
    (∀ s1, s.step o = .ok s1 → s1.state ≠ [] ∧ s1.state.getLast? = some .neutral) ∧
    (∀ (s2 : scanner) (a : state), s2.state = [a] →
      s2.popState = .error (.scan s2.lineNumber .unexpectedEnd)) ∧
    (∀ stk, (s.state = .consumeUntilEnd :: stk ∨ ∃ X c, s.state = .defn X c :: stk) →
      stk ≠ [] ∧ stk.getLast? = some .neutral) := by
  have hinv := turns_newScanner_stack o input flags pfx n s done hrun
  have key : ∀ st : List state, (∃ stk, st = stk ++ [.neutral]) →
      st ≠ [] ∧ st.getLast? = some .neutral := by
    rintro st ⟨stk, rfl⟩
    exact ⟨by simp, by simp⟩
  refine ⟨(key _ hinv).1, (key _ hinv).2, fun s1 h1 => key _ (step_stack o s s1 h1 hinv),
    fun s2 a h2 => popState_one s2 a h2, ?_⟩
  intro stk hs
  obtain ⟨st, hst⟩ := hinv
  have hne : stk ≠ [] := by
    intro h0
    subst h0
    rcases hs with hs | ⟨X, c, hs⟩
    all_goals
      rw [hs] at hst
      cases st with
      | nil => simp at hst
      | cons a u =>
        simp only [List.cons_append, List.cons.injEq] at hst
        have := congrArg List.length hst.2
        simp at this
  refine ⟨hne, ?_⟩
  have hl : s.state.getLast? = some .neutral := by rw [hst]; simp
  rcases hs with hs | ⟨X, c, hs⟩
  all_goals
    rw [hs] at hl
    cases stk with
    | nil => exact absurd rfl hne
    | cons a u => simpa [List.getLast?_cons_cons] using hl

theorem stack_invariant_witness :
    ([.defn (bytesOf "X") (bytesOf "a\n"), .neutral, .neutral] : List state) ≠ [] ∧
    ([.defn (bytesOf "X") (bytesOf "a\n"), .neutral, .neutral] : List state).getLast?
      = some .neutral ∧
    ([.neutral, .neutral] : List state) ≠ [] :=
  ⟨(stack_invariant MapOrder.stored (bytesOf "// if x\n// def X\na\n") [bytesOf "x"]
      (bytesOf "//") 3
      ⟨[], [], [bytesOf "x", kwTrue], bytesOf "//",
        [.defn (bytesOf "X") (bytesOf "a\n"), .neutral, .neutral], [], 3, [], false⟩ []
      (by decide)).1,
   (stack_invariant MapOrder.stored (bytesOf "// if x\n// def X\na\n") [bytesOf "x"]
      (bytesOf "//") 3
      ⟨[], [], [bytesOf "x", kwTrue], bytesOf "//",
        [.defn (bytesOf "X") (bytesOf "a\n"), .neutral, .neutral], [], 3, [], false⟩ []
      (by decide)).2.1,
   ((stack_invariant MapOrder.stored (bytesOf "// if x\n// def X\na\n") [bytesOf "x"]
      (bytesOf "//") 3
      ⟨[], [], [bytesOf "x", kwTrue], bytesOf "//",
        [.defn (bytesOf "X") (bytesOf "a\n"), .neutral, .neutral], [], 3, [], false⟩ []
      (by decide)).2.2.2.2 [.neutral, .neutral]
      (Or.inr ⟨bytesOf "X", bytesOf "a\n", rfl⟩)).1⟩

/-- A handler leaves the unread bytes as they are, unless it is the default handler on a
`template` line. -/
theorem dispatch_r (o : MapOrder) (s s1 : scanner) (line : Bytes)
    (h : s.dispatch o line = .ok s1) :
    s1.r = s.r ∨ (∃ stk, s.state = .neutral :: stk) ∧ firstToken s.pfx line = some kwTemplate := by
  unfold scanner.dispatch at h
  split at h
  · cases h
  · rename_i stk heq
    rcases neutral_ok_cases o s s1 line h with ⟨_, rfl⟩ | ⟨b, p0, rest, hd, hcase⟩
    · exact Or.inl rfl
    · rcases hcase with ⟨_, hp⟩ | ⟨_, _, rfl⟩ | ⟨_, rfl | rfl⟩ | ⟨_, rfl | rfl⟩ | ⟨_, rfl | rfl⟩ |
        ⟨h6, _, _, _, _, rfl⟩ | ⟨_, _, _, rfl⟩
      · obtain ⟨a, b, stk, hst, rfl⟩ := popState_ok s s1 hp
        exact Or.inl rfl
      · exact Or.inl rfl
      · exact Or.inl rfl
      · exact Or.inl rfl
      · exact Or.inl rfl
      · exact Or.inl rfl
      · exact Or.inl rfl
      · exact Or.inl rfl
      · subst h6
        exact Or.inr ⟨⟨stk, heq⟩, firstToken_eq _ _ b _ rest hd⟩
      · exact Or.inl rfl
  · rcases consumeUntilEnd_ok_cases s s1 line h with rfl | ⟨_, _, _, hp⟩
    · exact Or.inl rfl
    · obtain ⟨a, b, stk, hst, rfl⟩ := popState_ok s s1 hp
      exact Or.inl rfl
  · rename_i name content stk heq
    rcases defn_ok_cases s s1 name content line h with ⟨_, rfl⟩ | ⟨_, _, _, hp⟩
    · exact Or.inl rfl
    · obtain ⟨a, b, stk2, hst, rfl⟩ := popState_ok _ s1 hp
      exact Or.inl rfl

/-- A turn that is no template replay leaves unread what the read of the line left unread. -/
theorem step_no_replay (o : MapOrder) (s s1 : scanner) (h : s.step o = .ok s1)
    (hno : s.replays = false) (hne : s.eof = false) :
    s1.r = (ReadBytes s.r).2.1 ∧ s1.eof = (ReadBytes s.r).2.2 := by
  have hf := dispatch_frame o s.line.2 s1 s.line.1 h
  have he : s1.eof = (ReadBytes s.r).2.2 := by
    rw [hf.2.2.2.1]
    simp [scanner.line, hne]
  refine ⟨?_, he⟩
  rcases dispatch_r o s.line.2 s1 s.line.1 h with h1 | ⟨⟨stk, hst⟩, ht⟩
  · rw [h1]; rfl
  · have hst2 : s.state = .neutral :: stk := hst
    have ht2 : firstToken s.pfx s.line.1 = some kwTemplate := ht
    simp [scanner.replays, hst2, ht2] at hno

theorem ReadBytes_line_ne_nil (r : Bytes) (h : (ReadBytes r).2.2 = false) :
    (ReadBytes r).1 ≠ [] := by
  cases r with
  | nil => simp [ReadBytes] at h
  | cons b t =>
    by_cases hb : b = 10
    · simp [ReadBytes, hb]
    · simp [ReadBytes, hb]

theorem ReadBytes_rest_lt (r : Bytes) (h : (ReadBytes r).2.2 = false) :
    (ReadBytes r).2.1.length < r.length := by
  have ha := congrArg List.length (ReadBytes_append r)
  have hn := List.length_pos.2 (ReadBytes_line_ne_nil r h)
  simp only [List.length_append] at ha
  omega

theorem turns_fst (o : MapOrder) :
    ∀ (n : Nat) (s : scanner) (d d2 : List Bytes),
      (scanner.turns o n s d).map Prod.fst = (scanner.turns o n s d2).map Prod.fst := by
  intro n
  induction n with
  | zero => intro s d d2; simp [scanner.turns]
  | succ n ih =>
    intro s d d2
    simp only [scanner.turns]
    split
    · rfl
    · split
      · exact ih _ _ _
      · rfl

/-- A run in which none of the next turns is a template replay ends within as many turns as
there are unread bytes, plus one: some number of turns go well and lead to a state in which
either the end of input has been reported, and the loop returns that state, or the next turn
raises an error, and the loop returns that error. -/
theorem loop_terminates (o : MapOrder) :
    ∀ (m : Nat) (s : scanner) (d : List Bytes), s.r.length ≤ m →
      (∀ j, j ≤ m → (scanner.turns o j s []).map (fun p => p.1.replays) ≠ some true) →
      ∃ j s2 d2, j ≤ m + 1 ∧ scanner.turns o j s d = some (s2, d2) ∧
        ((s2.eof = true ∧ ∀ k, s.loop o (m + 1 + k) = some (.ok s2)) ∨
         (s2.eof = false ∧ ∃ e, s2.step o = .error e ∧
            ∀ k, s.loop o (m + 1 + k) = some (.error e))) := by
  intro m
  induction m with
  | zero =>
    intro s d hlen hno
    by_cases he : s.eof = true
    · exact ⟨0, s, d, by omega, rfl, Or.inl ⟨he, fun k => loop_eof o _ s he⟩⟩
    · have hne : s.eof = false := by simpa using he
      cases hs : s.step o with
      | error e =>
        refine ⟨0, s, d, by omega, rfl, Or.inr ⟨hne, e, hs, fun k => ?_⟩⟩
        rw [show 0 + 1 + k = k + 1 by omega]
        exact loop_succ_error o k s e hne hs
      | ok s1 =>
        have h0 : s.replays = false := by
          have := hno 0 (le_refl _)
          simpa [scanner.turns] using this
        obtain ⟨hr, he1⟩ := step_no_replay o s s1 hs h0 hne
        have hnil : s.r = [] := List.eq_nil_of_length_eq_zero (by omega)
        have h1 : s1.eof = true := by rw [he1, hnil]; simp [ReadBytes]
        refine ⟨1, s1, d ++ s.completed.toList, by omega, ?_, Or.inl ⟨h1, fun k => ?_⟩⟩
        · rw [turns_succ o 0 s s1 d hne hs]; rfl
        · rw [show 0 + 1 + k = k + 1 by omega, loop_succ_ok o k s s1 hne hs]
          exact loop_eof o _ s1 h1
  | succ m ih =>
    intro s d hlen hno
    by_cases he : s.eof = true
    · exact ⟨0, s, d, by omega, rfl, Or.inl ⟨he, fun k => loop_eof o _ s he⟩⟩
    · have hne : s.eof = false := by simpa using he
      cases hs : s.step o with
      | error e =>
        refine ⟨0, s, d, by omega, rfl, Or.inr ⟨hne, e, hs, fun k => ?_⟩⟩
        rw [show m + 1 + 1 + k = (m + 1 + k) + 1 by omega]
        exact loop_succ_error o _ s e hne hs
      | ok s1 =>
        have h0 : s.replays = false := by
          have := hno 0 (Nat.zero_le _)
          simpa [scanner.turns] using this
        obtain ⟨hr, he1⟩ := step_no_replay o s s1 hs h0 hne
        have hloop : ∀ k, s.loop o (m + 1 + 1 + k) = s1.loop o (m + 1 + k) := by
          intro k
          rw [show m + 1 + 1 + k = (m + 1 + k) + 1 by omega, loop_succ_ok o _ s s1 hne hs]
        by_cases he2 : s1.eof = true
        · refine ⟨1, s1, d ++ s.completed.toList, by omega, ?_, Or.inl ⟨he2, fun k => ?_⟩⟩
          · rw [turns_succ o 0 s s1 d hne hs]; rfl
          · rw [hloop k]; exact loop_eof o _ s1 he2
        · have hflag : (ReadBytes s.r).2.2 = false := by rw [← he1]; simpa using he2
          have hlt := ReadBytes_rest_lt s.r hflag
          have hno1 : ∀ j, j ≤ m →
              (scanner.turns o j s1 []).map (fun p => p.1.replays) ≠ some true := by
            intro j hj
            have := hno (j + 1) (by omega)
            rw [turns_succ o j s s1 [] hne hs] at this
            intro hcon
            apply this
            have hfst := turns_fst o j s1 ([] ++ s.completed.toList) []
            cases h1 : scanner.turns o j s1 ([] ++ s.completed.toList) with
            | none =>
              rw [h1] at hfst
              cases h2 : scanner.turns o j s1 [] with
              | none => rw [h2] at hcon; simp at hcon
              | some p => rw [h2] at hfst; simp at hfst
            | some p =>
              rw [h1] at hfst
              cases h2 : scanner.turns o j s1 [] with
              | none => rw [h2] at hcon; simp at hcon
              | some q =>
                rw [h2] at hfst hcon
                simp only [Option.map_some', Option.some.injEq] at hfst hcon ⊢
                rw [hfst]
                exact hcon
          obtain ⟨j, s2, d2, hj, ht, hres⟩ :=
            ih s1 (d ++ s.completed.toList) (by rw [hr]; omega) hno1
          refine ⟨j + 1, s2, d2, by omega, ?_, ?_⟩
          · rw [turns_succ o j s s1 d hne hs]; exact ht
          · rcases hres with ⟨h2, hk⟩ | ⟨h2, e, hstep, hk⟩
            · exact Or.inl ⟨h2, fun k => by rw [hloop k]; exact hk k⟩
            · exact Or.inr ⟨h2, e, hstep, fun k => by rw [hloop k]; exact hk k⟩

/-- C18 (amended): a run ends as soon as it stops replaying templates. In every state reached
by `Process`, if none of the next turns, as many as there are unread bytes plus one, is a
template replay, then within that many further turns the run reaches a state in which either
the end of input has been reported, and `Process` returns the output accumulated there, or
the next turn raises an error, the first of the run, and `Process` returns it; a larger step
budget gives the same result. This covers every input on which no template is replayed. -/
theorem terminates_without_replay (o : MapOrder) (input : Bytes) (flags : List Bytes)
    (pfx : Bytes) (n : Nat) (s : scanner) (done : List Bytes)
    (hrun : scanner.turns o n ((newScanner input flags pfx).pushState .neutral) []
      = some (s, done))
    (hno : ∀ j, j ≤ s.r.length →
      (scanner.turns o j s []).map (fun p => p.1.replays) ≠ some true) :
    ∃ j s2 d2, j ≤ s.r.length + 1 ∧
      scanner.turns o (n + j) ((newScanner input flags pfx).pushState .neutral) []
        = some (s2, d2) ∧
      ((s2.eof = true ∧
          ∀ k, Process o (n + (s.r.length + 1 + k)) input flags pfx = some (.ok s2.w)) ∨
       (s2.eof = false ∧ ∃ e, s2.step o = .error e ∧
          ∀ k, Process o (n + (s.r.length + 1 + k)) input flags pfx = some (.error e))) := by
  obtain ⟨j, s2, d2, hj, ht, hres⟩ := loop_terminates o s.r.length s done (le_refl _) hno
  have hl := turns_loop o n _ s [] done hrun
  refine ⟨j, s2, d2, hj, ?_, ?_⟩
  · rw [turns_add o j n _ s [] done hrun]; exact ht
  · rcases hres with ⟨h2, hk⟩ | ⟨h2, e, hstep, hk⟩
    · refine Or.inl ⟨h2, fun k => ?_⟩
      have := hl (s.r.length + 1 + k)
      rw [hk k] at this
      simp [Process, scanner.start, this]
    · refine Or.inr ⟨h2, e, hstep, fun k => ?_⟩
      have := hl (s.r.length + 1 + k)
      rw [hk k] at this
      simp [Process, scanner.start, this]

theorem terminates_without_replay_witness :
    ∃ j s2 d2, j ≤ (bytesOf "// if x\na").length + 1 ∧
      scanner.turns MapOrder.stored (0 + j)
        ((newScanner (bytesOf "// if x\na") [] (bytesOf "//")).pushState .neutral) []
        = some (s2, d2) ∧
      ((s2.eof = true ∧
          ∀ k, Process MapOrder.stored (0 + ((bytesOf "// if x\na").length + 1 + k))
            (bytesOf "// if x\na") [] (bytesOf "//") = some (.ok s2.w)) ∨
       (s2.eof = false ∧ ∃ e, s2.step MapOrder.stored = .error e ∧
          ∀ k, Process MapOrder.stored (0 + ((bytesOf "// if x\na").length + 1 + k))
            (bytesOf "// if x\na") [] (bytesOf "//") = some (.error e))) :=
  terminates_without_replay MapOrder.stored (bytesOf "// if x\na") [] (bytesOf "//") 0
    ((newScanner (bytesOf "// if x\na") [] (bytesOf "//")).pushState .neutral) [] rfl
    (by decide)

theorem self_replay_step (n : Nat) :
    scanner.step MapOrder.stored
        ⟨[(bytesOf "X", bytesOf "// template X\n")], [], [kwTrue], bytesOf "//", [.neutral],
          [], n, bytesOf "// template X" ++ 10 :: [], false⟩
      = .ok ⟨[(bytesOf "X", bytesOf "// template X\n")], [], [kwTrue], bytesOf "//", [.neutral],
          [], n + 1, bytesOf "// template X" ++ 10 :: [], false⟩ := by
  have hd : directive (bytesOf "//") (bytesOf "// template X" ++ [10])
      = some ([], [kwTemplate, bytesOf "X"]) := by decide
  have h := step_line MapOrder.stored
    ⟨[(bytesOf "X", bytesOf "// template X\n")], [], [kwTrue], bytesOf "//", [.neutral],
      [], n, bytesOf "// template X" ++ 10 :: [], false⟩ (bytesOf "// template X") []
    (by decide) rfl
  rw [dispatch_neutral MapOrder.stored
      ⟨[(bytesOf "X", bytesOf "// template X\n")], [], [kwTrue], bytesOf "//", [.neutral],
        [], n + 1, [], false⟩ [] _ rfl,
    neutral_template MapOrder.stored
      ⟨[(bytesOf "X", bytesOf "// template X\n")], [], [kwTrue], bytesOf "//", [.neutral],
        [], n + 1, [], false⟩ _ [] (bytesOf "X") [] hd] at h
  rw [h]
  have hg : Table.get [(bytesOf "X", bytesOf "// template X\n")] (bytesOf "X")
      = some (bytesOf "// template X\n") := by decide
  simp only [hg]
  have hb : bytesOf "// template X\n" ++ [] = bytesOf "// template X" ++ 10 :: [] := by decide
  rw [hb]

theorem self_replay_loop (fuel : Nat) :
    ∀ n, scanner.loop MapOrder.stored fuel
        ⟨[(bytesOf "X", bytesOf "// template X\n")], [], [kwTrue], bytesOf "//", [.neutral],
          [], n, bytesOf "// template X" ++ 10 :: [], false⟩ = none := by
  induction fuel with
  | zero => intro n; simp [scanner.loop]
  | succ f ih =>
    intro n
    rw [loop_succ_ok MapOrder.stored f _ _ rfl (self_replay_step n)]
    exact ih (n + 1)

/-- C18 as stated fails for a template whose body replays itself: on the input made of the
lines `def X`, `template X`, `enddef`, `template X` no step budget makes `Process` return;
the stored line is put back on the reader every time it is read. -/
theorem self_replay_never_returns :
    ¬ ∃ fuel res, Process MapOrder.stored fuel
      (bytesOf "// def X\n// template X\n// enddef\n// template X\n") [] (bytesOf "//")
        = some res := by
  rintro ⟨fuel, res, h⟩
  have hnone : scanner.loop MapOrder.stored fuel
      ((newScanner (bytesOf "// def X\n// template X\n// enddef\n// template X\n") []
        (bytesOf "//")).pushState .neutral) = none := by
    by_cases hf : fuel < 4
    · have : fuel = 0 ∨ fuel = 1 ∨ fuel = 2 ∨ fuel = 3 := by omega
      rcases this with rfl | rfl | rfl | rfl <;> decide
    · obtain ⟨k, rfl⟩ : ∃ k, fuel = 4 + k := ⟨fuel - 4, by omega⟩
      have ht : scanner.turns MapOrder.stored 4
          ((newScanner (bytesOf "// def X\n// template X\n// enddef\n// template X\n") []
            (bytesOf "//")).pushState .neutral) []
          = some (⟨[(bytesOf "X", bytesOf "// template X\n")], [], [kwTrue], bytesOf "//",
              [.neutral], [], 4, bytesOf "// template X" ++ 10 :: [], false⟩,
            [bytesOf "X"]) := by decide
      rw [turns_loop MapOrder.stored 4 _ _ [] _ ht k]
      exact self_replay_loop k 4
  simp [Process, scanner.start, hnone] at h

/-- The turns on a block of lines without the prefix, with the default handler on top and an
empty replacement table: the lines are copied to the output. -/
theorem turns_block_plain (o : MapOrder) (ls : List Bytes) :
    ∀ (s : scanner) (stk : List state) (rest : Bytes) (d : List Bytes),
      s.eof = false → s.state = .neutral :: stk → s.replacements = [] →
      s.r = block ls ++ rest → (∀ l ∈ ls, 10 ∉ l ∧ Contains (l ++ [10]) s.pfx = false) →
      scanner.turns o ls.length s d = some ({ s with
        w := s.w ++ block ls, r := rest
        lineNumber := s.lineNumber + ls.length }, d) := by
  induction ls with
  | nil =>
    intro s stk rest d _ _ _ hr _
    simp [block] at hr
    simp [scanner.turns, block, ← hr]
  | cons l ls ih =>
    intro s stk rest d he hst hrep hr hl
    have hl1 := hl l (List.mem_cons_self _ _)
    rw [block_cons, List.append_assoc, List.cons_append] at hr
    have hstep := step_line o s l (block ls ++ rest) hl1.1 hr
    rw [dispatch_neutral o
        ({ s with r := block ls ++ rest, lineNumber := s.lineNumber + 1 } : scanner) stk _ hst,
      neutral_plain o ({ s with r := block ls ++ rest, lineNumber := s.lineNumber + 1 } : scanner)
        (l ++ [10]) hl1.2 hrep] at hstep
    rw [List.length_cons, turns_succ o _ s _ d he hstep, completed_neutral s stk hst]
    simp only [Option.toList_none, List.append_nil]
    rw [ih ({ s with
        w := s.w ++ (l ++ [10]), r := block ls ++ rest
        lineNumber := s.lineNumber + 1 } : scanner) stk rest d he hst hrep rfl
      (fun x hx => hl x (List.mem_cons_of_mem _ hx))]
    simp [block_cons, Nat.add_assoc, Nat.add_comm 1]

/-- The turns on a block of lines without the prefix, with the skip handler on top: the
lines are discarded. -/
theorem turns_block_skip (o : MapOrder) (ls : List Bytes) :
    ∀ (s : scanner) (stk : List state) (rest : Bytes) (d : List Bytes),
      s.eof = false → s.state = .consumeUntilEnd :: stk →
      s.r = block ls ++ rest → (∀ l ∈ ls, 10 ∉ l ∧ Contains (l ++ [10]) s.pfx = false) →
      scanner.turns o ls.length s d = some ({ s with
        r := rest, lineNumber := s.lineNumber + ls.length }, d) := by
  induction ls with
  | nil =>
    intro s stk rest d _ _ hr _
    simp [block] at hr
    simp [scanner.turns, ← hr]
  | cons l ls ih =>
    intro s stk rest d he hst hr hl
    have hl1 := hl l (List.mem_cons_self _ _)
    rw [block_cons, List.append_assoc, List.cons_append] at hr
    have hstep := step_line o s l (block ls ++ rest) hl1.1 hr
    rw [dispatch_consumeUntilEnd o
        ({ s with r := block ls ++ rest, lineNumber := s.lineNumber + 1 } : scanner) stk _ hst,
      consumeUntilEnd_plain
        ({ s with r := block ls ++ rest, lineNumber := s.lineNumber + 1 } : scanner)
        (l ++ [10]) hl1.2] at hstep
    rw [List.length_cons, turns_succ o _ s _ d he hstep, completed_consumeUntilEnd s stk hst]
    simp only [Option.toList_none, List.append_nil]
    rw [ih ({ s with r := block ls ++ rest, lineNumber := s.lineNumber + 1 } : scanner)
      stk rest d he hst rfl (fun x hx => hl x (List.mem_cons_of_mem _ hx))]
    simp [Nat.add_assoc, Nat.add_comm 1]

/-- The turns on an `if` line and a block of lines without the prefix that ends the input:
the run reaches the end of input with the pushed handler still on the stack. -/
theorem turns_if_open (o : MapOrder) (fl : List Bytes) (P F b1 ifBody : Bytes)
    (ls : List Bytes) (hP : P ≠ [])
    (hi : 10 ∉ ifBody) (di : directive P (ifBody ++ [10]) = some (b1, [kwIf, F]))
    (hC : ∀ l ∈ ls, 10 ∉ l ∧ Contains (l ++ [10]) P = false) :
    ∃ s done, scanner.turns o (ls.length + 2)
        ⟨[], [], fl, P, [.neutral], [], 0, ifBody ++ [10] ++ block ls, false⟩ [] = some (s, done) ∧
      s.eof = true ∧ s.state.length = 2 ∧
      s.w = (if scanner.flagTest ⟨[], [], fl, P, [.neutral], [], 0, [], false⟩ F
             then block ls else []) := by
  have h1 := step_line o
    ⟨[], [], fl, P, [.neutral], [], 0, ifBody ++ [10] ++ block ls, false⟩
    ifBody (block ls ++ []) hi (by simp)
  rw [dispatch_neutral o ⟨[], [], fl, P, [.neutral], [], 0 + 1, _, false⟩ [] _ rfl,
    neutral_if o ⟨[], [], fl, P, [.neutral], [], 0 + 1, _, false⟩ _ b1 F [] di] at h1
  have hflag : ∀ (w1 r1 : Bytes) (n1 : Nat) (e1 : Bool) (st : List state),
      scanner.flagTest ⟨[], [], fl, P, st, w1, n1, r1, e1⟩ F
        = scanner.flagTest ⟨[], [], fl, P, [.neutral], [], 0, [], false⟩ F :=
    fun _ _ _ _ _ => rfl
  rw [hflag] at h1
  rw [show ls.length + 2 = (ls.length + 1) + 1 by omega,
    turns_succ o _ _ _ [] rfl h1, completed_neutral _ [] rfl]
  by_cases hF : scanner.flagTest ⟨[], [], fl, P, [.neutral], [], 0, [], false⟩ F = true
  · simp only [hF, if_true, scanner.pushState]
    have hb : ∀ d, scanner.turns o ls.length
        ⟨[], [], fl, P, [.neutral, .neutral], [], 0 + 1, block ls ++ [], false⟩ d
        = some (⟨[], [], fl, P, [.neutral, .neutral], [] ++ block ls, 0 + 1 + ls.length, [],
            false⟩, d) := by
      intro d
      have := turns_block_plain o ls
        ⟨[], [], fl, P, [.neutral, .neutral], [], 0 + 1, block ls ++ [], false⟩
        [.neutral] [] d rfl rfl rfl rfl hC
      exact this
    rw [turns_add o 1 ls.length _ _ _ _ (hb _)]
    have h3 := step_last o
      ⟨[], [], fl, P, [.neutral, .neutral], [] ++ block ls, 0 + 1 + ls.length, [], false⟩ []
      (by simp) rfl
    rw [dispatch_neutral o
        ⟨[], [], fl, P, [.neutral, .neutral], [] ++ block ls, 0 + 1 + ls.length + 1, [], true⟩
        [.neutral] _ rfl,
      neutral_plain o
        ⟨[], [], fl, P, [.neutral, .neutral], [] ++ block ls, 0 + 1 + ls.length + 1, [], true⟩
        [] (Contains_nil_left _ hP) rfl] at h3
    rw [turns_succ o 0 _ _ _ rfl h3]
    exact ⟨_, _, rfl, rfl, rfl, by simp⟩
  · have hF2 : scanner.flagTest ⟨[], [], fl, P, [.neutral], [], 0, [], false⟩ F = false := by
      simpa using hF
    simp only [hF2, if_false, Bool.false_eq_true, scanner.pushState]
    have hb : ∀ d, scanner.turns o ls.length
        ⟨[], [], fl, P, [.consumeUntilEnd, .neutral], [], 0 + 1, block ls ++ [], false⟩ d
        = some (⟨[], [], fl, P, [.consumeUntilEnd, .neutral], [], 0 + 1 + ls.length, [],
            false⟩, d) := by
      intro d
      have := turns_block_skip o ls
        ⟨[], [], fl, P, [.consumeUntilEnd, .neutral], [], 0 + 1, block ls ++ [], false⟩
        [.neutral] [] d rfl rfl rfl hC
      exact this
    rw [turns_add o 1 ls.length _ _ _ _ (hb _)]
    have h3 := step_last o
      ⟨[], [], fl, P, [.consumeUntilEnd, .neutral], [], 0 + 1 + ls.length, [], false⟩ []
      (by simp) rfl
    rw [dispatch_consumeUntilEnd o
        ⟨[], [], fl, P, [.consumeUntilEnd, .neutral], [], 0 + 1 + ls.length + 1, [], true⟩
        [.neutral] _ rfl,
      consumeUntilEnd_plain
        ⟨[], [], fl, P, [.consumeUntilEnd, .neutral], [], 0 + 1 + ls.length + 1, [], true⟩
        [] (Contains_nil_left _ hP)] at h3
    rw [turns_succ o 0 _ _ _ rfl h3]
    exact ⟨_, _, rfl, rfl, rfl, rfl⟩

/-- The turns on a `def X` line and a block of lines that ends the input, none of them an
`enddef` line: the run reaches the end of input with the capture handler still on the stack,
nothing written and nothing stored. -/
theorem turns_def_open (o : MapOrder) (fl : List Bytes) (P X b1 defBody : Bytes)
    (ls : List Bytes) (hP : P ≠ [])
    (hd : 10 ∉ defBody) (dd : directive P (defBody ++ [10]) = some (b1, [kwDef, X]))
    (hC : ∀ l ∈ ls, 10 ∉ l ∧ appended P (l ++ [10]) = true) :
    scanner.turns o (ls.length + 2)
        ⟨[], [], fl, P, [.neutral], [], 0, defBody ++ [10] ++ block ls, false⟩ []
      = some (⟨[], [], fl, P, [.defn X (block ls), .neutral], [], ls.length + 2, [], true⟩,
          []) := by
  have hC2 : ∀ l ∈ ls, 10 ∉ l ∧ (Contains (l ++ [10]) P = false ∨
      ∃ b p0 r, directive P (l ++ [10]) = some (b, p0 :: r) ∧ p0 ≠ kwEnddef) :=
    fun l hl => ⟨(hC l hl).1, (appended_iff _ _).1 (hC l hl).2⟩
  have h1 := step_line o
    ⟨[], [], fl, P, [.neutral], [], 0, defBody ++ [10] ++ block ls, false⟩
    defBody (block ls ++ []) hd (by simp)
  rw [dispatch_neutral o ⟨[], [], fl, P, [.neutral], [], 0 + 1, _, false⟩ [] _ rfl,
    neutral_def o ⟨[], [], fl, P, [.neutral], [], 0 + 1, _, false⟩ _ b1 X [] dd] at h1
  rw [show ls.length + 2 = (ls.length + 1) + 1 by omega,
    turns_succ o _ _ _ [] rfl h1, completed_neutral _ [] rfl]
  simp only [scanner.pushState]
  have hb := turns_block_capture o X ls
    ⟨[], [], fl, P, [.defn X [], .neutral], [], 0 + 1, block ls ++ [], false⟩ [] [.neutral] []
    ([] ++ (none : Option Bytes).toList) rfl rfl rfl hC2
  rw [turns_add o 1 ls.length _ _ _ _ hb]
  have h3 := step_last o
    ⟨[], [], fl, P, [.defn X ([] ++ block ls), .neutral], [], 0 + 1 + ls.length, [], false⟩ []
    (by simp) rfl
  rw [dispatch_defn o
      ⟨[], [], fl, P, [.defn X ([] ++ block ls), .neutral], [], 0 + 1 + ls.length + 1, [], true⟩
      [.neutral] X ([] ++ block ls) _ rfl,
    defn_plain
      ⟨[], [], fl, P, [.defn X ([] ++ block ls), .neutral], [], 0 + 1 + ls.length + 1, [], true⟩
      X ([] ++ block ls) [] (Contains_nil_left _ hP)] at h3
  have hcomp : scanner.completed
      ⟨[], [], fl, P, [.defn X ([] ++ block ls), .neutral], [], 0 + 1 + ls.length, [], false⟩
      = none :=
    completed_capture _ X ([] ++ block ls) [.neutral] rfl
      (Or.inl (by simp [scanner.line, ReadBytes, Contains_nil_left _ hP]))
  rw [turns_succ o 0 _ _ _ rfl h3, hcomp]
  simp [scanner.turns, scanner.capture]
  omega

/-- C19 (amended): open blocks at the end of input are not an error. When the loop of `start` reaches
a state in which the read has reported the end of input, `Process` returns the output
written so far, whatever the stack holds. For a non-empty prefix an `if` line followed by
lines without the prefix and no `end` line is accepted, with these lines as output when the
flag test holds and no output when it fails; and a `def X` line followed by lines and no
`enddef` line is accepted with an empty output, an empty template store and the lines held
only in the buffer of the capture handler left on the stack. -/
theorem open_blocks_accepted (o : MapOrder) (input : Bytes) (flags : List Bytes) (pfx : Bytes)
    (n : Nat) (s : scanner) (done : List Bytes) (P F X b1 b2 ifBody defBody : Bytes)
    (ls ls2 : List Bytes)
    (hrun : scanner.turns o n ((newScanner input flags pfx).pushState .neutral) []
      = some (s, done))
    (heof : s.eof = true) (hP : P ≠ [])
    (hi : 10 ∉ ifBody) (di : directive P (ifBody ++ [10]) = some (b1, [kwIf, F]))
    (hC : ∀ l ∈ ls, 10 ∉ l ∧ Contains (l ++ [10]) P = false)
    (hd : 10 ∉ defBody) (dd : directive P (defBody ++ [10]) = some (b2, [kwDef, X]))
    (hC2 : ∀ l ∈ ls2, 10 ∉ l ∧ appended P (l ++ [10]) = true) :
    (∀ k, Process o (n + k) input flags pfx = some (.ok s.w)) ∧
    (∀ k, Process o (ls.length + 2 + k) (ifBody ++ [10] ++ block ls) flags P
      = some (.ok (if scanner.flagTest ((newScanner [] flags P).pushState .neutral) F
                   then block ls else []))) ∧
    scanner.turns o (ls2.length + 2)
        ((newScanner (defBody ++ [10] ++ block ls2) flags P).pushState .neutral) []
      = some (⟨[], [], flags ++ [kwTrue], P, [.defn X (block ls2), .neutral], [],
          ls2.length + 2, [], true⟩, []) ∧
    (∀ k, Process o (ls2.length + 2 + k) (defBody ++ [10] ++ block ls2) flags P
      = some (.ok [])) := by
  have hdef := turns_def_open o (flags ++ [kwTrue]) P X b2 defBody ls2 hP hd dd hC2
  refine ⟨fun k => Process_ok_of_turns o input flags pfx n s done hrun heof k, ?_, hdef, ?_⟩
  · intro k
    obtain ⟨s2, d2, ht, he2, _, hw⟩ :=
      turns_if_open o (flags ++ [kwTrue]) P F b1 ifBody ls hP hi di hC
    have := Process_ok_of_turns o (ifBody ++ [10] ++ block ls) flags P (ls.length + 2) s2 d2
      ht he2 k
    rw [this, hw]
    rfl
  · intro k
    exact Process_ok_of_turns o (defBody ++ [10] ++ block ls2) flags P (ls2.length + 2) _ []
      hdef rfl k

theorem open_blocks_accepted_witness :
    Process MapOrder.stored (1 + 2 + 0) (bytesOf "// if x" ++ [10] ++ block [bytesOf "a"])
        [bytesOf "x"] (bytesOf "//") = some (.ok (block [bytesOf "a"])) ∧
    Process MapOrder.stored (2 + 2 + 0)
        (bytesOf "// def X" ++ [10] ++ block [bytesOf "a", bytesOf "// end"])
        [bytesOf "x"] (bytesOf "//") = some (.ok []) ∧
    Process MapOrder.stored (3 + 0) (bytesOf "// if x\n// if x\na") [bytesOf "x"] (bytesOf "//")
      = some (.ok (bytesOf "a")) :=
  ⟨(open_blocks_accepted MapOrder.stored (bytesOf "// if x\n// if x\na") [bytesOf "x"]
      (bytesOf "//") 3
      ⟨[], [], [bytesOf "x", kwTrue], bytesOf "//", [.neutral, .neutral, .neutral], bytesOf "a",
        3, [], true⟩ [] (bytesOf "//") (bytesOf "x") (bytesOf "X") [] [] (bytesOf "// if x")
      (bytesOf "// def X") [bytesOf "a"] [bytesOf "a", bytesOf "// end"]
      (by decide) rfl (by decide) (by decide) (by decide) (by decide) (by decide) (by decide)
      (by decide)).2.1 0,
   (open_blocks_accepted MapOrder.stored (bytesOf "// if x\n// if x\na") [bytesOf "x"]
      (bytesOf "//") 3
      ⟨[], [], [bytesOf "x", kwTrue], bytesOf "//", [.neutral, .neutral, .neutral], bytesOf "a",
        3, [], true⟩ [] (bytesOf "//") (bytesOf "x") (bytesOf "X") [] [] (bytesOf "// if x")
      (bytesOf "// def X") [bytesOf "a"] [bytesOf "a", bytesOf "// end"]
      (by decide) rfl (by decide) (by decide) (by decide) (by decide) (by decide) (by decide)
      (by decide)).2.2.2 0,
   (open_blocks_accepted MapOrder.stored (bytesOf "// if x\n// if x\na") [bytesOf "x"]
      (bytesOf "//") 3
      ⟨[], [], [bytesOf "x", kwTrue], bytesOf "//", [.neutral, .neutral, .neutral], bytesOf "a",
        3, [], true⟩ [] (bytesOf "//") (bytesOf "x") (bytesOf "X") [] [] (bytesOf "// if x")
      (bytesOf "// def X") [bytesOf "a"] [bytesOf "a", bytesOf "// end"]
      (by decide) rfl (by decide) (by decide) (by decide) (by decide) (by decide) (by decide)
      (by decide)).1 0⟩

/-- C19 as stated fails for the empty prefix: with the prefix "" the line ` if x` is an `if`
line whose flag is on and the line ` def X` is a `def` line, yet neither open block is
accepted: the empty chunk read at end of input is handed to the top handler, which splits it
at the prefix, and the run ends with a runtime error. -/
theorem open_blocks_empty_prefix :
    directive [] (bytesOf " if x" ++ [10]) = some (bytesOf " ", [kwIf, bytesOf "x"]) ∧
    Process MapOrder.stored 2 (bytesOf " if x" ++ [10] ++ block []) [bytesOf "x"] []
      = some (.error (.indexOutOfRange 0 0)) ∧
    directive [] (bytesOf " def X" ++ [10]) = some (bytesOf " ", [kwDef, bytesOf "X"]) ∧
    Process MapOrder.stored 2 (bytesOf " def X" ++ [10] ++ block []) [bytesOf "x"] []
      = some (.error (.indexOutOfRange 0 0)) := by
  refine ⟨by decide, by decide, by decide, by decide⟩

/-- A handler fails with a runtime error on a line that contains the prefix and has no first
token after it. -/
theorem dispatch_no_token (o : MapOrder) (s : scanner) (line : Bytes)
    (hc : Contains line s.pfx = true) (ht : firstToken s.pfx line = none) :
    ∃ i len, s.dispatch o line = .error (.indexOutOfRange i len) := by
  have hsplit : (∃ i len, s.splitPrefix line = .error (.indexOutOfRange i len)) ∨
      ∃ before, s.splitPrefix line = .ok (before, []) := by
    cases hsp : s.splitPrefix line with
    | error e =>
      rcases splitPrefix_error s line e hsp with h1 | ⟨i, len, h1⟩
      · subst h1
        unfold scanner.splitPrefix at hsp
        simp [hc] at hsp
        split at hsp <;> cases hsp
      · exact Or.inl ⟨i, len, by rw [h1]⟩
    | ok bp =>
      obtain ⟨before, pragma⟩ := bp
      have hd := directive_of_splitPrefix s line before pragma hsp
      cases pragma with
      | nil => exact Or.inr ⟨before, rfl⟩
      | cons p0 rest => rw [firstToken_eq _ _ before p0 rest hd] at ht; cases ht
  unfold scanner.dispatch
  split
  · exact ⟨_, _, rfl⟩
  · rcases hsplit with ⟨i, len, h⟩ | ⟨b, h⟩
    · exact ⟨i, len, by simp [scanner.neutral, hc, h]⟩
    · exact ⟨0, 0, by simp [scanner.neutral, hc, h, index]⟩
  · rcases hsplit with ⟨i, len, h⟩ | ⟨b, h⟩
    · exact ⟨i, len, by simp [scanner.consumeUntilEnd, hc, h]⟩
    · exact ⟨0, 0, by simp [scanner.consumeUntilEnd, hc, h, index]⟩
  · rcases hsplit with ⟨i, len, h⟩ | ⟨b, h⟩
    · exact ⟨i, len, by simp [scanner.defn, hc, h]⟩
    · exact ⟨0, 0, by simp [scanner.defn, hc, h, index]⟩

/-- The default handler fails with a runtime error on a `def`, `if` or `template` line that
has no second token. -/
theorem neutral_no_argument (o : MapOrder) (s : scanner) (line before kw : Bytes)
    (h : directive s.pfx line = some (before, [kw]))
    (hk : kw = kwDef ∨ kw = kwIf ∨ kw = kwTemplate) :
    s.neutral o line = .error (.indexOutOfRange 1 1) := by
  obtain ⟨hc, hs⟩ := splitPrefix_of_directive s line before _ h
  rcases hk with rfl | rfl | rfl
  · simp +decide [scanner.neutral, hc, hs, index]
  · simp +decide [scanner.neutral, hc, hs, index]
  · simp +decide [scanner.neutral, hc, hs, index]

/-- C20: a directive line with a missing token makes `Process` return an error and no
output. In every state reached by `Process`, when the next line read contains the prefix and
has no token after it, the top handler (default, capture or skip handler alike) fails with a
runtime index error, which `Process` returns; and when the default handler is on top and the
tokens of the next line are just `def`, just `if` or just `template`, the lookup of the
argument fails with the runtime error "index out of range [1] with length 1", which `Process`
returns. -/
theorem missing_token_error (o : MapOrder) (input : Bytes) (flags : List Bytes) (pfx : Bytes)
    (n : Nat) (s : scanner) (done : List Bytes) (quote : Bytes → String)
    (hrun : scanner.turns o n ((newScanner input flags pfx).pushState .neutral) []
      = some (s, done))
    (hne : s.eof = false) :
    (Contains s.line.1 s.pfx = true → firstToken s.pfx s.line.1 = none →
      ∃ i len, s.step o = .error (.indexOutOfRange i len) ∧
        ∀ k, Process o (n + (k + 1)) input flags pfx
          = some (.error (.indexOutOfRange i len))) ∧
    (∀ stk before kw, s.state = .neutral :: stk →
      directive s.pfx s.line.1 = some (before, [kw]) →
      (kw = kwDef ∨ kw = kwIf ∨ kw = kwTemplate) →
      s.step o = .error (.indexOutOfRange 1 1) ∧
        ∀ k, Process o (n + (k + 1)) input flags pfx
          = some (.error (.indexOutOfRange 1 1))) ∧
    (Err.indexOutOfRange 1 1).Error quote
      = "runtime error: index out of range [" ++ toString (1 : Int) ++ "] with length "
          ++ toString 1 := by
  refine ⟨?_, ?_, rfl⟩
  · intro hc ht
    obtain ⟨i, len, h⟩ := dispatch_no_token o s.line.2 s.line.1 hc ht
    exact ⟨i, len, h, fun k => Process_error_of_turns o input flags pfx n s done _ hrun hne h k⟩
  · intro stk before kw hst hd hk
    have h : s.step o = .error (.indexOutOfRange 1 1) := by
      rw [step_neutral o s stk hst]
      exact neutral_no_argument o s.line.2 s.line.1 before kw hd hk
    exact ⟨h, fun k => Process_error_of_turns o input flags pfx n s done _ hrun hne h k⟩

theorem missing_token_error_witness :
    (∃ i len, scanner.step MapOrder.stored
        ⟨[], [], [kwTrue], bytesOf "//", [.defn (bytesOf "X") [], .neutral], [], 1,
          bytesOf "a //  \n// enddef\n", false⟩ = .error (.indexOutOfRange i len) ∧
      ∀ k, Process MapOrder.stored (1 + (k + 1)) (bytesOf "// def X\na //  \n// enddef\n") []
        (bytesOf "//") = some (.error (.indexOutOfRange i len))) ∧
    Process MapOrder.stored (0 + (0 + 1)) (bytesOf "// template\n") [] (bytesOf "//")
      = some (.error (.indexOutOfRange 1 1)) :=
  ⟨(missing_token_error MapOrder.stored (bytesOf "// def X\na //  \n// enddef\n") []
      (bytesOf "//") 1
      ⟨[], [], [kwTrue], bytesOf "//", [.defn (bytesOf "X") [], .neutral], [], 1,
        bytesOf "a //  \n// enddef\n", false⟩ [] (fun _ => "") (by decide) rfl).1
      (by decide) (by decide),
   ((missing_token_error MapOrder.stored (bytesOf "// template\n") [] (bytesOf "//") 0
      ⟨[], [], [kwTrue], bytesOf "//", [.neutral], [], 0, bytesOf "// template\n", false⟩ []
      (fun _ => "") (by decide) rfl).2.1 [] [] kwTemplate rfl (by decide)
      (Or.inr (Or.inr rfl))).2 0⟩

end Preprocess
